import Mathlib

set_option maxHeartbeats 2000000

/-
Verification of the intrusive reference-counted tree from `src/node.rs`.

The heap is modelled as a list of node records indexed by `Nat` node ids.
Each record carries the five link slots (`Cell<Weak<Node<T>>>` fields, an
empty `Weak` being `none`), the `Rc` strong count, and a ghost counter
`tree_units` that records the strong-count units granted to the tree by
`Rc::increment_strong_count` in `attach` and taken back by
`Rc::decrement_strong_count` in `detach` or by `Rc::from_raw` in `Drop`.
A node whose strong count is zero has been deallocated; its payload is
released exactly when its id is appended to `State.released`.
-/

/-- Record of one `Node<T>` allocation: the five weak link slots, the
`Rc` strong count, and the ghost count of tree-held ownership units. -/
structure NodeData where
  parent : Option Nat
  first_child : Option Nat
  last_child : Option Nat
  prev_sibling : Option Nat
  next_sibling : Option Nat
  strong : Nat
  tree_units : Nat
deriving DecidableEq, Repr

/-- Heap of node allocations (index = node id) together with the list of
node ids whose payload has been released, in release order. -/
structure State where
  nodes : List NodeData
  released : List Nat
deriving DecidableEq, Repr

/-- Look up the record of node `i`, `none` when the id was never allocated. -/
def State.node? (s : State) (i : Nat) : Option NodeData :=
  s.nodes[i]?

/-- Strong count of node `i` (0 for unallocated ids, matching
`Weak::strong_count` on a dangling weak). -/
def strongOf (s : State) (i : Nat) : Nat :=
  (s.node? i).elim 0 NodeData.strong

/-- Ghost count of ownership units the tree currently holds over node `i`. -/
def treeUnitsOf (s : State) (i : Nat) : Nat :=
  (s.node? i).elim 0 NodeData.tree_units

/-- Contents of the `parent` slot of node `i`. -/
def parentRaw (s : State) (i : Nat) : Option Nat :=
  (s.node? i).elim none NodeData.parent

/-- Contents of the `first_child` slot of node `i`. -/
def firstRaw (s : State) (i : Nat) : Option Nat :=
  (s.node? i).elim none NodeData.first_child

/-- Contents of the `last_child` slot of node `i`. -/
def lastRaw (s : State) (i : Nat) : Option Nat :=
  (s.node? i).elim none NodeData.last_child

/-- Contents of the `prev_sibling` slot of node `i`. -/
def prevRaw (s : State) (i : Nat) : Option Nat :=
  (s.node? i).elim none NodeData.prev_sibling

/-- Contents of the `next_sibling` slot of node `i`. -/
def nextRaw (s : State) (i : Nat) : Option Nat :=
  (s.node? i).elim none NodeData.next_sibling

/-- Semantics of `Weak::upgrade`: a populated weak upgrades exactly when the
pointee's strong count is positive. -/
def upgrade (s : State) (w : Option Nat) : Option Nat :=
  match w with
  | none => none
  | some i => if 0 < strongOf s i then some i else none

/-- Replace the record of node `i` by `f` applied to it (no-op when the id
was never allocated). -/
def modifyNode (s : State) (i : Nat) (f : NodeData → NodeData) : State :=
  match s.nodes[i]? with
  | some d => { s with nodes := s.nodes.set i (f d) }
  | none => s

/-- Write `w` into the `parent` slot of node `i`. -/
def setParent (s : State) (i : Nat) (w : Option Nat) : State :=
  modifyNode s i fun d => { d with parent := w }

/-- Write `w` into the `first_child` slot of node `i`. -/
def setFirstChild (s : State) (i : Nat) (w : Option Nat) : State :=
  modifyNode s i fun d => { d with first_child := w }

/-- Write `w` into the `last_child` slot of node `i`. -/
def setLastChild (s : State) (i : Nat) (w : Option Nat) : State :=
  modifyNode s i fun d => { d with last_child := w }

/-- Write `w` into the `prev_sibling` slot of node `i`. -/
def setPrevSibling (s : State) (i : Nat) (w : Option Nat) : State :=
  modifyNode s i fun d => { d with prev_sibling := w }

/-- Write `w` into the `next_sibling` slot of node `i`. -/
def setNextSibling (s : State) (i : Nat) (w : Option Nat) : State :=
  modifyNode s i fun d => { d with next_sibling := w }

/-- Increment the strong count of node `i` (`Rc::increment_strong_count`). -/
def incStrong (s : State) (i : Nat) : State :=
  modifyNode s i fun d => { d with strong := d.strong + 1 }

/-- Decrement the strong count of node `i`. -/
def decStrong (s : State) (i : Nat) : State :=
  modifyNode s i fun d => { d with strong := d.strong - 1 }

/-- Ghost bump of the tree-held unit count of node `i`. -/
def incTreeUnits (s : State) (i : Nat) : State :=
  modifyNode s i fun d => { d with tree_units := d.tree_units + 1 }

/-- Ghost release of one tree-held unit of node `i`. -/
def decTreeUnits (s : State) (i : Nat) : State :=
  modifyNode s i fun d => { d with tree_units := d.tree_units - 1 }

/-- The four positions a node can be attached at, from `enum AttachTarget`. -/
inductive AttachTarget where
  | FirstChild
  | LastChild
  | After
  | Before
deriving DecidableEq, Repr

namespace Node

/-- Model of `Node::new`: allocate a fresh root with one caller handle and
return its id together with the new state. -/
def new (s : State) : Nat × State :=
  (s.nodes.length,
   { s with nodes := s.nodes ++ [⟨none, none, none, none, none, 1, 0⟩] })

/-- Accessor `Node::parent`: reads the `parent` slot. -/
def parent (s : State) (i : Nat) : Option Nat :=
  parentRaw s i

/-- Accessor `Node::first_child`: reads the `first_child` slot. -/
def first_child (s : State) (i : Nat) : Option Nat :=
  firstRaw s i

/-- Accessor `Node::last_child` as written in the source: it reads the
`prev_sibling` slot (`self.prev_sibling.get()`), not the `last_child` slot. -/
def last_child (s : State) (i : Nat) : Option Nat :=
  prevRaw s i

/-- Accessor `Node::prev_sibling`: reads the `prev_sibling` slot. -/
def prev_sibling (s : State) (i : Nat) : Option Nat :=
  prevRaw s i

/-- Accessor `Node::next_sibling`: reads the `next_sibling` slot. -/
def next_sibling (s : State) (i : Nat) : Option Nat :=
  nextRaw s i

/-- Model of `Node::is_root`: the taken `parent` weak is pointer-equal to
`Weak::new()` exactly when the slot is empty (a downgraded weak never
compares equal to `Weak::new()`), and the slot is restored afterwards. -/
def is_root (s : State) (i : Nat) : Bool :=
  (parentRaw s i).isNone

/-- Model of `Node::detach`: take the three back-reference slots; if there
was a live parent, release the tree-held strong count
(`Rc::decrement_strong_count`) and patch the neighbours. -/
def detach (s : State) (i : Nat) : State :=
  let par := parentRaw s i
  let prev := prevRaw s i
  let next := nextRaw s i
  let s1 := setParent (setPrevSibling (setNextSibling s i none) i none) i none
  match upgrade s1 par with
  | none => s1
  | some p =>
    let s2 := decTreeUnits (decStrong s1 i) i
    let s3 :=
      match upgrade s2 prev with
      | some pv => setNextSibling s2 pv next
      | none => setFirstChild s2 p next
    match upgrade s3 next with
    | some nx => setPrevSibling s3 nx prev
    | none => setLastChild s3 p prev

/-- Model of the nested function `_attach`: link `node` between `prev` and
`next` under `parent`, writing the neighbour slots first and then the three
back-references of `node`. -/
def _attach (s : State) (p : Nat) (prev next : Option Nat) (node : Nat) : State :=
  let s1 :=
    match prev with
    | some pv => setNextSibling s pv (some node)
    | none => setFirstChild s p (some node)
  let s2 :=
    match next with
    | some nx => setPrevSibling s1 nx (some node)
    | none => setLastChild s1 p (some node)
  setNextSibling (setPrevSibling (setParent s2 node (some p)) node prev) node next

/-- Model of `Node::attach`: the `assert!(node.is_root())` and the
`expect` on a missing parent for `Before`/`After` are modelled as
`InvalidState` errors; on success the strong count of `node` is bumped
(`Rc::increment_strong_count`), granting the tree one ownership unit. -/
def attach (s : State) (i : Nat) (t : AttachTarget) (node : Nat) :
    Except String State :=
  if is_root s node then
    match t with
    | .Before =>
      match upgrade s (parentRaw s i) with
      | some p =>
        let prev := upgrade s (prevRaw s i)
        .ok (incTreeUnits (incStrong (_attach s p prev (some i) node) node) node)
      | none => .error "Cannot attach node as sibling to a root node"
    | .After =>
      match upgrade s (parentRaw s i) with
      | some p =>
        let next := upgrade s (nextRaw s i)
        .ok (incTreeUnits (incStrong (_attach s p (some i) next node) node) node)
      | none => .error "Cannot attach node as sibling to a root node"
    | .FirstChild =>
      let next := upgrade s (firstRaw s i)
      .ok (incTreeUnits (incStrong (_attach s i none next node) node) node)
    | .LastChild =>
      let prev := upgrade s (lastRaw s i)
      .ok (incTreeUnits (incStrong (_attach s i prev none node) node) node)
  else .error "node is already attached"

/-- Model of `Node::add_child_last`: sugar for `attach(LastChild, node)`. -/
def add_child_last (s : State) (i : Nat) (node : Nat) : Except String State :=
  attach s i .LastChild node

/-- Model of `Node::remove_last_child`: upgrade `self.last_child()` (which,
as written, reads the `prev_sibling` slot) and detach the result.  The
upgrade materializes an `Rc` that is returned to the caller, so the strong
count of the returned node is bumped before the detach. -/
def remove_last_child (s : State) (i : Nat) : Option Nat × State :=
  match upgrade s (last_child s i) with
  | none => (none, s)
  | some x => (some x, detach (incStrong s x) x)

/-- One fuelled unfolding of the `children` iterator: emit the current node
and step to `next_sibling().upgrade()`. -/
def sibWalk (s : State) : Nat → Option Nat → List Nat
  | 0, _ => []
  | _ + 1, none => []
  | fuel + 1, some n => n :: sibWalk s fuel (upgrade s (nextRaw s n))

/-- Model of `Node::children`: the sequence produced by the `Iter` iterator,
starting from `first_child().upgrade()`.  The heap size bounds the fuel; a
well-formed chain is shorter than that. -/
def children (s : State) (i : Nat) : List Nat :=
  sibWalk s s.nodes.length (upgrade s (firstRaw s i))

/-- Fuelled unfolding of the `Parents` iterator. -/
def parWalk (s : State) : Nat → Option Nat → List Nat
  | 0, _ => []
  | _ + 1, none => []
  | fuel + 1, some n => n :: parWalk s fuel (upgrade s (parentRaw s n))

/-- Model of `Node::parents`: strict ancestors starting from
`parent().upgrade()`. -/
def parents (s : State) (i : Nat) : List Nat :=
  parWalk s s.nodes.length (upgrade s (parentRaw s i))

end Node

/-- Call shapes of the teardown interpreter: dropping an `Rc` handle,
running `drop_in_place` on a dead node, and the `Drop for Node` child loop. -/
inductive DropCall where
  | rc (i : Nat)
  | node (i : Nat)
  | childLoop (w : Option Nat)
deriving DecidableEq, Repr

/-- Fuelled interpreter of the teardown protocol.

`rc i` releases one strong count of `i`; if the count reaches zero the node
dies and `node i` runs.  `node i` runs `Drop for Node` (the child loop
starting at the `first_child` slot) and then releases the payload of `i`
(the `value` field is dropped after the `Drop` impl returns).  `childLoop w`
is the `while node.strong_count() > 0` loop: it turns the tree-held unit of
the child into an explicit handle (`Rc::from_raw`, ghost-only), takes the
child's `parent` and `prev_sibling` slots, takes `next_sibling` to advance,
and lets the reconstituted handle go out of scope (`rc`). -/
def dropGo : Nat → State → DropCall → State
  | 0, s, _ => s
  | fuel + 1, s, .rc i =>
    let s1 := decStrong s i
    if strongOf s1 i = 0 then dropGo fuel s1 (.node i) else s1
  | fuel + 1, s, .node i =>
    let s1 := dropGo fuel s (.childLoop (firstRaw s i))
    { s1 with released := s1.released ++ [i] }
  | _ + 1, s, .childLoop none => s
  | fuel + 1, s, .childLoop (some j) =>
    if 0 < strongOf s j then
      let s1 := setPrevSibling (setParent (decTreeUnits s j) j none) j none
      let w := nextRaw s1 j
      let s2 := setNextSibling s1 j none
      let s3 := dropGo fuel s2 (.rc j)
      dropGo fuel s3 (.childLoop w)
    else s

/-- Release one external strong handle on node `i`, running the teardown
protocol if the count reaches zero. -/
def dropRc (fuel : Nat) (s : State) (i : Nat) : State :=
  dropGo fuel s (.rc i)

/-- First id of a sibling chain continuation: the head of `rest`, or the
outer bound `nx` when `rest` is empty. -/
def nextBound (rest : List Nat) (nx : Option Nat) : Option Nat :=
  match rest with
  | [] => nx
  | r :: _ => some r

/-- Last id of a sibling chain prefix: the last element of `l`, or the
outer bound `pr` when `l` is empty. -/
def prevBound (l : List Nat) (pr : Option Nat) : Option Nat :=
  match l.getLast? with
  | some x => some x
  | none => pr

/-- Boolean check that `l` is a consistent doubly linked sibling segment
under parent `p`: every member is in bounds, alive, carries exactly one
tree-held unit, points back to its predecessor (`pr` for the head), points
forward to its successor (`nx` past the tail), and names `p` as parent. -/
def segOkb (s : State) (p : Nat) : Option Nat → List Nat → Option Nat → Bool
  | _, [], _ => true
  | pr, c :: rest, nx =>
    decide (c < s.nodes.length) && (prevRaw s c == pr) &&
    (parentRaw s c == some p) && decide (0 < strongOf s c) &&
    (treeUnitsOf s c == 1) && (nextRaw s c == nextBound rest nx) &&
    segOkb s p (some c) rest nx

/-- Propositional form of `segOkb`. -/
def segOk (s : State) (p : Nat) (pr : Option Nat) (l : List Nat)
    (nx : Option Nat) : Prop :=
  segOkb s p pr l nx = true

/-- Well-formedness invariant of a heap, maintained by every public
operation: each live node's children sequence is a consistent duplicate-free
doubly linked chain headed by its `first_child` slot and closed by its
`last_child` slot; a live root has empty sibling slots and no tree-held
unit; a live attached node occurs in its (live, in-bounds) parent's children
sequence; and tree-held units never exceed the strong count. -/
def WF (s : State) : Prop :=
  (∀ p, p < s.nodes.length → 0 < strongOf s p →
    firstRaw s p = (Node.children s p).head? ∧
    lastRaw s p = (Node.children s p).getLast? ∧
    segOk s p none (Node.children s p) none ∧
    (Node.children s p).Nodup) ∧
  (∀ n, n < s.nodes.length → 0 < strongOf s n →
    (parentRaw s n = none →
      prevRaw s n = none ∧ nextRaw s n = none ∧ treeUnitsOf s n = 0) ∧
    (∀ p, parentRaw s n = some p →
      p < s.nodes.length ∧ 0 < strongOf s p ∧ n ∈ Node.children s p) ∧
    treeUnitsOf s n ≤ strongOf s n)

/-- Executable form of `WF`, used to decide the invariant on concrete
heaps. -/
def WFb (s : State) : Bool :=
  ((List.range s.nodes.length).all fun p =>
    (strongOf s p == 0) ||
    ((firstRaw s p == (Node.children s p).head?) &&
     (lastRaw s p == (Node.children s p).getLast?) &&
     segOkb s p none (Node.children s p) none &&
     decide (Node.children s p).Nodup)) &&
  ((List.range s.nodes.length).all fun n =>
    (strongOf s n == 0) ||
    ((match parentRaw s n with
      | none =>
        (prevRaw s n == none) && (nextRaw s n == none) &&
        (treeUnitsOf s n == 0)
      | some p =>
        decide (p < s.nodes.length) && decide (0 < strongOf s p) &&
        decide (n ∈ Node.children s p)) &&
     decide (treeUnitsOf s n ≤ strongOf s n)))

/-- Rose tree of node ids: the abstraction of one subtree of the heap used
to state the teardown (no-leak) property. -/
inductive RTree where
  | node (id : Nat) (children : List RTree)

/-- Root id of a rose tree. -/
def RTree.rootId : RTree → Nat
  | .node i _ => i

mutual

/-- Number of nodes of a rose tree. -/
def RTree.sizeT : RTree → Nat
  | .node _ cs => 1 + RTree.sizeC cs

/-- Total number of nodes of a list of rose trees. -/
def RTree.sizeC : List RTree → Nat
  | [] => 0
  | t :: ts => RTree.sizeT t + RTree.sizeC ts

end

mutual

/-- Preorder list of the ids of a rose tree. -/
def RTree.idsT : RTree → List Nat
  | .node i cs => i :: RTree.idsC cs

/-- Preorder list of the ids of a list of rose trees. -/
def RTree.idsC : List RTree → List Nat
  | [] => []
  | t :: ts => RTree.idsT t ++ RTree.idsC ts

end

mutual

/-- Postorder list of the ids of a rose tree: children first, root last.
This is the order in which the teardown protocol releases payloads. -/
def RTree.postT : RTree → List Nat
  | .node i cs => RTree.postC cs ++ [i]

/-- Postorder ids of a list of rose trees. -/
def RTree.postC : List RTree → List Nat
  | [] => []
  | t :: ts => RTree.postT t ++ RTree.postC ts

end

/-- Root id of the first tree of a list, `none` for the empty list. -/
def headIds : List RTree → Option Nat
  | [] => none
  | t :: _ => some t.rootId

mutual

/-- Boolean check that rose tree `t` is realized in heap `s` with no
external handles: its root has strong count exactly 1 (the single unit the
tree structure holds over an attached node, or the last caller handle for
the overall root), its `first_child` slot heads its child list, and the
children are chain-linked via `next_sibling` and realized recursively. -/
def repTb (s : State) : RTree → Bool
  | .node i cs =>
    (strongOf s i == 1) && (firstRaw s i == headIds cs) && repCb s cs

/-- Boolean check that a list of rose trees is realized as a sibling chain. -/
def repCb (s : State) : List RTree → Bool
  | [] => true
  | t :: ts =>
    repTb s t && (nextRaw s t.rootId == headIds ts) && repCb s ts

end

/-- Propositional form of `repTb`. -/
def repT (s : State) (t : RTree) : Prop :=
  repTb s t = true

/-- Propositional form of `repCb`. -/
def repC (s : State) (ts : List RTree) : Prop :=
  repCb s ts = true

/-- The empty heap. -/
def emptyState : State :=
  ⟨[], []⟩

/-- Extract the success state of an operation, with a fallback default. -/
def okD (e : Except String State) (d : State) : State :=
  match e with
  | .ok s => s
  | .error _ => d

/-- Scenario heap: four fresh roots R = 0, A = 1, B = 2, C = 3. -/
def stC : State :=
  (Node.new (Node.new (Node.new (Node.new emptyState).2).2).2).2

/-- Scenario heap after `R.add_child_last(A)`. -/
def stAdd1 : State :=
  okD (Node.add_child_last stC 0 1) stC

/-- Scenario heap after `R.add_child_last(B)`. -/
def stAdd2 : State :=
  okD (Node.add_child_last stAdd1 0 2) stAdd1

/-- Scenario heap after `R.add_child_last(C)`. -/
def stAdd3 : State :=
  okD (Node.add_child_last stAdd2 0 3) stAdd2

/-- Scenario heap after `B.detach()`. -/
def stDet : State :=
  Node.detach stAdd3 2

/-- Teardown scenario: R = 0 with children A = 1 and B = 2, and C = 3
attached under B. -/
def stT3 : State :=
  okD (Node.add_child_last stAdd2 2 3) stAdd2

/-- Teardown scenario after dropping the external handles of A, B and C
(their strong counts fall from 2 to 1, nothing is deallocated). -/
def stRel : State :=
  dropRc 1 (dropRc 1 (dropRc 1 stT3 1) 2) 3

/-- Rose tree abstraction of the teardown scenario. -/
def dropTree : RTree :=
  RTree.node 0 [RTree.node 1 [], RTree.node 2 [RTree.node 3 []]]

/-- Agreement of two heaps on every field of node `c` that a sibling
segment check reads. -/
def agreeSib (s s' : State) (c : Nat) : Prop :=
  prevRaw s' c = prevRaw s c ∧ nextRaw s' c = nextRaw s c ∧
  parentRaw s' c = parentRaw s c ∧ strongOf s' c = strongOf s c ∧
  treeUnitsOf s' c = treeUnitsOf s c

/-- Postcondition bundle of one successful `_attach` of `node` under `p`
followed by the strong-count bump: the invariant is preserved, the children
sequence of `p` becomes `newChain`, `node` is linked under `p`, exactly one
strong count and one tree-held unit are granted to `node` and nothing else
changes counts, sizes, the release log, or any other live node's children
sequence. -/
def AttachPost (s : State) (p node : Nat) (newChain : List Nat)
    (s' : State) : Prop :=
  WF s' ∧
  Node.children s' p = newChain ∧
  parentRaw s' node = some p ∧
  strongOf s' node = strongOf s node + 1 ∧
  treeUnitsOf s' node = treeUnitsOf s node + 1 ∧
  (∀ m, m ≠ node →
    strongOf s' m = strongOf s m ∧ treeUnitsOf s' m = treeUnitsOf s m) ∧
  s'.nodes.length = s.nodes.length ∧
  s'.released = s.released ∧
  (∀ q, q ≠ p → q < s.nodes.length → 0 < strongOf s q →
    Node.children s' q = Node.children s q)

/-- Postcondition bundle of `detach` on a node `i` attached under `p`: the
invariant is preserved, the children sequence of `p` becomes `newChain`
(the old one without `i`), `i` is a root with cleared sibling slots, the
tree's strong count and ghost unit over `i` are released and no other
count, the heap size, the release log or any other live node's children
sequence changes, and the neighbours are patched exactly as the source
states. -/
def DetachPost (s : State) (p i : Nat) (newChain : List Nat)
    (s' : State) : Prop :=
  WF s' ∧
  Node.children s' p = newChain ∧
  parentRaw s' i = none ∧ prevRaw s' i = none ∧ nextRaw s' i = none ∧
  strongOf s' i + 1 = strongOf s i ∧ treeUnitsOf s' i = 0 ∧
  (∀ m, m ≠ i →
    strongOf s' m = strongOf s m ∧ treeUnitsOf s' m = treeUnitsOf s m) ∧
  s'.nodes.length = s.nodes.length ∧
  s'.released = s.released ∧
  (∀ q, q ≠ p → q < s.nodes.length → 0 < strongOf s q →
    Node.children s' q = Node.children s q) ∧
  (∀ pv, prevRaw s i = some pv → nextRaw s' pv = nextRaw s i) ∧
  (prevRaw s i = none → firstRaw s' p = nextRaw s i) ∧
  (∀ nx, nextRaw s i = some nx → prevRaw s' nx = prevRaw s i) ∧
  (nextRaw s i = none → lastRaw s' p = prevRaw s i)

/-- Record lookup after a targeted modification. -/
theorem node?_modifyNode (s : State) (j : Nat) (f : NodeData → NodeData)
    (i : Nat) :
    (modifyNode s j f).node? i =
      if j = i then (s.node? j).map f else s.node? i := by
  unfold modifyNode State.node?
  split
  · rename_i d h
    have hj : j < s.nodes.length := (List.getElem?_eq_some.mp h).1
    by_cases hji : j = i
    · subst hji
      simp [List.getElem?_set, hj, h]
    · simp [List.getElem?_set, hji]
  · rename_i h
    by_cases hji : j = i
    · subst hji
      simp [h]
    · simp [hji]

/-- Heap size is unchanged by targeted modification. -/
theorem length_modifyNode (s : State) (j : Nat) (f : NodeData → NodeData) :
    (modifyNode s j f).nodes.length = s.nodes.length := by
  unfold modifyNode
  cases h : s.nodes[j]? <;> simp

/-- The release log is unchanged by targeted modification. -/
theorem released_modifyNode (s : State) (j : Nat) (f : NodeData → NodeData) :
    (modifyNode s j f).released = s.released := by
  unfold modifyNode
  cases h : s.nodes[j]? <;> simp
/-- Field `parent` is untouched by `setFirstChild`. -/
theorem parentRaw_setFirstChild (s : State) (j : Nat) (w : Option Nat) (i : Nat) :
    parentRaw (setFirstChild s j w) i = parentRaw s i := by
  unfold parentRaw setFirstChild
  rw [node?_modifyNode]
  split
  · rename_i h
    subst h
    cases s.node? j <;> rfl
  · rfl

/-- Field `parent` is untouched by `setLastChild`. -/
theorem parentRaw_setLastChild (s : State) (j : Nat) (w : Option Nat) (i : Nat) :
    parentRaw (setLastChild s j w) i = parentRaw s i := by
  unfold parentRaw setLastChild
  rw [node?_modifyNode]
  split
  · rename_i h
    subst h
    cases s.node? j <;> rfl
  · rfl

/-- Field `parent` is untouched by `setPrevSibling`. -/
theorem parentRaw_setPrevSibling (s : State) (j : Nat) (w : Option Nat) (i : Nat) :
    parentRaw (setPrevSibling s j w) i = parentRaw s i := by
  unfold parentRaw setPrevSibling
  rw [node?_modifyNode]
  split
  · rename_i h
    subst h
    cases s.node? j <;> rfl
  · rfl

/-- Field `parent` is untouched by `setNextSibling`. -/
theorem parentRaw_setNextSibling (s : State) (j : Nat) (w : Option Nat) (i : Nat) :
    parentRaw (setNextSibling s j w) i = parentRaw s i := by
  unfold parentRaw setNextSibling
  rw [node?_modifyNode]
  split
  · rename_i h
    subst h
    cases s.node? j <;> rfl
  · rfl

/-- Field `parent` is untouched by `incStrong`. -/
theorem parentRaw_incStrong (s : State) (j : Nat) (i : Nat) :
    parentRaw (incStrong s j ) i = parentRaw s i := by
  unfold parentRaw incStrong
  rw [node?_modifyNode]
  split
  · rename_i h
    subst h
    cases s.node? j <;> rfl
  · rfl

/-- Field `parent` is untouched by `decStrong`. -/
theorem parentRaw_decStrong (s : State) (j : Nat) (i : Nat) :
    parentRaw (decStrong s j ) i = parentRaw s i := by
  unfold parentRaw decStrong
  rw [node?_modifyNode]
  split
  · rename_i h
    subst h
    cases s.node? j <;> rfl
  · rfl

/-- Field `parent` is untouched by `incTreeUnits`. -/
theorem parentRaw_incTreeUnits (s : State) (j : Nat) (i : Nat) :
    parentRaw (incTreeUnits s j ) i = parentRaw s i := by
  unfold parentRaw incTreeUnits
  rw [node?_modifyNode]
  split
  · rename_i h
    subst h
    cases s.node? j <;> rfl
  · rfl

/-- Field `parent` is untouched by `decTreeUnits`. -/
theorem parentRaw_decTreeUnits (s : State) (j : Nat) (i : Nat) :
    parentRaw (decTreeUnits s j ) i = parentRaw s i := by
  unfold parentRaw decTreeUnits
  rw [node?_modifyNode]
  split
  · rename_i h
    subst h
    cases s.node? j <;> rfl
  · rfl

/-- Field `first_child` is untouched by `setParent`. -/
theorem firstRaw_setParent (s : State) (j : Nat) (w : Option Nat) (i : Nat) :
    firstRaw (setParent s j w) i = firstRaw s i := by
  unfold firstRaw setParent
  rw [node?_modifyNode]
  split
  · rename_i h
    subst h
    cases s.node? j <;> rfl
  · rfl

/-- Field `first_child` is untouched by `setLastChild`. -/
theorem firstRaw_setLastChild (s : State) (j : Nat) (w : Option Nat) (i : Nat) :
    firstRaw (setLastChild s j w) i = firstRaw s i := by
  unfold firstRaw setLastChild
  rw [node?_modifyNode]
  split
  · rename_i h
    subst h
    cases s.node? j <;> rfl
  · rfl

/-- Field `first_child` is untouched by `setPrevSibling`. -/
theorem firstRaw_setPrevSibling (s : State) (j : Nat) (w : Option Nat) (i : Nat) :
    firstRaw (setPrevSibling s j w) i = firstRaw s i := by
  unfold firstRaw setPrevSibling
  rw [node?_modifyNode]
  split
  · rename_i h
    subst h
    cases s.node? j <;> rfl
  · rfl

/-- Field `first_child` is untouched by `setNextSibling`. -/
theorem firstRaw_setNextSibling (s : State) (j : Nat) (w : Option Nat) (i : Nat) :
    firstRaw (setNextSibling s j w) i = firstRaw s i := by
  unfold firstRaw setNextSibling
  rw [node?_modifyNode]
  split
  · rename_i h
    subst h
    cases s.node? j <;> rfl
  · rfl

/-- Field `first_child` is untouched by `incStrong`. -/
theorem firstRaw_incStrong (s : State) (j : Nat) (i : Nat) :
    firstRaw (incStrong s j ) i = firstRaw s i := by
  unfold firstRaw incStrong
  rw [node?_modifyNode]
  split
  · rename_i h
    subst h
    cases s.node? j <;> rfl
  · rfl

/-- Field `first_child` is untouched by `decStrong`. -/
theorem firstRaw_decStrong (s : State) (j : Nat) (i : Nat) :
    firstRaw (decStrong s j ) i = firstRaw s i := by
  unfold firstRaw decStrong
  rw [node?_modifyNode]
  split
  · rename_i h
    subst h
    cases s.node? j <;> rfl
  · rfl

/-- Field `first_child` is untouched by `incTreeUnits`. -/
theorem firstRaw_incTreeUnits (s : State) (j : Nat) (i : Nat) :
    firstRaw (incTreeUnits s j ) i = firstRaw s i := by
  unfold firstRaw incTreeUnits
  rw [node?_modifyNode]
  split
  · rename_i h
    subst h
    cases s.node? j <;> rfl
  · rfl

/-- Field `first_child` is untouched by `decTreeUnits`. -/
theorem firstRaw_decTreeUnits (s : State) (j : Nat) (i : Nat) :
    firstRaw (decTreeUnits s j ) i = firstRaw s i := by
  unfold firstRaw decTreeUnits
  rw [node?_modifyNode]
  split
  · rename_i h
    subst h
    cases s.node? j <;> rfl
  · rfl

/-- Field `last_child` is untouched by `setParent`. -/
theorem lastRaw_setParent (s : State) (j : Nat) (w : Option Nat) (i : Nat) :
    lastRaw (setParent s j w) i = lastRaw s i := by
  unfold lastRaw setParent
  rw [node?_modifyNode]
  split
  · rename_i h
    subst h
    cases s.node? j <;> rfl
  · rfl

/-- Field `last_child` is untouched by `setFirstChild`. -/
theorem lastRaw_setFirstChild (s : State) (j : Nat) (w : Option Nat) (i : Nat) :
    lastRaw (setFirstChild s j w) i = lastRaw s i := by
  unfold lastRaw setFirstChild
  rw [node?_modifyNode]
  split
  · rename_i h
    subst h
    cases s.node? j <;> rfl
  · rfl

/-- Field `last_child` is untouched by `setPrevSibling`. -/
theorem lastRaw_setPrevSibling (s : State) (j : Nat) (w : Option Nat) (i : Nat) :
    lastRaw (setPrevSibling s j w) i = lastRaw s i := by
  unfold lastRaw setPrevSibling
  rw [node?_modifyNode]
  split
  · rename_i h
    subst h
    cases s.node? j <;> rfl
  · rfl

/-- Field `last_child` is untouched by `setNextSibling`. -/
theorem lastRaw_setNextSibling (s : State) (j : Nat) (w : Option Nat) (i : Nat) :
    lastRaw (setNextSibling s j w) i = lastRaw s i := by
  unfold lastRaw setNextSibling
  rw [node?_modifyNode]
  split
  · rename_i h
    subst h
    cases s.node? j <;> rfl
  · rfl

/-- Field `last_child` is untouched by `incStrong`. -/
theorem lastRaw_incStrong (s : State) (j : Nat) (i : Nat) :
    lastRaw (incStrong s j ) i = lastRaw s i := by
  unfold lastRaw incStrong
  rw [node?_modifyNode]
  split
  · rename_i h
    subst h
    cases s.node? j <;> rfl
  · rfl

/-- Field `last_child` is untouched by `decStrong`. -/
theorem lastRaw_decStrong (s : State) (j : Nat) (i : Nat) :
    lastRaw (decStrong s j ) i = lastRaw s i := by
  unfold lastRaw decStrong
  rw [node?_modifyNode]
  split
  · rename_i h
    subst h
    cases s.node? j <;> rfl
  · rfl

/-- Field `last_child` is untouched by `incTreeUnits`. -/
theorem lastRaw_incTreeUnits (s : State) (j : Nat) (i : Nat) :
    lastRaw (incTreeUnits s j ) i = lastRaw s i := by
  unfold lastRaw incTreeUnits
  rw [node?_modifyNode]
  split
  · rename_i h
    subst h
    cases s.node? j <;> rfl
  · rfl

/-- Field `last_child` is untouched by `decTreeUnits`. -/
theorem lastRaw_decTreeUnits (s : State) (j : Nat) (i : Nat) :
    lastRaw (decTreeUnits s j ) i = lastRaw s i := by
  unfold lastRaw decTreeUnits
  rw [node?_modifyNode]
  split
  · rename_i h
    subst h
    cases s.node? j <;> rfl
  · rfl

/-- Field `prev_sibling` is untouched by `setParent`. -/
theorem prevRaw_setParent (s : State) (j : Nat) (w : Option Nat) (i : Nat) :
    prevRaw (setParent s j w) i = prevRaw s i := by
  unfold prevRaw setParent
  rw [node?_modifyNode]
  split
  · rename_i h
    subst h
    cases s.node? j <;> rfl
  · rfl

/-- Field `prev_sibling` is untouched by `setFirstChild`. -/
theorem prevRaw_setFirstChild (s : State) (j : Nat) (w : Option Nat) (i : Nat) :
    prevRaw (setFirstChild s j w) i = prevRaw s i := by
  unfold prevRaw setFirstChild
  rw [node?_modifyNode]
  split
  · rename_i h
    subst h
    cases s.node? j <;> rfl
  · rfl

/-- Field `prev_sibling` is untouched by `setLastChild`. -/
theorem prevRaw_setLastChild (s : State) (j : Nat) (w : Option Nat) (i : Nat) :
    prevRaw (setLastChild s j w) i = prevRaw s i := by
  unfold prevRaw setLastChild
  rw [node?_modifyNode]
  split
  · rename_i h
    subst h
    cases s.node? j <;> rfl
  · rfl

/-- Field `prev_sibling` is untouched by `setNextSibling`. -/
theorem prevRaw_setNextSibling (s : State) (j : Nat) (w : Option Nat) (i : Nat) :
    prevRaw (setNextSibling s j w) i = prevRaw s i := by
  unfold prevRaw setNextSibling
  rw [node?_modifyNode]
  split
  · rename_i h
    subst h
    cases s.node? j <;> rfl
  · rfl

/-- Field `prev_sibling` is untouched by `incStrong`. -/
theorem prevRaw_incStrong (s : State) (j : Nat) (i : Nat) :
    prevRaw (incStrong s j ) i = prevRaw s i := by
  unfold prevRaw incStrong
  rw [node?_modifyNode]
  split
  · rename_i h
    subst h
    cases s.node? j <;> rfl
  · rfl

/-- Field `prev_sibling` is untouched by `decStrong`. -/
theorem prevRaw_decStrong (s : State) (j : Nat) (i : Nat) :
    prevRaw (decStrong s j ) i = prevRaw s i := by
  unfold prevRaw decStrong
  rw [node?_modifyNode]
  split
  · rename_i h
    subst h
    cases s.node? j <;> rfl
  · rfl

/-- Field `prev_sibling` is untouched by `incTreeUnits`. -/
theorem prevRaw_incTreeUnits (s : State) (j : Nat) (i : Nat) :
    prevRaw (incTreeUnits s j ) i = prevRaw s i := by
  unfold prevRaw incTreeUnits
  rw [node?_modifyNode]
  split
  · rename_i h
    subst h
    cases s.node? j <;> rfl
  · rfl

/-- Field `prev_sibling` is untouched by `decTreeUnits`. -/
theorem prevRaw_decTreeUnits (s : State) (j : Nat) (i : Nat) :
    prevRaw (decTreeUnits s j ) i = prevRaw s i := by
  unfold prevRaw decTreeUnits
  rw [node?_modifyNode]
  split
  · rename_i h
    subst h
    cases s.node? j <;> rfl
  · rfl

/-- Field `next_sibling` is untouched by `setParent`. -/
theorem nextRaw_setParent (s : State) (j : Nat) (w : Option Nat) (i : Nat) :
    nextRaw (setParent s j w) i = nextRaw s i := by
  unfold nextRaw setParent
  rw [node?_modifyNode]
  split
  · rename_i h
    subst h
    cases s.node? j <;> rfl
  · rfl

/-- Field `next_sibling` is untouched by `setFirstChild`. -/
theorem nextRaw_setFirstChild (s : State) (j : Nat) (w : Option Nat) (i : Nat) :
    nextRaw (setFirstChild s j w) i = nextRaw s i := by
  unfold nextRaw setFirstChild
  rw [node?_modifyNode]
  split
  · rename_i h
    subst h
    cases s.node? j <;> rfl
  · rfl

/-- Field `next_sibling` is untouched by `setLastChild`. -/
theorem nextRaw_setLastChild (s : State) (j : Nat) (w : Option Nat) (i : Nat) :
    nextRaw (setLastChild s j w) i = nextRaw s i := by
  unfold nextRaw setLastChild
  rw [node?_modifyNode]
  split
  · rename_i h
    subst h
    cases s.node? j <;> rfl
  · rfl

/-- Field `next_sibling` is untouched by `setPrevSibling`. -/
theorem nextRaw_setPrevSibling (s : State) (j : Nat) (w : Option Nat) (i : Nat) :
    nextRaw (setPrevSibling s j w) i = nextRaw s i := by
  unfold nextRaw setPrevSibling
  rw [node?_modifyNode]
  split
  · rename_i h
    subst h
    cases s.node? j <;> rfl
  · rfl

/-- Field `next_sibling` is untouched by `incStrong`. -/
theorem nextRaw_incStrong (s : State) (j : Nat) (i : Nat) :
    nextRaw (incStrong s j ) i = nextRaw s i := by
  unfold nextRaw incStrong
  rw [node?_modifyNode]
  split
  · rename_i h
    subst h
    cases s.node? j <;> rfl
  · rfl

/-- Field `next_sibling` is untouched by `decStrong`. -/
theorem nextRaw_decStrong (s : State) (j : Nat) (i : Nat) :
    nextRaw (decStrong s j ) i = nextRaw s i := by
  unfold nextRaw decStrong
  rw [node?_modifyNode]
  split
  · rename_i h
    subst h
    cases s.node? j <;> rfl
  · rfl

/-- Field `next_sibling` is untouched by `incTreeUnits`. -/
theorem nextRaw_incTreeUnits (s : State) (j : Nat) (i : Nat) :
    nextRaw (incTreeUnits s j ) i = nextRaw s i := by
  unfold nextRaw incTreeUnits
  rw [node?_modifyNode]
  split
  · rename_i h
    subst h
    cases s.node? j <;> rfl
  · rfl

/-- Field `next_sibling` is untouched by `decTreeUnits`. -/
theorem nextRaw_decTreeUnits (s : State) (j : Nat) (i : Nat) :
    nextRaw (decTreeUnits s j ) i = nextRaw s i := by
  unfold nextRaw decTreeUnits
  rw [node?_modifyNode]
  split
  · rename_i h
    subst h
    cases s.node? j <;> rfl
  · rfl

/-- Field `strong` is untouched by `setParent`. -/
theorem strongOf_setParent (s : State) (j : Nat) (w : Option Nat) (i : Nat) :
    strongOf (setParent s j w) i = strongOf s i := by
  unfold strongOf setParent
  rw [node?_modifyNode]
  split
  · rename_i h
    subst h
    cases s.node? j <;> rfl
  · rfl

/-- Field `strong` is untouched by `setFirstChild`. -/
theorem strongOf_setFirstChild (s : State) (j : Nat) (w : Option Nat) (i : Nat) :
    strongOf (setFirstChild s j w) i = strongOf s i := by
  unfold strongOf setFirstChild
  rw [node?_modifyNode]
  split
  · rename_i h
    subst h
    cases s.node? j <;> rfl
  · rfl

/-- Field `strong` is untouched by `setLastChild`. -/
theorem strongOf_setLastChild (s : State) (j : Nat) (w : Option Nat) (i : Nat) :
    strongOf (setLastChild s j w) i = strongOf s i := by
  unfold strongOf setLastChild
  rw [node?_modifyNode]
  split
  · rename_i h
    subst h
    cases s.node? j <;> rfl
  · rfl

/-- Field `strong` is untouched by `setPrevSibling`. -/
theorem strongOf_setPrevSibling (s : State) (j : Nat) (w : Option Nat) (i : Nat) :
    strongOf (setPrevSibling s j w) i = strongOf s i := by
  unfold strongOf setPrevSibling
  rw [node?_modifyNode]
  split
  · rename_i h
    subst h
    cases s.node? j <;> rfl
  · rfl

/-- Field `strong` is untouched by `setNextSibling`. -/
theorem strongOf_setNextSibling (s : State) (j : Nat) (w : Option Nat) (i : Nat) :
    strongOf (setNextSibling s j w) i = strongOf s i := by
  unfold strongOf setNextSibling
  rw [node?_modifyNode]
  split
  · rename_i h
    subst h
    cases s.node? j <;> rfl
  · rfl

/-- Field `strong` is untouched by `incTreeUnits`. -/
theorem strongOf_incTreeUnits (s : State) (j : Nat) (i : Nat) :
    strongOf (incTreeUnits s j ) i = strongOf s i := by
  unfold strongOf incTreeUnits
  rw [node?_modifyNode]
  split
  · rename_i h
    subst h
    cases s.node? j <;> rfl
  · rfl

/-- Field `strong` is untouched by `decTreeUnits`. -/
theorem strongOf_decTreeUnits (s : State) (j : Nat) (i : Nat) :
    strongOf (decTreeUnits s j ) i = strongOf s i := by
  unfold strongOf decTreeUnits
  rw [node?_modifyNode]
  split
  · rename_i h
    subst h
    cases s.node? j <;> rfl
  · rfl

/-- Field `tree_units` is untouched by `setParent`. -/
theorem treeUnitsOf_setParent (s : State) (j : Nat) (w : Option Nat) (i : Nat) :
    treeUnitsOf (setParent s j w) i = treeUnitsOf s i := by
  unfold treeUnitsOf setParent
  rw [node?_modifyNode]
  split
  · rename_i h
    subst h
    cases s.node? j <;> rfl
  · rfl

/-- Field `tree_units` is untouched by `setFirstChild`. -/
theorem treeUnitsOf_setFirstChild (s : State) (j : Nat) (w : Option Nat) (i : Nat) :
    treeUnitsOf (setFirstChild s j w) i = treeUnitsOf s i := by
  unfold treeUnitsOf setFirstChild
  rw [node?_modifyNode]
  split
  · rename_i h
    subst h
    cases s.node? j <;> rfl
  · rfl

/-- Field `tree_units` is untouched by `setLastChild`. -/
theorem treeUnitsOf_setLastChild (s : State) (j : Nat) (w : Option Nat) (i : Nat) :
    treeUnitsOf (setLastChild s j w) i = treeUnitsOf s i := by
  unfold treeUnitsOf setLastChild
  rw [node?_modifyNode]
  split
  · rename_i h
    subst h
    cases s.node? j <;> rfl
  · rfl

/-- Field `tree_units` is untouched by `setPrevSibling`. -/
theorem treeUnitsOf_setPrevSibling (s : State) (j : Nat) (w : Option Nat) (i : Nat) :
    treeUnitsOf (setPrevSibling s j w) i = treeUnitsOf s i := by
  unfold treeUnitsOf setPrevSibling
  rw [node?_modifyNode]
  split
  · rename_i h
    subst h
    cases s.node? j <;> rfl
  · rfl

/-- Field `tree_units` is untouched by `setNextSibling`. -/
theorem treeUnitsOf_setNextSibling (s : State) (j : Nat) (w : Option Nat) (i : Nat) :
    treeUnitsOf (setNextSibling s j w) i = treeUnitsOf s i := by
  unfold treeUnitsOf setNextSibling
  rw [node?_modifyNode]
  split
  · rename_i h
    subst h
    cases s.node? j <;> rfl
  · rfl

/-- Field `tree_units` is untouched by `incStrong`. -/
theorem treeUnitsOf_incStrong (s : State) (j : Nat) (i : Nat) :
    treeUnitsOf (incStrong s j ) i = treeUnitsOf s i := by
  unfold treeUnitsOf incStrong
  rw [node?_modifyNode]
  split
  · rename_i h
    subst h
    cases s.node? j <;> rfl
  · rfl

/-- Field `tree_units` is untouched by `decStrong`. -/
theorem treeUnitsOf_decStrong (s : State) (j : Nat) (i : Nat) :
    treeUnitsOf (decStrong s j ) i = treeUnitsOf s i := by
  unfold treeUnitsOf decStrong
  rw [node?_modifyNode]
  split
  · rename_i h
    subst h
    cases s.node? j <;> rfl
  · rfl


/-- Reading slot `parentRaw` right after `setParent` on the same live node. -/
theorem parentRaw_setParent_self (s : State) (i : Nat) (w : Option Nat)
    (h : i < s.nodes.length) :
    parentRaw (setParent s i w) i = w := by
  unfold parentRaw setParent
  rw [node?_modifyNode, if_pos rfl, State.node?, List.getElem?_eq_getElem h]
  rfl

/-- Writing slot `parentRaw` of one node leaves the slot of any other node. -/
theorem parentRaw_setParent_ne (s : State) (j i : Nat) (w : Option Nat)
    (h : j ≠ i) :
    parentRaw (setParent s j w) i = parentRaw s i := by
  unfold parentRaw setParent
  rw [node?_modifyNode, if_neg h]

/-- Reading slot `firstRaw` right after `setFirstChild` on the same live node. -/
theorem firstRaw_setFirstChild_self (s : State) (i : Nat) (w : Option Nat)
    (h : i < s.nodes.length) :
    firstRaw (setFirstChild s i w) i = w := by
  unfold firstRaw setFirstChild
  rw [node?_modifyNode, if_pos rfl, State.node?, List.getElem?_eq_getElem h]
  rfl

/-- Writing slot `firstRaw` of one node leaves the slot of any other node. -/
theorem firstRaw_setFirstChild_ne (s : State) (j i : Nat) (w : Option Nat)
    (h : j ≠ i) :
    firstRaw (setFirstChild s j w) i = firstRaw s i := by
  unfold firstRaw setFirstChild
  rw [node?_modifyNode, if_neg h]

/-- Reading slot `lastRaw` right after `setLastChild` on the same live node. -/
theorem lastRaw_setLastChild_self (s : State) (i : Nat) (w : Option Nat)
    (h : i < s.nodes.length) :
    lastRaw (setLastChild s i w) i = w := by
  unfold lastRaw setLastChild
  rw [node?_modifyNode, if_pos rfl, State.node?, List.getElem?_eq_getElem h]
  rfl

/-- Writing slot `lastRaw` of one node leaves the slot of any other node. -/
theorem lastRaw_setLastChild_ne (s : State) (j i : Nat) (w : Option Nat)
    (h : j ≠ i) :
    lastRaw (setLastChild s j w) i = lastRaw s i := by
  unfold lastRaw setLastChild
  rw [node?_modifyNode, if_neg h]

/-- Reading slot `prevRaw` right after `setPrevSibling` on the same live node. -/
theorem prevRaw_setPrevSibling_self (s : State) (i : Nat) (w : Option Nat)
    (h : i < s.nodes.length) :
    prevRaw (setPrevSibling s i w) i = w := by
  unfold prevRaw setPrevSibling
  rw [node?_modifyNode, if_pos rfl, State.node?, List.getElem?_eq_getElem h]
  rfl

/-- Writing slot `prevRaw` of one node leaves the slot of any other node. -/
theorem prevRaw_setPrevSibling_ne (s : State) (j i : Nat) (w : Option Nat)
    (h : j ≠ i) :
    prevRaw (setPrevSibling s j w) i = prevRaw s i := by
  unfold prevRaw setPrevSibling
  rw [node?_modifyNode, if_neg h]

/-- Reading slot `nextRaw` right after `setNextSibling` on the same live node. -/
theorem nextRaw_setNextSibling_self (s : State) (i : Nat) (w : Option Nat)
    (h : i < s.nodes.length) :
    nextRaw (setNextSibling s i w) i = w := by
  unfold nextRaw setNextSibling
  rw [node?_modifyNode, if_pos rfl, State.node?, List.getElem?_eq_getElem h]
  rfl

/-- Writing slot `nextRaw` of one node leaves the slot of any other node. -/
theorem nextRaw_setNextSibling_ne (s : State) (j i : Nat) (w : Option Nat)
    (h : j ≠ i) :
    nextRaw (setNextSibling s j w) i = nextRaw s i := by
  unfold nextRaw setNextSibling
  rw [node?_modifyNode, if_neg h]

/-- Reading the count `strongOf` right after `incStrong` on the same live node. -/
theorem strongOf_incStrong_self (s : State) (i : Nat)
    (h : i < s.nodes.length) :
    strongOf (incStrong s i) i = strongOf s i + 1 := by
  unfold strongOf incStrong
  rw [node?_modifyNode, if_pos rfl, State.node?, List.getElem?_eq_getElem h]
  rfl

/-- Changing the count of one node leaves the count of any other node. -/
theorem strongOf_incStrong_ne (s : State) (j i : Nat)
    (h : j ≠ i) :
    strongOf (incStrong s j) i = strongOf s i := by
  unfold strongOf incStrong
  rw [node?_modifyNode, if_neg h]

/-- Reading the count `strongOf` right after `decStrong` on the same live node. -/
theorem strongOf_decStrong_self (s : State) (i : Nat)
    (h : i < s.nodes.length) :
    strongOf (decStrong s i) i = strongOf s i - 1 := by
  unfold strongOf decStrong
  rw [node?_modifyNode, if_pos rfl, State.node?, List.getElem?_eq_getElem h]
  rfl

/-- Changing the count of one node leaves the count of any other node. -/
theorem strongOf_decStrong_ne (s : State) (j i : Nat)
    (h : j ≠ i) :
    strongOf (decStrong s j) i = strongOf s i := by
  unfold strongOf decStrong
  rw [node?_modifyNode, if_neg h]

/-- Reading the count `treeUnitsOf` right after `incTreeUnits` on the same live node. -/
theorem treeUnitsOf_incTreeUnits_self (s : State) (i : Nat)
    (h : i < s.nodes.length) :
    treeUnitsOf (incTreeUnits s i) i = treeUnitsOf s i + 1 := by
  unfold treeUnitsOf incTreeUnits
  rw [node?_modifyNode, if_pos rfl, State.node?, List.getElem?_eq_getElem h]
  rfl

/-- Changing the count of one node leaves the count of any other node. -/
theorem treeUnitsOf_incTreeUnits_ne (s : State) (j i : Nat)
    (h : j ≠ i) :
    treeUnitsOf (incTreeUnits s j) i = treeUnitsOf s i := by
  unfold treeUnitsOf incTreeUnits
  rw [node?_modifyNode, if_neg h]

/-- Reading the count `treeUnitsOf` right after `decTreeUnits` on the same live node. -/
theorem treeUnitsOf_decTreeUnits_self (s : State) (i : Nat)
    (h : i < s.nodes.length) :
    treeUnitsOf (decTreeUnits s i) i = treeUnitsOf s i - 1 := by
  unfold treeUnitsOf decTreeUnits
  rw [node?_modifyNode, if_pos rfl, State.node?, List.getElem?_eq_getElem h]
  rfl

/-- Changing the count of one node leaves the count of any other node. -/
theorem treeUnitsOf_decTreeUnits_ne (s : State) (j i : Nat)
    (h : j ≠ i) :
    treeUnitsOf (decTreeUnits s j) i = treeUnitsOf s i := by
  unfold treeUnitsOf decTreeUnits
  rw [node?_modifyNode, if_neg h]

attribute [simp] parentRaw_setFirstChild parentRaw_setLastChild parentRaw_setPrevSibling parentRaw_setNextSibling parentRaw_incStrong parentRaw_decStrong parentRaw_incTreeUnits parentRaw_decTreeUnits firstRaw_setParent firstRaw_setLastChild firstRaw_setPrevSibling firstRaw_setNextSibling firstRaw_incStrong firstRaw_decStrong firstRaw_incTreeUnits firstRaw_decTreeUnits lastRaw_setParent lastRaw_setFirstChild lastRaw_setPrevSibling lastRaw_setNextSibling lastRaw_incStrong lastRaw_decStrong lastRaw_incTreeUnits lastRaw_decTreeUnits prevRaw_setParent prevRaw_setFirstChild prevRaw_setLastChild prevRaw_setNextSibling prevRaw_incStrong prevRaw_decStrong prevRaw_incTreeUnits prevRaw_decTreeUnits nextRaw_setParent nextRaw_setFirstChild nextRaw_setLastChild nextRaw_setPrevSibling nextRaw_incStrong nextRaw_decStrong nextRaw_incTreeUnits nextRaw_decTreeUnits strongOf_setParent strongOf_setFirstChild strongOf_setLastChild strongOf_setPrevSibling strongOf_setNextSibling strongOf_incTreeUnits strongOf_decTreeUnits treeUnitsOf_setParent treeUnitsOf_setFirstChild treeUnitsOf_setLastChild treeUnitsOf_setPrevSibling treeUnitsOf_setNextSibling treeUnitsOf_incStrong treeUnitsOf_decStrong


/-- Heap size is unchanged by `setParent`. -/
theorem length_setParent (s : State) (j : Nat) (w : Option Nat) :
    (setParent s j w).nodes.length = s.nodes.length := by
  unfold setParent
  exact length_modifyNode s j _

/-- The release log is unchanged by `setParent`. -/
theorem released_setParent (s : State) (j : Nat) (w : Option Nat) :
    (setParent s j w).released = s.released := by
  unfold setParent
  exact released_modifyNode s j _

/-- Heap size is unchanged by `setFirstChild`. -/
theorem length_setFirstChild (s : State) (j : Nat) (w : Option Nat) :
    (setFirstChild s j w).nodes.length = s.nodes.length := by
  unfold setFirstChild
  exact length_modifyNode s j _

/-- The release log is unchanged by `setFirstChild`. -/
theorem released_setFirstChild (s : State) (j : Nat) (w : Option Nat) :
    (setFirstChild s j w).released = s.released := by
  unfold setFirstChild
  exact released_modifyNode s j _

/-- Heap size is unchanged by `setLastChild`. -/
theorem length_setLastChild (s : State) (j : Nat) (w : Option Nat) :
    (setLastChild s j w).nodes.length = s.nodes.length := by
  unfold setLastChild
  exact length_modifyNode s j _

/-- The release log is unchanged by `setLastChild`. -/
theorem released_setLastChild (s : State) (j : Nat) (w : Option Nat) :
    (setLastChild s j w).released = s.released := by
  unfold setLastChild
  exact released_modifyNode s j _

/-- Heap size is unchanged by `setPrevSibling`. -/
theorem length_setPrevSibling (s : State) (j : Nat) (w : Option Nat) :
    (setPrevSibling s j w).nodes.length = s.nodes.length := by
  unfold setPrevSibling
  exact length_modifyNode s j _

/-- The release log is unchanged by `setPrevSibling`. -/
theorem released_setPrevSibling (s : State) (j : Nat) (w : Option Nat) :
    (setPrevSibling s j w).released = s.released := by
  unfold setPrevSibling
  exact released_modifyNode s j _

/-- Heap size is unchanged by `setNextSibling`. -/
theorem length_setNextSibling (s : State) (j : Nat) (w : Option Nat) :
    (setNextSibling s j w).nodes.length = s.nodes.length := by
  unfold setNextSibling
  exact length_modifyNode s j _

/-- The release log is unchanged by `setNextSibling`. -/
theorem released_setNextSibling (s : State) (j : Nat) (w : Option Nat) :
    (setNextSibling s j w).released = s.released := by
  unfold setNextSibling
  exact released_modifyNode s j _

/-- Heap size is unchanged by `incStrong`. -/
theorem length_incStrong (s : State) (j : Nat) :
    (incStrong s j).nodes.length = s.nodes.length := by
  unfold incStrong
  exact length_modifyNode s j _

/-- The release log is unchanged by `incStrong`. -/
theorem released_incStrong (s : State) (j : Nat) :
    (incStrong s j).released = s.released := by
  unfold incStrong
  exact released_modifyNode s j _

/-- Heap size is unchanged by `decStrong`. -/
theorem length_decStrong (s : State) (j : Nat) :
    (decStrong s j).nodes.length = s.nodes.length := by
  unfold decStrong
  exact length_modifyNode s j _

/-- The release log is unchanged by `decStrong`. -/
theorem released_decStrong (s : State) (j : Nat) :
    (decStrong s j).released = s.released := by
  unfold decStrong
  exact released_modifyNode s j _

/-- Heap size is unchanged by `incTreeUnits`. -/
theorem length_incTreeUnits (s : State) (j : Nat) :
    (incTreeUnits s j).nodes.length = s.nodes.length := by
  unfold incTreeUnits
  exact length_modifyNode s j _

/-- The release log is unchanged by `incTreeUnits`. -/
theorem released_incTreeUnits (s : State) (j : Nat) :
    (incTreeUnits s j).released = s.released := by
  unfold incTreeUnits
  exact released_modifyNode s j _

/-- Heap size is unchanged by `decTreeUnits`. -/
theorem length_decTreeUnits (s : State) (j : Nat) :
    (decTreeUnits s j).nodes.length = s.nodes.length := by
  unfold decTreeUnits
  exact length_modifyNode s j _

/-- The release log is unchanged by `decTreeUnits`. -/
theorem released_decTreeUnits (s : State) (j : Nat) :
    (decTreeUnits s j).released = s.released := by
  unfold decTreeUnits
  exact released_modifyNode s j _

attribute [simp] length_setParent released_setParent length_setFirstChild released_setFirstChild length_setLastChild released_setLastChild length_setPrevSibling released_setPrevSibling length_setNextSibling released_setNextSibling length_incStrong released_incStrong length_decStrong released_decStrong length_incTreeUnits released_incTreeUnits length_decTreeUnits released_decTreeUnits


/-- The empty segment check holds vacuously. -/
theorem segOk_nil (s : State) (p : Nat) (pr nx : Option Nat) :
    segOk s p pr [] nx := rfl

/-- Unfolding of a nonempty segment check. -/
theorem segOk_cons (s : State) (p c : Nat) (pr nx : Option Nat)
    (rest : List Nat) :
    segOk s p pr (c :: rest) nx ↔
      c < s.nodes.length ∧ prevRaw s c = pr ∧ parentRaw s c = some p ∧
      0 < strongOf s c ∧ treeUnitsOf s c = 1 ∧
      nextRaw s c = nextBound rest nx ∧ segOk s p (some c) rest nx := by
  simp [segOk, segOkb, Bool.and_eq_true, decide_eq_true_iff, beq_iff_eq,
    and_assoc]

/-- Forward bound of the empty continuation. -/
theorem nextBound_nil (nx : Option Nat) : nextBound [] nx = nx := rfl

/-- Forward bound of a nonempty continuation. -/
theorem nextBound_cons (r : Nat) (l : List Nat) (nx : Option Nat) :
    nextBound (r :: l) nx = some r := rfl

/-- Forward bounds compose across an append. -/
theorem nextBound_append (l₁ l₂ : List Nat) (nx : Option Nat) :
    nextBound (l₁ ++ l₂) nx = nextBound l₁ (nextBound l₂ nx) := by
  cases l₁ <;> rfl

/-- Backward bound of the empty prefix. -/
theorem prevBound_nil (pr : Option Nat) : prevBound [] pr = pr := rfl

/-- Backward bound of a nonempty prefix, one step. -/
theorem prevBound_cons (c : Nat) (l : List Nat) (pr : Option Nat) :
    prevBound (c :: l) pr = prevBound l (some c) := by
  unfold prevBound
  cases l with
  | nil => rfl
  | cons d m =>
    rw [List.getLast?_cons_cons]
    cases h : (d :: m).getLast? with
    | some x => rfl
    | none => exact absurd (List.getLast?_eq_none_iff.mp h) (by simp)

/-- Backward bound with an empty outer bound is the last element. -/
theorem prevBound_none (l : List Nat) : prevBound l none = l.getLast? := by
  unfold prevBound
  cases h : l.getLast? <;> rfl

/-- Backward bounds compose across an append. -/
theorem prevBound_append (l₁ l₂ : List Nat) (pr : Option Nat) :
    prevBound (l₁ ++ l₂) pr = prevBound l₂ (prevBound l₁ pr) := by
  unfold prevBound
  rw [List.getLast?_append]
  cases l₂.getLast? <;> cases l₁.getLast? <;> rfl

/-- A segment check splits across an append, with the junction bounds
computed by `nextBound` and `prevBound`. -/
theorem segOk_append (s : State) (p : Nat) (l₁ l₂ : List Nat)
    (pr nx : Option Nat) :
    segOk s p pr (l₁ ++ l₂) nx ↔
      segOk s p pr l₁ (nextBound l₂ nx) ∧
      segOk s p (prevBound l₁ pr) l₂ nx := by
  induction l₁ generalizing pr with
  | nil =>
    simp [segOk_nil, prevBound_nil]
  | cons c rest ih =>
    simp only [List.cons_append, segOk_cons, nextBound_append, prevBound_cons,
      ih, and_assoc]

/-- Every member of a valid segment is in bounds, alive, a child of `p`,
and carries exactly one tree-held unit. -/
theorem segOk_mem (s : State) (p : Nat) :
    ∀ (l : List Nat) (pr nx : Option Nat) (c : Nat),
      segOk s p pr l nx → c ∈ l →
      c < s.nodes.length ∧ parentRaw s c = some p ∧
      0 < strongOf s c ∧ treeUnitsOf s c = 1 := by
  intro l
  induction l with
  | nil =>
    intro pr nx c _ hc
    cases hc
  | cons d rest ih =>
    intro pr nx c h hc
    rw [segOk_cons] at h
    rcases List.mem_cons.mp hc with hceq | hmem
    · subst hceq
      exact ⟨h.1, h.2.2.1, h.2.2.2.1, h.2.2.2.2.1⟩
    · exact ih (some d) nx c h.2.2.2.2.2.2 hmem

/-- Segment checks transfer between heaps that agree on the members. -/
theorem segOk_congr (s s' : State) (p : Nat)
    (hlen : s'.nodes.length = s.nodes.length) :
    ∀ (l : List Nat) (pr nx : Option Nat),
      (∀ c ∈ l, agreeSib s s' c) → segOk s p pr l nx → segOk s' p pr l nx := by
  intro l
  induction l with
  | nil =>
    intro pr nx _ _
    exact segOk_nil s' p pr nx
  | cons c rest ih =>
    intro pr nx hag h
    rw [segOk_cons] at h ⊢
    obtain ⟨h1, h2, h3, h4, h5, h6, h7⟩ := h
    obtain ⟨a1, a2, a3, a4, a5⟩ := hag c (List.mem_cons_self c rest)
    refine ⟨hlen ▸ h1, a1.trans h2, a3.trans h3, a4 ▸ h4, a5 ▸ h5,
      a2.trans h6, ih (some c) nx (fun d hd => hag d (List.mem_cons_of_mem c hd)) h7⟩

/-- The children iterator emits at most `fuel` nodes. -/
theorem sibWalk_length_le (s : State) :
    ∀ (fuel : Nat) (w : Option Nat), (Node.sibWalk s fuel w).length ≤ fuel := by
  intro fuel
  induction fuel with
  | zero =>
    intro w
    cases w <;> simp [Node.sibWalk]
  | succ f ih =>
    intro w
    cases w with
    | none => simp [Node.sibWalk]
    | some n =>
      simp only [Node.sibWalk, List.length_cons]
      exact Nat.succ_le_succ (ih _)

/-- The children iterator reproduces any valid terminated segment that
starts at its input, given enough fuel. -/
theorem sibWalk_of_segOk (s : State) (p : Nat) :
    ∀ (l : List Nat) (pr : Option Nat) (fuel : Nat),
      segOk s p pr l none → l.length ≤ fuel →
      Node.sibWalk s fuel l.head? = l := by
  intro l
  induction l with
  | nil =>
    intro pr fuel _ _
    cases fuel <;> rfl
  | cons c rest ih =>
    intro pr fuel h hlen
    rw [segOk_cons] at h
    obtain ⟨hc, hprev, hpar, hstr, hun, hnext, hrest⟩ := h
    cases fuel with
    | zero => exact absurd hlen (by simp)
    | succ f =>
      show c :: Node.sibWalk s f (upgrade s (nextRaw s c)) = c :: rest
      rw [hnext]
      cases rest with
      | nil =>
        cases f <;> rfl
      | cons r m =>
        have hr : 0 < strongOf s r := ((segOk_cons s p r (some c) none m).mp hrest).2.2.2.1
        have : upgrade s (nextBound (r :: m) none) = some r := by
          simp [nextBound_cons, upgrade, hr]
        rw [this]
        exact congrArg (c :: ·) (ih (some c) f hrest (Nat.le_of_succ_le_succ hlen))

/-- A duplicate-free list of ids below `n` has at most `n` elements. -/
theorem nodup_length_le (l : List Nat) (n : Nat) (hn : l.Nodup)
    (hb : ∀ x ∈ l, x < n) : l.length ≤ n := by
  have hsub : l.toFinset ⊆ Finset.range n := by
    intro x hx
    exact Finset.mem_range.mpr (hb x (List.mem_toFinset.mp hx))
  have := Finset.card_le_card hsub
  rwa [List.toFinset_card_of_nodup hn, Finset.card_range] at this

/-- The children sequence of `p` is any duplicate-free valid chain headed
by the `first_child` slot of `p`. -/
theorem children_eq (s : State) (p : Nat) (l : List Nat)
    (hfirst : firstRaw s p = l.head?) (hseg : segOk s p none l none)
    (hnodup : l.Nodup) : Node.children s p = l := by
  unfold Node.children
  have hlen : l.length ≤ s.nodes.length :=
    nodup_length_le l s.nodes.length hnodup
      (fun x hx => (segOk_mem s p l none none x hseg hx).1)
  have hupg : upgrade s (firstRaw s p) = l.head? := by
    rw [hfirst]
    cases l with
    | nil => rfl
    | cons c rest =>
      have hc : 0 < strongOf s c :=
        ((segOk_cons s p c none none rest).mp hseg).2.2.2.1
      simp [upgrade, hc]
  rw [hupg]
  exact sibWalk_of_segOk s p l none s.nodes.length hseg hlen

/-- The executable invariant check agrees with `WF`. -/
theorem WF_iff_WFb (s : State) : WF s ↔ WFb s = true := by
  unfold WF WFb
  simp only [Bool.and_eq_true, List.all_eq_true, List.mem_range, Bool.or_eq_true,
    beq_iff_eq, decide_eq_true_iff, segOk, and_assoc, Nat.pos_iff_ne_zero]
  constructor
  · rintro ⟨h1, h2⟩
    refine ⟨fun x hx => ?_, fun x hx => ?_⟩
    · by_cases hs : strongOf s x = 0
      · exact Or.inl hs
      · exact Or.inr (h1 x hx hs)
    · by_cases hs : strongOf s x = 0
      · exact Or.inl hs
      · obtain ⟨ha, hb, hc⟩ := h2 x hx hs
        refine Or.inr ⟨?_, hc⟩
        cases hp : parentRaw s x with
        | none =>
          obtain ⟨u, v, w⟩ := ha hp
          simp [u, v, w]
        | some p =>
          obtain ⟨u, v, w⟩ := hb p hp
          simp [u, v, w]
  · rintro ⟨h1, h2⟩
    refine ⟨fun x hx hs => ?_, fun x hx hs => ?_⟩
    · rcases h1 x hx with hz | ha
      · exact absurd hz hs
      · exact ha
    · rcases h2 x hx with hz | ⟨hm, hu⟩
      · exact absurd hz hs
      · refine ⟨fun hp => ?_, fun p hp => ?_, hu⟩
        · rw [hp] at hm
          simpa [and_assoc] using hm
        · rw [hp] at hm
          simpa [and_assoc] using hm

instance WF_decidable (s : State) : Decidable (WF s) :=
  decidable_of_iff (WFb s = true) (WF_iff_WFb s).symm

instance repT_decidable (s : State) (t : RTree) : Decidable (repT s t) :=
  inferInstanceAs (Decidable (repTb s t = true))

instance repC_decidable (s : State) (ts : List RTree) : Decidable (repC s ts) :=
  inferInstanceAs (Decidable (repCb s ts = true))

instance segOk_decidable (s : State) (p : Nat) (pr : Option Nat) (l : List Nat)
    (nx : Option Nat) : Decidable (segOk s p pr l nx) :=
  inferInstanceAs (Decidable (segOkb s p pr l nx = true))

/-- Upgrading an empty weak. -/
theorem upgrade_none (s : State) : upgrade s none = none := rfl

/-- Upgrading a weak to a live node. -/
theorem upgrade_some_of_pos (s : State) (i : Nat) (h : 0 < strongOf s i) :
    upgrade s (some i) = some i := by
  simp [upgrade, h]

/-- A node whose `parent` slot is empty occurs in no valid segment. -/
theorem not_mem_seg_of_parent_none (s : State) (p : Nat) (l : List Nat)
    (pr nx : Option Nat) (h : segOk s p pr l nx) (c : Nat)
    (hc : parentRaw s c = none) : c ∉ l := by
  intro hm
  have := (segOk_mem s p l pr nx c h hm).2.1
  rw [hc] at this
  cases this

/-- Sibling-field agreement is reflexive. -/
theorem agreeSib_refl (s : State) (c : Nat) : agreeSib s s c :=
  ⟨rfl, rfl, rfl, rfl, rfl⟩

/-- Sibling-field agreement composes. -/
theorem agreeSib_trans (s s' s'' : State) (c : Nat) (h1 : agreeSib s s' c)
    (h2 : agreeSib s' s'' c) : agreeSib s s'' c :=
  ⟨h2.1.trans h1.1, h2.2.1.trans h1.2.1, h2.2.2.1.trans h1.2.2.1,
   h2.2.2.2.1.trans h1.2.2.2.1, h2.2.2.2.2.trans h1.2.2.2.2⟩

/-- Writing a `parent` slot elsewhere preserves sibling-field agreement. -/
theorem agreeSib_setParent (s : State) (j c : Nat) (w : Option Nat)
    (h : j ≠ c) : agreeSib s (setParent s j w) c := by
  refine ⟨?_, ?_, ?_, ?_, ?_⟩ <;> simp [parentRaw_setParent_ne s j c w h]

/-- Writing a `prev_sibling` slot elsewhere preserves agreement. -/
theorem agreeSib_setPrevSibling (s : State) (j c : Nat) (w : Option Nat)
    (h : j ≠ c) : agreeSib s (setPrevSibling s j w) c := by
  refine ⟨?_, ?_, ?_, ?_, ?_⟩ <;> simp [prevRaw_setPrevSibling_ne s j c w h]

/-- Writing a `next_sibling` slot elsewhere preserves agreement. -/
theorem agreeSib_setNextSibling (s : State) (j c : Nat) (w : Option Nat)
    (h : j ≠ c) : agreeSib s (setNextSibling s j w) c := by
  refine ⟨?_, ?_, ?_, ?_, ?_⟩ <;> simp [nextRaw_setNextSibling_ne s j c w h]

/-- Writing a `first_child` slot anywhere preserves agreement. -/
theorem agreeSib_setFirstChild (s : State) (j c : Nat) (w : Option Nat) :
    agreeSib s (setFirstChild s j w) c := by
  exact ⟨by simp, by simp, by simp, by simp, by simp⟩

/-- Writing a `last_child` slot anywhere preserves agreement. -/
theorem agreeSib_setLastChild (s : State) (j c : Nat) (w : Option Nat) :
    agreeSib s (setLastChild s j w) c := by
  exact ⟨by simp, by simp, by simp, by simp, by simp⟩

/-- Bumping a strong count elsewhere preserves agreement. -/
theorem agreeSib_incStrong (s : State) (j c : Nat) (h : j ≠ c) :
    agreeSib s (incStrong s j) c := by
  refine ⟨?_, ?_, ?_, ?_, ?_⟩ <;> simp [strongOf_incStrong_ne s j c h]

/-- Lowering a strong count elsewhere preserves agreement. -/
theorem agreeSib_decStrong (s : State) (j c : Nat) (h : j ≠ c) :
    agreeSib s (decStrong s j) c := by
  refine ⟨?_, ?_, ?_, ?_, ?_⟩ <;> simp [strongOf_decStrong_ne s j c h]

/-- Bumping a unit count elsewhere preserves agreement. -/
theorem agreeSib_incTreeUnits (s : State) (j c : Nat) (h : j ≠ c) :
    agreeSib s (incTreeUnits s j) c := by
  refine ⟨?_, ?_, ?_, ?_, ?_⟩ <;> simp [treeUnitsOf_incTreeUnits_ne s j c h]

/-- Lowering a unit count elsewhere preserves agreement. -/
theorem agreeSib_decTreeUnits (s : State) (j c : Nat) (h : j ≠ c) :
    agreeSib s (decTreeUnits s j) c := by
  refine ⟨?_, ?_, ?_, ?_, ?_⟩ <;> simp [treeUnitsOf_decTreeUnits_ne s j c h]

/-- Backward bound of a one-element extension. -/
theorem prevBound_concat (l : List Nat) (x : Nat) (pr : Option Nat) :
    prevBound (l ++ [x]) pr = some x := by
  rw [prevBound_append, prevBound_cons, prevBound_nil]

/-- Attaching a root `node` under `p` when `p` has no children: the
`_attach` call runs with no previous and no next sibling. -/
theorem attach_post_nil_nil (s : State) (p node : Nat)
    (hWF : WF s) (hp : p < s.nodes.length) (hppos : 0 < strongOf s p)
    (hnd : node < s.nodes.length) (hndpos : 0 < strongOf s node)
    (hnroot : parentRaw s node = none)
    (hchain : Node.children s p = []) :
    AttachPost s p node [node]
      (incTreeUnits (incStrong (Node._attach s p none none node) node) node) := by
  obtain ⟨hW1, hW2⟩ := hWF
  have hunode : treeUnitsOf s node = 0 := ((hW2 node hnd hndpos).1 hnroot).2.2
  set s' := incTreeUnits (incStrong (Node._attach s p none none node) node) node
    with hs'
  have hlen : s'.nodes.length = s.nodes.length := by
    simp [hs', Node._attach]
  have hrel : s'.released = s.released := by
    simp [hs', Node._attach]
  have hparN : parentRaw s' node = some p := by
    simp [hs', Node._attach, parentRaw_setParent_self, hnd]
  have hstrN : strongOf s' node = strongOf s node + 1 := by
    simp [hs', Node._attach, strongOf_incStrong_self, hnd]
  have huN : treeUnitsOf s' node = treeUnitsOf s node + 1 := by
    simp [hs', Node._attach, treeUnitsOf_incTreeUnits_self, hnd]
  have hprevN : prevRaw s' node = none := by
    simp [hs', Node._attach, prevRaw_setPrevSibling_self, hnd]
  have hnextN : nextRaw s' node = none := by
    simp [hs', Node._attach, nextRaw_setNextSibling_self, hnd]
  have hfirstP : firstRaw s' p = some node := by
    simp [hs', Node._attach, firstRaw_setFirstChild_self, hp]
  have hlastP : lastRaw s' p = some node := by
    simp [hs', Node._attach, lastRaw_setLastChild_self, hp]
  have hframe : ∀ m, m ≠ node →
      strongOf s' m = strongOf s m ∧ treeUnitsOf s' m = treeUnitsOf s m := by
    intro m hm
    have hnm : node ≠ m := Ne.symm hm
    constructor
    · simp [hs', Node._attach, strongOf_incStrong_ne, hnm]
    · simp [hs', Node._attach, treeUnitsOf_incTreeUnits_ne, hnm]
  have hposlift : ∀ q, 0 < strongOf s q → 0 < strongOf s' q := by
    intro q hv
    by_cases hqn : q = node
    · subst hqn
      rw [hstrN]
      omega
    · rw [(hframe q hqn).1]
      exact hv
  have hagree : ∀ c, c ≠ node → agreeSib s s' c := by
    intro c hc
    have h1 : node ≠ c := Ne.symm hc
    rw [hs']
    refine agreeSib_trans _ _ _ _ ?_ (agreeSib_incTreeUnits _ _ _ h1)
    refine agreeSib_trans _ _ _ _ ?_ (agreeSib_incStrong _ _ _ h1)
    show agreeSib s
      (setNextSibling (setPrevSibling (setParent
        (setLastChild (setFirstChild s p (some node)) p (some node))
        node (some p)) node none) node none) c
    refine agreeSib_trans _ _ _ _ ?_ (agreeSib_setNextSibling _ _ _ _ h1)
    refine agreeSib_trans _ _ _ _ ?_ (agreeSib_setPrevSibling _ _ _ _ h1)
    refine agreeSib_trans _ _ _ _ ?_ (agreeSib_setParent _ _ _ _ h1)
    refine agreeSib_trans _ _ _ _ ?_ (agreeSib_setLastChild _ _ _ _)
    exact agreeSib_setFirstChild _ _ _ _
  have hppos' : 0 < strongOf s' p := hposlift p hppos
  have hsegnew : segOk s' p none [node] none := by
    refine (segOk_cons s' p node none none []).mpr ⟨?_, ?_, ?_, ?_, ?_, ?_, ?_⟩
    · rw [hlen]
      exact hnd
    · exact hprevN
    · exact hparN
    · rw [hstrN]
      omega
    · rw [huN, hunode]
    · exact hnextN
    · exact segOk_nil s' p (some node) none
  have hchild : Node.children s' p = [node] := by
    apply children_eq
    · rw [hfirstP]
      rfl
    · exact hsegnew
    · simp
  have hfq : ∀ q, q ≠ p → firstRaw s' q = firstRaw s q := by
    intro q hq
    have hpq : p ≠ q := Ne.symm hq
    simp [hs', Node._attach, firstRaw_setFirstChild_ne, hpq]
  have hlq : ∀ q, q ≠ p → lastRaw s' q = lastRaw s q := by
    intro q hq
    have hpq : p ≠ q := Ne.symm hq
    simp [hs', Node._attach, lastRaw_setLastChild_ne, hpq]
  have hsegq : ∀ q, q < s.nodes.length → 0 < strongOf s q →
      segOk s' q none (Node.children s q) none := by
    intro q hqlen hqpos
    have hqs := (hW1 q hqlen hqpos).2.2.1
    refine segOk_congr s s' q hlen _ none none (fun c hc => ?_) hqs
    refine hagree c (fun hcn => ?_)
    have := (segOk_mem s q _ none none c hqs hc).2.1
    rw [hcn, hnroot] at this
    cases this
  have hchildq : ∀ q, q ≠ p → q < s.nodes.length → 0 < strongOf s q →
      Node.children s' q = Node.children s q := by
    intro q hq hqlen hqpos
    obtain ⟨hqf, hql, hqs, hqn⟩ := hW1 q hqlen hqpos
    apply children_eq
    · rw [hfq q hq, hqf]
    · exact hsegq q hqlen hqpos
    · exact hqn
  have hWF' : WF s' := by
    constructor
    · intro q hqlen' hqpos'
      rw [hlen] at hqlen'
      by_cases hq : q = p
      · subst hq
        refine ⟨?_, ?_, ?_, ?_⟩
        · rw [hfirstP, hchild]
          rfl
        · rw [hlastP, hchild]
          rfl
        · rw [hchild]
          exact hsegnew
        · rw [hchild]
          simp
      · have hqpos : 0 < strongOf s q := by
          by_cases hqn : q = node
          · subst hqn
            exact hndpos
          · have hx := hqpos'
            rw [(hframe q hqn).1] at hx
            exact hx
        obtain ⟨hqf, hql, hqs, hqn'⟩ := hW1 q hqlen' hqpos
        have hce := hchildq q hq hqlen' hqpos
        rw [hce]
        exact ⟨(hfq q hq).trans hqf, (hlq q hq).trans hql,
          hsegq q hqlen' hqpos, hqn'⟩
    · intro n hnlen' hnpos'
      rw [hlen] at hnlen'
      by_cases hn : n = node
      · subst hn
        refine ⟨?_, ?_, ?_⟩
        · intro h0
          rw [hparN] at h0
          cases h0
        · intro q hq
          rw [hparN] at hq
          injection hq with hq
          subst hq
          refine ⟨by rw [hlen]; exact hp, hppos', ?_⟩
          rw [hchild]
          exact List.mem_singleton.mpr rfl
        · rw [huN, hstrN, hunode]
          omega
      · have hnpos : 0 < strongOf s n := by
          have hx := hnpos'
          rw [(hframe n hn).1] at hx
          exact hx
        obtain ⟨hr2a, hr2b, hr2c⟩ := hW2 n hnlen' hnpos
        have hag := hagree n hn
        have hparn : parentRaw s' n = parentRaw s n := hag.2.2.1
        refine ⟨?_, ?_, ?_⟩
        · intro h0
          rw [hparn] at h0
          obtain ⟨u, v, w2⟩ := hr2a h0
          exact ⟨hag.1.trans u, hag.2.1.trans v, hag.2.2.2.2.trans w2⟩
        · intro q hq
          rw [hparn] at hq
          obtain ⟨u, v, w2⟩ := hr2b q hq
          by_cases hqp : q = p
          · subst hqp
            rw [hchain] at w2
            exact absurd w2 (List.not_mem_nil n)
          · refine ⟨by rw [hlen]; exact u, hposlift q v, ?_⟩
            rw [hchildq q hqp u v]
            exact w2
        · rw [hag.2.2.2.1, hag.2.2.2.2]
          exact hr2c
  exact ⟨hWF', hchild, hparN, hstrN, huN, hframe, hlen, hrel, hchildq⟩

/-- Head of an append with a nonempty left part. -/
theorem head?_append_nonempty (a l : List Nat) (h : a ≠ []) :
    (a ++ l).head? = a.head? := by
  cases a with
  | nil => exact absurd rfl h
  | cons x xs => rfl

/-- Attaching a root `node` as new first sibling in front of the nonempty
chain `nx :: m` under `p`. -/
theorem attach_post_nil_cons (s : State) (p node nx : Nat) (m : List Nat)
    (hWF : WF s) (hp : p < s.nodes.length) (hppos : 0 < strongOf s p)
    (hnd : node < s.nodes.length) (hndpos : 0 < strongOf s node)
    (hnroot : parentRaw s node = none)
    (hchain : Node.children s p = nx :: m) :
    AttachPost s p node (node :: nx :: m)
      (incTreeUnits (incStrong (Node._attach s p none (some nx) node) node) node) := by
  obtain ⟨hW1, hW2⟩ := hWF
  have hunode : treeUnitsOf s node = 0 := ((hW2 node hnd hndpos).1 hnroot).2.2
  obtain ⟨hf, hl, hsg, hnodup⟩ := hW1 p hp hppos
  rw [hchain] at hf hl hsg hnodup
  have hsgc := (segOk_cons s p nx none none m).mp hsg
  obtain ⟨hnxlt, hnxprev, hnxpar, hnxpos, hnxun, hnxnext, hsgm⟩ := hsgc
  have hnmem : node ∉ nx :: m :=
    not_mem_seg_of_parent_none s p _ none none hsg node hnroot
  have hnodenx : node ≠ nx := fun h => hnmem (h ▸ List.mem_cons_self nx m)
  have hnxnode : nx ≠ node := Ne.symm hnodenx
  set s' := incTreeUnits (incStrong (Node._attach s p none (some nx) node) node) node
    with hs'
  have hlen : s'.nodes.length = s.nodes.length := by
    simp [hs', Node._attach]
  have hrel : s'.released = s.released := by
    simp [hs', Node._attach]
  have hparN : parentRaw s' node = some p := by
    simp [hs', Node._attach, parentRaw_setParent_self, hnd]
  have hstrN : strongOf s' node = strongOf s node + 1 := by
    simp [hs', Node._attach, strongOf_incStrong_self, hnd]
  have huN : treeUnitsOf s' node = treeUnitsOf s node + 1 := by
    simp [hs', Node._attach, treeUnitsOf_incTreeUnits_self, hnd]
  have hprevN : prevRaw s' node = none := by
    simp [hs', Node._attach, prevRaw_setPrevSibling_self, hnd]
  have hnextN : nextRaw s' node = some nx := by
    simp [hs', Node._attach, nextRaw_setNextSibling_self, hnd]
  have hfirstP : firstRaw s' p = some node := by
    simp [hs', Node._attach, firstRaw_setFirstChild_self, hp]
  have hlastq : ∀ q, lastRaw s' q = lastRaw s q := by
    intro q
    simp [hs', Node._attach]
  have hprevNX : prevRaw s' nx = some node := by
    simp [hs', Node._attach, prevRaw_setPrevSibling_self, prevRaw_setPrevSibling_ne,
      hnxlt, hnodenx]
  have hparNX : parentRaw s' nx = some p := by
    simp [hs', Node._attach, parentRaw_setParent_ne, hnodenx, hnxpar]
  have hnextNX : nextRaw s' nx = nextBound m none := by
    simp [hs', Node._attach, nextRaw_setNextSibling_ne, hnodenx, hnxnext]
  have hframe : ∀ m2, m2 ≠ node →
      strongOf s' m2 = strongOf s m2 ∧ treeUnitsOf s' m2 = treeUnitsOf s m2 := by
    intro m2 hm
    have hnm : node ≠ m2 := Ne.symm hm
    constructor
    · simp [hs', Node._attach, strongOf_incStrong_ne, hnm]
    · simp [hs', Node._attach, treeUnitsOf_incTreeUnits_ne, hnm]
  have hposlift : ∀ q, 0 < strongOf s q → 0 < strongOf s' q := by
    intro q hv
    by_cases hqn : q = node
    · subst hqn
      rw [hstrN]
      omega
    · rw [(hframe q hqn).1]
      exact hv
  have hagree : ∀ c, c ≠ node → c ≠ nx → agreeSib s s' c := by
    intro c hc hcnx
    have h1 : node ≠ c := Ne.symm hc
    have h2 : nx ≠ c := Ne.symm hcnx
    rw [hs']
    refine agreeSib_trans _ _ _ _ ?_ (agreeSib_incTreeUnits _ _ _ h1)
    refine agreeSib_trans _ _ _ _ ?_ (agreeSib_incStrong _ _ _ h1)
    refine agreeSib_trans _ _ _ _ ?_ (agreeSib_setNextSibling _ _ _ _ h1)
    refine agreeSib_trans _ _ _ _ ?_ (agreeSib_setPrevSibling _ _ _ _ h1)
    refine agreeSib_trans _ _ _ _ ?_ (agreeSib_setParent _ _ _ _ h1)
    refine agreeSib_trans _ _ _ _ ?_ (agreeSib_setPrevSibling _ _ _ _ h2)
    exact agreeSib_setFirstChild _ _ _ _
  have hppos' : 0 < strongOf s' p := hposlift p hppos
  have hmnotnx : nx ∉ m := (List.nodup_cons.mp hnodup).1
  have hsegm' : segOk s' p (some nx) m none := by
    refine segOk_congr s s' p hlen m (some nx) none (fun c hc => ?_) hsgm
    refine hagree c (fun hcn => ?_) (fun hcnx => ?_)
    · have := (segOk_mem s p m (some nx) none c hsgm hc).2.1
      rw [hcn, hnroot] at this
      cases this
    · exact hmnotnx (hcnx ▸ hc)
  have hsegnew : segOk s' p none (node :: nx :: m) none := by
    refine (segOk_cons s' p node none none (nx :: m)).mpr
      ⟨by rw [hlen]; exact hnd, hprevN, hparN, by rw [hstrN]; omega,
       by rw [huN, hunode], by rw [hnextN]; rfl, ?_⟩
    refine (segOk_cons s' p nx (some node) none m).mpr
      ⟨by rw [hlen]; exact hnxlt, hprevNX, hparNX, ?_, ?_, ?_, hsegm'⟩
    · rw [(hframe nx hnxnode).1]
      exact hnxpos
    · rw [(hframe nx hnxnode).2]
      exact hnxun
    · exact hnextNX
  have hchild : Node.children s' p = node :: nx :: m := by
    apply children_eq
    · rw [hfirstP]
      rfl
    · exact hsegnew
    · exact List.nodup_cons.mpr ⟨hnmem, hnodup⟩
  have hfq : ∀ q, q ≠ p → firstRaw s' q = firstRaw s q := by
    intro q hq
    have hpq : p ≠ q := Ne.symm hq
    simp [hs', Node._attach, firstRaw_setFirstChild_ne, hpq]
  have hsegq : ∀ q, q ≠ p → q < s.nodes.length → 0 < strongOf s q →
      segOk s' q none (Node.children s q) none := by
    intro q hq hqlen hqpos
    have hqs := (hW1 q hqlen hqpos).2.2.1
    refine segOk_congr s s' q hlen _ none none (fun c hc => ?_) hqs
    have hcp := (segOk_mem s q _ none none c hqs hc).2.1
    refine hagree c (fun hcn => ?_) (fun hcnx => ?_)
    · rw [hcn, hnroot] at hcp
      cases hcp
    · rw [hcnx, hnxpar] at hcp
      injection hcp with hcp
      exact hq hcp.symm
  have hchildq : ∀ q, q ≠ p → q < s.nodes.length → 0 < strongOf s q →
      Node.children s' q = Node.children s q := by
    intro q hq hqlen hqpos
    obtain ⟨hqf, hql, hqs, hqn⟩ := hW1 q hqlen hqpos
    apply children_eq
    · rw [hfq q hq, hqf]
    · exact hsegq q hq hqlen hqpos
    · exact hqn
  have hWF' : WF s' := by
    constructor
    · intro q hqlen' hqpos'
      rw [hlen] at hqlen'
      by_cases hq : q = p
      · rw [hq]
        refine ⟨?_, ?_, ?_, ?_⟩
        · rw [hfirstP, hchild]
          rfl
        · rw [hlastq p, hchild, hl]
          rfl
        · rw [hchild]
          exact hsegnew
        · rw [hchild]
          exact List.nodup_cons.mpr ⟨hnmem, hnodup⟩
      · have hqpos : 0 < strongOf s q := by
          by_cases hqn : q = node
          · subst hqn
            exact hndpos
          · have hx := hqpos'
            rw [(hframe q hqn).1] at hx
            exact hx
        obtain ⟨hqf, hql, hqs, hqn'⟩ := hW1 q hqlen' hqpos
        have hce := hchildq q hq hqlen' hqpos
        rw [hce]
        exact ⟨(hfq q hq).trans hqf, (hlastq q).trans hql,
          hsegq q hq hqlen' hqpos, hqn'⟩
    · intro n hnlen' hnpos'
      rw [hlen] at hnlen'
      by_cases hn : n = node
      · subst hn
        refine ⟨?_, ?_, ?_⟩
        · intro h0
          rw [hparN] at h0
          cases h0
        · intro q hq
          rw [hparN] at hq
          injection hq with hq
          subst hq
          refine ⟨by rw [hlen]; exact hp, hppos', ?_⟩
          rw [hchild]
          exact List.mem_cons_self _ _
        · rw [huN, hstrN, hunode]
          omega
      · have hnpos : 0 < strongOf s n := by
          have hx := hnpos'
          rw [(hframe n hn).1] at hx
          exact hx
        obtain ⟨hr2a, hr2b, hr2c⟩ := hW2 n hnlen' hnpos
        by_cases hnnx : n = nx
        · subst hnnx
          refine ⟨?_, ?_, ?_⟩
          · intro h0
            rw [hparNX] at h0
            cases h0
          · intro q hq
            rw [hparNX] at hq
            injection hq with hq
            subst hq
            refine ⟨by rw [hlen]; exact hp, hppos', ?_⟩
            rw [hchild]
            exact List.mem_cons_of_mem _ (List.mem_cons_self _ _)
          · rw [(hframe n hn).1, (hframe n hn).2]
            exact hr2c
        · have hag := hagree n hn hnnx
          have hparn : parentRaw s' n = parentRaw s n := hag.2.2.1
          refine ⟨?_, ?_, ?_⟩
          · intro h0
            rw [hparn] at h0
            obtain ⟨u, v, w2⟩ := hr2a h0
            exact ⟨hag.1.trans u, hag.2.1.trans v, hag.2.2.2.2.trans w2⟩
          · intro q hq
            rw [hparn] at hq
            obtain ⟨u, v, w2⟩ := hr2b q hq
            by_cases hqp : q = p
            · subst hqp
              refine ⟨by rw [hlen]; exact hp, hppos', ?_⟩
              rw [hchild]
              rw [hchain] at w2
              exact List.mem_cons_of_mem _ w2
            · refine ⟨by rw [hlen]; exact u, hposlift q v, ?_⟩
              rw [hchildq q hqp u v]
              exact w2
          · rw [hag.2.2.2.1, hag.2.2.2.2]
            exact hr2c
  exact ⟨hWF', hchild, hparN, hstrN, huN, hframe, hlen, hrel, hchildq⟩

/-- Attaching a root `node` as new last sibling after the nonempty chain
`l₁ ++ [pv]` under `p`. -/
theorem attach_post_concat_nil (s : State) (p node pv : Nat) (l₁ : List Nat)
    (hWF : WF s) (hp : p < s.nodes.length) (hppos : 0 < strongOf s p)
    (hnd : node < s.nodes.length) (hndpos : 0 < strongOf s node)
    (hnroot : parentRaw s node = none)
    (hchain : Node.children s p = l₁ ++ [pv]) :
    AttachPost s p node (l₁ ++ [pv, node])
      (incTreeUnits (incStrong (Node._attach s p (some pv) none node) node) node) := by
  obtain ⟨hW1, hW2⟩ := hWF
  have hunode : treeUnitsOf s node = 0 := ((hW2 node hnd hndpos).1 hnroot).2.2
  obtain ⟨hf, hl, hsg, hnodup⟩ := hW1 p hp hppos
  rw [hchain] at hf hl hsg hnodup
  have hsplit := (segOk_append s p l₁ [pv] none none).mp hsg
  have hseg₁ : segOk s p none l₁ (some pv) := hsplit.1
  have hsegpv := (segOk_cons s p pv (prevBound l₁ none) none []).mp hsplit.2
  obtain ⟨hpvlt, hpvprev, hpvpar, hpvpos, hpvun, hpvnext, -⟩ := hsegpv
  have hnmem : node ∉ l₁ ++ [pv] :=
    not_mem_seg_of_parent_none s p _ none none hsg node hnroot
  have hnodepv : node ≠ pv := by
    intro h
    exact hnmem (h ▸ List.mem_append_right l₁ (List.mem_singleton.mpr rfl))
  have hpvnode : pv ≠ node := Ne.symm hnodepv
  have hpvnotl₁ : pv ∉ l₁ := by
    have := List.nodup_append.mp hnodup
    intro hmem
    exact this.2.2 hmem (List.mem_singleton.mpr rfl)
  set s' := incTreeUnits (incStrong (Node._attach s p (some pv) none node) node) node
    with hs'
  have hlen : s'.nodes.length = s.nodes.length := by
    simp [hs', Node._attach]
  have hrel : s'.released = s.released := by
    simp [hs', Node._attach]
  have hparN : parentRaw s' node = some p := by
    simp [hs', Node._attach, parentRaw_setParent_self, hnd]
  have hstrN : strongOf s' node = strongOf s node + 1 := by
    simp [hs', Node._attach, strongOf_incStrong_self, hnd]
  have huN : treeUnitsOf s' node = treeUnitsOf s node + 1 := by
    simp [hs', Node._attach, treeUnitsOf_incTreeUnits_self, hnd]
  have hprevN : prevRaw s' node = some pv := by
    simp [hs', Node._attach, prevRaw_setPrevSibling_self, hnd]
  have hnextN : nextRaw s' node = none := by
    simp [hs', Node._attach, nextRaw_setNextSibling_self, hnd]
  have hfq : ∀ q, firstRaw s' q = firstRaw s q := by
    intro q
    simp [hs', Node._attach]
  have hlastP : lastRaw s' p = some node := by
    simp [hs', Node._attach, lastRaw_setLastChild_self, hp]
  have hlq : ∀ q, q ≠ p → lastRaw s' q = lastRaw s q := by
    intro q hq
    have hpq : p ≠ q := Ne.symm hq
    simp [hs', Node._attach, lastRaw_setLastChild_ne, hpq]
  have hprevPV : prevRaw s' pv = prevBound l₁ none := by
    simp [hs', Node._attach, prevRaw_setPrevSibling_ne, hnodepv, hpvprev]
  have hparPV : parentRaw s' pv = some p := by
    simp [hs', Node._attach, parentRaw_setParent_ne, hnodepv, hpvpar]
  have hnextPV : nextRaw s' pv = some node := by
    simp [hs', Node._attach, nextRaw_setNextSibling_self, nextRaw_setNextSibling_ne,
      hpvlt, hnodepv]
  have hframe : ∀ m2, m2 ≠ node →
      strongOf s' m2 = strongOf s m2 ∧ treeUnitsOf s' m2 = treeUnitsOf s m2 := by
    intro m2 hm
    have hnm : node ≠ m2 := Ne.symm hm
    constructor
    · simp [hs', Node._attach, strongOf_incStrong_ne, hnm]
    · simp [hs', Node._attach, treeUnitsOf_incTreeUnits_ne, hnm]
  have hposlift : ∀ q, 0 < strongOf s q → 0 < strongOf s' q := by
    intro q hv
    by_cases hqn : q = node
    · subst hqn
      rw [hstrN]
      omega
    · rw [(hframe q hqn).1]
      exact hv
  have hagree : ∀ c, c ≠ node → c ≠ pv → agreeSib s s' c := by
    intro c hc hcpv
    have h1 : node ≠ c := Ne.symm hc
    have h2 : pv ≠ c := Ne.symm hcpv
    rw [hs']
    refine agreeSib_trans _ _ _ _ ?_ (agreeSib_incTreeUnits _ _ _ h1)
    refine agreeSib_trans _ _ _ _ ?_ (agreeSib_incStrong _ _ _ h1)
    refine agreeSib_trans _ _ _ _ ?_ (agreeSib_setNextSibling _ _ _ _ h1)
    refine agreeSib_trans _ _ _ _ ?_ (agreeSib_setPrevSibling _ _ _ _ h1)
    refine agreeSib_trans _ _ _ _ ?_ (agreeSib_setParent _ _ _ _ h1)
    refine agreeSib_trans _ _ _ _ ?_ (agreeSib_setLastChild _ _ _ _)
    exact agreeSib_setNextSibling _ _ _ _ h2
  have hppos' : 0 < strongOf s' p := hposlift p hppos
  have hseg₁' : segOk s' p none l₁ (some pv) := by
    refine segOk_congr s s' p hlen l₁ none (some pv) (fun c hc => ?_) hseg₁
    refine hagree c (fun hcn => ?_) (fun hcpv => ?_)
    · have := (segOk_mem s p l₁ none (some pv) c hseg₁ hc).2.1
      rw [hcn, hnroot] at this
      cases this
    · exact hpvnotl₁ (hcpv ▸ hc)
  have hsegnew : segOk s' p none (l₁ ++ [pv, node]) none := by
    refine (segOk_append s' p l₁ [pv, node] none none).mpr ⟨?_, ?_⟩
    · rw [nextBound_cons]
      exact hseg₁'
    · refine (segOk_cons s' p pv (prevBound l₁ none) none [node]).mpr
        ⟨by rw [hlen]; exact hpvlt, hprevPV, hparPV, ?_, ?_, ?_, ?_⟩
      · rw [(hframe pv hpvnode).1]
        exact hpvpos
      · rw [(hframe pv hpvnode).2]
        exact hpvun
      · rw [hnextPV]
        rfl
      · refine (segOk_cons s' p node (some pv) none []).mpr
          ⟨by rw [hlen]; exact hnd, hprevN, hparN, by rw [hstrN]; omega,
           by rw [huN, hunode], hnextN, segOk_nil s' p (some node) none⟩
  have hnodup' : (l₁ ++ [pv, node]).Nodup := by
    have h1 := List.nodup_append.mp hnodup
    refine List.nodup_append.mpr ⟨h1.1, ?_, ?_⟩
    · refine List.nodup_cons.mpr ⟨?_, List.nodup_singleton node⟩
      simp [hnodepv.symm]
    · intro a ha hb
      rcases List.mem_cons.mp hb with hb1 | hb2
      · exact h1.2.2 ha (hb1 ▸ List.mem_singleton.mpr rfl)
      · rw [List.mem_singleton.mp hb2] at ha
        exact hnmem (List.mem_append_left [pv] ha)
  have hchild : Node.children s' p = l₁ ++ [pv, node] := by
    apply children_eq
    · rw [hfq p, hf]
      cases l₁ with
      | nil => rfl
      | cons a t => rfl
    · exact hsegnew
    · exact hnodup'
  have hsegq : ∀ q, q ≠ p → q < s.nodes.length → 0 < strongOf s q →
      segOk s' q none (Node.children s q) none := by
    intro q hq hqlen hqpos
    have hqs := (hW1 q hqlen hqpos).2.2.1
    refine segOk_congr s s' q hlen _ none none (fun c hc => ?_) hqs
    have hcp := (segOk_mem s q _ none none c hqs hc).2.1
    refine hagree c (fun hcn => ?_) (fun hcpv => ?_)
    · rw [hcn, hnroot] at hcp
      cases hcp
    · rw [hcpv, hpvpar] at hcp
      injection hcp with hcp
      exact hq hcp.symm
  have hchildq : ∀ q, q ≠ p → q < s.nodes.length → 0 < strongOf s q →
      Node.children s' q = Node.children s q := by
    intro q hq hqlen hqpos
    obtain ⟨hqf, hql, hqs, hqn⟩ := hW1 q hqlen hqpos
    apply children_eq
    · rw [hfq q, hqf]
    · exact hsegq q hq hqlen hqpos
    · exact hqn
  have hmemnew : ∀ a, a ∈ l₁ ++ [pv] → a ∈ l₁ ++ [pv, node] := by
    intro a ha
    rcases List.mem_append.mp ha with h1 | h2
    · exact List.mem_append_left _ h1
    · rw [List.mem_singleton.mp h2]
      exact List.mem_append_right _ (List.mem_cons_self _ _)
  have hWF' : WF s' := by
    constructor
    · intro q hqlen' hqpos'
      rw [hlen] at hqlen'
      by_cases hq : q = p
      · rw [hq]
        refine ⟨?_, ?_, ?_, ?_⟩
        · rw [hchild, hfq p, hf]
          cases l₁ with
          | nil => rfl
          | cons a t => rfl
        · rw [hlastP, hchild, show l₁ ++ [pv, node] = (l₁ ++ [pv]) ++ [node] by simp,
            List.getLast?_concat]
        · rw [hchild]
          exact hsegnew
        · rw [hchild]
          exact hnodup'
      · have hqpos : 0 < strongOf s q := by
          by_cases hqn : q = node
          · subst hqn
            exact hndpos
          · have hx := hqpos'
            rw [(hframe q hqn).1] at hx
            exact hx
        obtain ⟨hqf, hql, hqs, hqn'⟩ := hW1 q hqlen' hqpos
        have hce := hchildq q hq hqlen' hqpos
        rw [hce]
        exact ⟨(hfq q).trans hqf, (hlq q hq).trans hql,
          hsegq q hq hqlen' hqpos, hqn'⟩
    · intro n hnlen' hnpos'
      rw [hlen] at hnlen'
      by_cases hn : n = node
      · subst hn
        refine ⟨?_, ?_, ?_⟩
        · intro h0
          rw [hparN] at h0
          cases h0
        · intro q hq
          rw [hparN] at hq
          injection hq with hq
          subst hq
          refine ⟨by rw [hlen]; exact hp, hppos', ?_⟩
          rw [hchild]
          exact List.mem_append_right _ (List.mem_cons_of_mem _ (List.mem_singleton.mpr rfl))
        · rw [huN, hstrN, hunode]
          omega
      · have hnpos : 0 < strongOf s n := by
          have hx := hnpos'
          rw [(hframe n hn).1] at hx
          exact hx
        obtain ⟨hr2a, hr2b, hr2c⟩ := hW2 n hnlen' hnpos
        by_cases hnpv : n = pv
        · subst hnpv
          refine ⟨?_, ?_, ?_⟩
          · intro h0
            rw [hparPV] at h0
            cases h0
          · intro q hq
            rw [hparPV] at hq
            injection hq with hq
            subst hq
            refine ⟨by rw [hlen]; exact hp, hppos', ?_⟩
            rw [hchild]
            exact List.mem_append_right _ (List.mem_cons_self _ _)
          · rw [(hframe n hn).1, (hframe n hn).2]
            exact hr2c
        · have hag := hagree n hn hnpv
          have hparn : parentRaw s' n = parentRaw s n := hag.2.2.1
          refine ⟨?_, ?_, ?_⟩
          · intro h0
            rw [hparn] at h0
            obtain ⟨u, v, w2⟩ := hr2a h0
            exact ⟨hag.1.trans u, hag.2.1.trans v, hag.2.2.2.2.trans w2⟩
          · intro q hq
            rw [hparn] at hq
            obtain ⟨u, v, w2⟩ := hr2b q hq
            by_cases hqp : q = p
            · subst hqp
              refine ⟨by rw [hlen]; exact hp, hppos', ?_⟩
              rw [hchild]
              rw [hchain] at w2
              exact hmemnew n w2
            · refine ⟨by rw [hlen]; exact u, hposlift q v, ?_⟩
              rw [hchildq q hqp u v]
              exact w2
          · rw [hag.2.2.2.1, hag.2.2.2.2]
            exact hr2c
  exact ⟨hWF', hchild, hparN, hstrN, huN, hframe, hlen, hrel, hchildq⟩

/-- Last element of an append with a nonempty right part. -/
theorem getLast?_append_nonempty (a l : List Nat) (h : l ≠ []) :
    (a ++ l).getLast? = l.getLast? := by
  rw [List.getLast?_append]
  cases hx : l.getLast? with
  | none => exact absurd (List.getLast?_eq_none_iff.mp hx) h
  | some x => rfl

/-- Attaching a root `node` between the nonempty prefix `l₁ ++ [pv]` and
the nonempty suffix `nx :: m` of the children chain of `p`. -/
theorem attach_post_concat_cons (s : State) (p node pv nx : Nat)
    (l₁ m : List Nat)
    (hWF : WF s) (hp : p < s.nodes.length) (hppos : 0 < strongOf s p)
    (hnd : node < s.nodes.length) (hndpos : 0 < strongOf s node)
    (hnroot : parentRaw s node = none)
    (hchain : Node.children s p = (l₁ ++ [pv]) ++ nx :: m) :
    AttachPost s p node ((l₁ ++ [pv]) ++ node :: nx :: m)
      (incTreeUnits (incStrong (Node._attach s p (some pv) (some nx) node) node) node) := by
  obtain ⟨hW1, hW2⟩ := hWF
  have hunode : treeUnitsOf s node = 0 := ((hW2 node hnd hndpos).1 hnroot).2.2
  obtain ⟨hf, hl, hsg, hnodup⟩ := hW1 p hp hppos
  rw [hchain] at hf hl hsg hnodup
  have hsplit := (segOk_append s p (l₁ ++ [pv]) (nx :: m) none none).mp hsg
  have hpart1 := hsplit.1
  have hpart2 := hsplit.2
  rw [prevBound_concat] at hpart2
  rw [nextBound_cons] at hpart1
  have hsplit1 := (segOk_append s p l₁ [pv] none (some nx)).mp hpart1
  have hseg₁ : segOk s p none l₁ (some pv) := by
    have := hsplit1.1
    rwa [nextBound_cons] at this
  have hsegpv := (segOk_cons s p pv (prevBound l₁ none) (some nx) []).mp hsplit1.2
  obtain ⟨hpvlt, hpvprev, hpvpar, hpvpos, hpvun, hpvnext, -⟩ := hsegpv
  have hsegnx := (segOk_cons s p nx (some pv) none m).mp hpart2
  obtain ⟨hnxlt, hnxprev, hnxpar, hnxpos, hnxun, hnxnext, hsgm⟩ := hsegnx
  have hnmem : node ∉ (l₁ ++ [pv]) ++ nx :: m :=
    not_mem_seg_of_parent_none s p _ none none hsg node hnroot
  have hnodepv : node ≠ pv := by
    intro h
    exact hnmem (List.mem_append_left _
      (h ▸ List.mem_append_right l₁ (List.mem_singleton.mpr rfl)))
  have hnodenx : node ≠ nx := by
    intro h
    exact hnmem (List.mem_append_right _ (h ▸ List.mem_cons_self nx m))
  have hpvnode : pv ≠ node := Ne.symm hnodepv
  have hnxnode : nx ≠ node := Ne.symm hnodenx
  have hdisj := (List.nodup_append.mp hnodup).2.2
  have hpvmemL : pv ∈ l₁ ++ [pv] := List.mem_append_right l₁ (List.mem_singleton.mpr rfl)
  have hpvnotR : pv ∉ nx :: m := fun h => hdisj hpvmemL h
  have hpvnx : pv ≠ nx := fun h => hpvnotR (h ▸ List.mem_cons_self nx m)
  have hnxpv : nx ≠ pv := Ne.symm hpvnx
  have hpvnotl₁ : pv ∉ l₁ := by
    have := List.nodup_append.mp (List.nodup_append.mp hnodup).1
    intro hmem
    exact this.2.2 hmem (List.mem_singleton.mpr rfl)
  have hnxnotm : nx ∉ m := (List.nodup_cons.mp (List.nodup_append.mp hnodup).2.1).1
  set s' := incTreeUnits (incStrong (Node._attach s p (some pv) (some nx) node) node) node
    with hs'
  have hlen : s'.nodes.length = s.nodes.length := by
    simp [hs', Node._attach]
  have hrel : s'.released = s.released := by
    simp [hs', Node._attach]
  have hparN : parentRaw s' node = some p := by
    simp [hs', Node._attach, parentRaw_setParent_self, hnd]
  have hstrN : strongOf s' node = strongOf s node + 1 := by
    simp [hs', Node._attach, strongOf_incStrong_self, hnd]
  have huN : treeUnitsOf s' node = treeUnitsOf s node + 1 := by
    simp [hs', Node._attach, treeUnitsOf_incTreeUnits_self, hnd]
  have hprevN : prevRaw s' node = some pv := by
    simp [hs', Node._attach, prevRaw_setPrevSibling_self, prevRaw_setPrevSibling_ne, hnd]
  have hnextN : nextRaw s' node = some nx := by
    simp [hs', Node._attach, nextRaw_setNextSibling_self, hnd]
  have hfq : ∀ q, firstRaw s' q = firstRaw s q := by
    intro q
    simp [hs', Node._attach]
  have hlq : ∀ q, lastRaw s' q = lastRaw s q := by
    intro q
    simp [hs', Node._attach]
  have hprevPV : prevRaw s' pv = prevBound l₁ none := by
    simp [hs', Node._attach, prevRaw_setPrevSibling_ne, hnodepv, hnxpv, hpvprev]
  have hparPV : parentRaw s' pv = some p := by
    simp [hs', Node._attach, parentRaw_setParent_ne, hnodepv, hpvpar]
  have hnextPV : nextRaw s' pv = some node := by
    simp [hs', Node._attach, nextRaw_setNextSibling_self, nextRaw_setNextSibling_ne,
      hpvlt, hnodepv]
  have hprevNX : prevRaw s' nx = some node := by
    simp [hs', Node._attach, prevRaw_setPrevSibling_self, prevRaw_setPrevSibling_ne,
      hnxlt, hnodenx]
  have hparNX : parentRaw s' nx = some p := by
    simp [hs', Node._attach, parentRaw_setParent_ne, hnodenx, hnxpar]
  have hnextNX : nextRaw s' nx = nextBound m none := by
    simp [hs', Node._attach, nextRaw_setNextSibling_ne, hnodenx, hpvnx, hnxnext]
  have hframe : ∀ m2, m2 ≠ node →
      strongOf s' m2 = strongOf s m2 ∧ treeUnitsOf s' m2 = treeUnitsOf s m2 := by
    intro m2 hm
    have hnm : node ≠ m2 := Ne.symm hm
    constructor
    · simp [hs', Node._attach, strongOf_incStrong_ne, hnm]
    · simp [hs', Node._attach, treeUnitsOf_incTreeUnits_ne, hnm]
  have hposlift : ∀ q, 0 < strongOf s q → 0 < strongOf s' q := by
    intro q hv
    by_cases hqn : q = node
    · subst hqn
      rw [hstrN]
      omega
    · rw [(hframe q hqn).1]
      exact hv
  have hagree : ∀ c, c ≠ node → c ≠ pv → c ≠ nx → agreeSib s s' c := by
    intro c hc hcpv hcnx
    have h1 : node ≠ c := Ne.symm hc
    have h2 : pv ≠ c := Ne.symm hcpv
    have h3 : nx ≠ c := Ne.symm hcnx
    rw [hs']
    refine agreeSib_trans _ _ _ _ ?_ (agreeSib_incTreeUnits _ _ _ h1)
    refine agreeSib_trans _ _ _ _ ?_ (agreeSib_incStrong _ _ _ h1)
    refine agreeSib_trans _ _ _ _ ?_ (agreeSib_setNextSibling _ _ _ _ h1)
    refine agreeSib_trans _ _ _ _ ?_ (agreeSib_setPrevSibling _ _ _ _ h1)
    refine agreeSib_trans _ _ _ _ ?_ (agreeSib_setParent _ _ _ _ h1)
    refine agreeSib_trans _ _ _ _ ?_ (agreeSib_setPrevSibling _ _ _ _ h3)
    exact agreeSib_setNextSibling _ _ _ _ h2
  have hppos' : 0 < strongOf s' p := hposlift p hppos
  have hchainmem : ∀ c ∈ (l₁ ++ [pv]) ++ nx :: m, parentRaw s c = some p := by
    intro c hc
    exact (segOk_mem s p _ none none c hsg hc).2.1
  have hseg₁' : segOk s' p none l₁ (some pv) := by
    refine segOk_congr s s' p hlen l₁ none (some pv) (fun c hc => ?_) hseg₁
    refine hagree c (fun hcn => ?_) (fun hcpv => ?_) (fun hcnx => ?_)
    · have := (segOk_mem s p l₁ none (some pv) c hseg₁ hc).2.1
      rw [hcn, hnroot] at this
      cases this
    · exact hpvnotl₁ (hcpv ▸ hc)
    · exact hdisj (List.mem_append_left _ (hcnx ▸ hc)) (List.mem_cons_self nx m)
  have hsgm' : segOk s' p (some nx) m none := by
    refine segOk_congr s s' p hlen m (some nx) none (fun c hc => ?_) hsgm
    refine hagree c (fun hcn => ?_) (fun hcpv => ?_) (fun hcnx => ?_)
    · have := (segOk_mem s p m (some nx) none c hsgm hc).2.1
      rw [hcn, hnroot] at this
      cases this
    · exact hpvnotR (List.mem_cons_of_mem nx (hcpv ▸ hc))
    · exact hnxnotm (hcnx ▸ hc)
  have hsegnew : segOk s' p none ((l₁ ++ [pv]) ++ node :: nx :: m) none := by
    refine (segOk_append s' p (l₁ ++ [pv]) (node :: nx :: m) none none).mpr ⟨?_, ?_⟩
    · rw [nextBound_cons]
      refine (segOk_append s' p l₁ [pv] none (some node)).mpr ⟨?_, ?_⟩
      · rw [nextBound_cons]
        exact hseg₁'
      · refine (segOk_cons s' p pv (prevBound l₁ none) (some node) []).mpr
          ⟨by rw [hlen]; exact hpvlt, hprevPV, hparPV, ?_, ?_, ?_,
           segOk_nil s' p (some pv) (some node)⟩
        · rw [(hframe pv hpvnode).1]
          exact hpvpos
        · rw [(hframe pv hpvnode).2]
          exact hpvun
        · rw [hnextPV]
          rfl
    · rw [prevBound_concat]
      refine (segOk_cons s' p node (some pv) none (nx :: m)).mpr
        ⟨by rw [hlen]; exact hnd, hprevN, hparN, by rw [hstrN]; omega,
         by rw [huN, hunode], by rw [hnextN]; rfl, ?_⟩
      refine (segOk_cons s' p nx (some node) none m).mpr
        ⟨by rw [hlen]; exact hnxlt, hprevNX, hparNX, ?_, ?_, hnextNX, hsgm'⟩
      · rw [(hframe nx hnxnode).1]
        exact hnxpos
      · rw [(hframe nx hnxnode).2]
        exact hnxun
  have hnodup' : ((l₁ ++ [pv]) ++ node :: nx :: m).Nodup := by
    rw [List.nodup_middle]
    exact List.nodup_cons.mpr ⟨hnmem, hnodup⟩
  have hheads : ∀ l2 : List Nat, ((l₁ ++ [pv]) ++ l2).head? = (l₁ ++ [pv]).head? := by
    intro l2
    exact head?_append_nonempty _ _ (by simp)
  have hchild : Node.children s' p = (l₁ ++ [pv]) ++ node :: nx :: m := by
    apply children_eq
    · rw [hfq p, hf, hheads (nx :: m), hheads (node :: nx :: m)]
    · exact hsegnew
    · exact hnodup'
  have hsegq : ∀ q, q ≠ p → q < s.nodes.length → 0 < strongOf s q →
      segOk s' q none (Node.children s q) none := by
    intro q hq hqlen hqpos
    have hqs := (hW1 q hqlen hqpos).2.2.1
    refine segOk_congr s s' q hlen _ none none (fun c hc => ?_) hqs
    have hcp := (segOk_mem s q _ none none c hqs hc).2.1
    refine hagree c (fun hcn => ?_) (fun hcpv => ?_) (fun hcnx => ?_)
    · rw [hcn, hnroot] at hcp
      cases hcp
    · rw [hcpv, hpvpar] at hcp
      injection hcp with hcp
      exact hq hcp.symm
    · rw [hcnx, hnxpar] at hcp
      injection hcp with hcp
      exact hq hcp.symm
  have hchildq : ∀ q, q ≠ p → q < s.nodes.length → 0 < strongOf s q →
      Node.children s' q = Node.children s q := by
    intro q hq hqlen hqpos
    obtain ⟨hqf, hql, hqs, hqn⟩ := hW1 q hqlen hqpos
    apply children_eq
    · rw [hfq q, hqf]
    · exact hsegq q hq hqlen hqpos
    · exact hqn
  have hmemnew : ∀ a, a ∈ (l₁ ++ [pv]) ++ nx :: m →
      a ∈ (l₁ ++ [pv]) ++ node :: nx :: m := by
    intro a ha
    rcases List.mem_append.mp ha with h1 | h2
    · exact List.mem_append_left _ h1
    · exact List.mem_append_right _ (List.mem_cons_of_mem node h2)
  have hWF' : WF s' := by
    constructor
    · intro q hqlen' hqpos'
      rw [hlen] at hqlen'
      by_cases hq : q = p
      · rw [hq]
        refine ⟨?_, ?_, ?_, ?_⟩
        · rw [hchild, hfq p, hf, hheads (nx :: m), hheads (node :: nx :: m)]
        · rw [hchild, hlq p, hl,
            getLast?_append_nonempty (l₁ ++ [pv]) (nx :: m) (by simp),
            getLast?_append_nonempty (l₁ ++ [pv]) (node :: nx :: m) (by simp),
            List.getLast?_cons_cons]
        · rw [hchild]
          exact hsegnew
        · rw [hchild]
          exact hnodup'
      · have hqpos : 0 < strongOf s q := by
          by_cases hqn : q = node
          · subst hqn
            exact hndpos
          · have hx := hqpos'
            rw [(hframe q hqn).1] at hx
            exact hx
        obtain ⟨hqf, hql, hqs, hqn'⟩ := hW1 q hqlen' hqpos
        have hce := hchildq q hq hqlen' hqpos
        rw [hce]
        exact ⟨(hfq q).trans hqf, (hlq q).trans hql,
          hsegq q hq hqlen' hqpos, hqn'⟩
    · intro n hnlen' hnpos'
      rw [hlen] at hnlen'
      by_cases hn : n = node
      · subst hn
        refine ⟨?_, ?_, ?_⟩
        · intro h0
          rw [hparN] at h0
          cases h0
        · intro q hq
          rw [hparN] at hq
          injection hq with hq
          subst hq
          refine ⟨by rw [hlen]; exact hp, hppos', ?_⟩
          rw [hchild]
          exact List.mem_append_right _ (List.mem_cons_self _ _)
        · rw [huN, hstrN, hunode]
          omega
      · have hnpos : 0 < strongOf s n := by
          have hx := hnpos'
          rw [(hframe n hn).1] at hx
          exact hx
        obtain ⟨hr2a, hr2b, hr2c⟩ := hW2 n hnlen' hnpos
        by_cases hnpv : n = pv
        · rw [hnpv]
          refine ⟨?_, ?_, ?_⟩
          · intro h0
            rw [hparPV] at h0
            cases h0
          · intro q hq
            rw [hparPV] at hq
            injection hq with hq
            subst hq
            refine ⟨by rw [hlen]; exact hp, hppos', ?_⟩
            rw [hchild]
            exact List.mem_append_left _ hpvmemL
          · rw [(hframe pv hpvnode).1, (hframe pv hpvnode).2]
            rw [hnpv] at hr2c
            exact hr2c
        · by_cases hnnx : n = nx
          · rw [hnnx]
            refine ⟨?_, ?_, ?_⟩
            · intro h0
              rw [hparNX] at h0
              cases h0
            · intro q hq
              rw [hparNX] at hq
              injection hq with hq
              subst hq
              refine ⟨by rw [hlen]; exact hp, hppos', ?_⟩
              rw [hchild]
              exact List.mem_append_right _
                (List.mem_cons_of_mem node (List.mem_cons_self nx m))
            · rw [(hframe nx hnxnode).1, (hframe nx hnxnode).2]
              rw [hnnx] at hr2c
              exact hr2c
          · have hag := hagree n hn hnpv hnnx
            have hparn : parentRaw s' n = parentRaw s n := hag.2.2.1
            refine ⟨?_, ?_, ?_⟩
            · intro h0
              rw [hparn] at h0
              obtain ⟨u, v, w2⟩ := hr2a h0
              exact ⟨hag.1.trans u, hag.2.1.trans v, hag.2.2.2.2.trans w2⟩
            · intro q hq
              rw [hparn] at hq
              obtain ⟨u, v, w2⟩ := hr2b q hq
              by_cases hqp : q = p
              · subst hqp
                refine ⟨by rw [hlen]; exact hp, hppos', ?_⟩
                rw [hchild]
                rw [hchain] at w2
                exact hmemnew n w2
              · refine ⟨by rw [hlen]; exact u, hposlift q v, ?_⟩
                rw [hchildq q hqp u v]
                exact w2
            · rw [hag.2.2.2.1, hag.2.2.2.2]
              exact hr2c
  exact ⟨hWF', hchild, hparN, hstrN, huN, hframe, hlen, hrel, hchildq⟩

/-- A node with positive strong count is allocated. -/
theorem lt_length_of_strong (s : State) (i : Nat) (h : 0 < strongOf s i) :
    i < s.nodes.length := by
  by_contra hlt
  have hz : s.node? i = none := by
    unfold State.node?
    exact List.getElem?_eq_none (Nat.le_of_not_lt hlt)
  rw [strongOf, hz] at h
  exact Nat.lt_irrefl 0 h

/-- A successful upgrade names a live node. -/
theorem upgrade_eq_some (s : State) (w : Option Nat) (x : Nat)
    (h : upgrade s w = some x) : w = some x ∧ 0 < strongOf s x := by
  cases w with
  | none => cases h
  | some j =>
    by_cases hj : 0 < strongOf s j
    · simp only [upgrade, if_pos hj] at h
      injection h with h
      subst h
      exact ⟨rfl, hj⟩
    · simp only [upgrade, if_neg hj] at h
      cases h

/-- `is_root` holds exactly when the `parent` slot is empty. -/
theorem is_root_eq_true (s : State) (i : Nat) :
    Node.is_root s i = true ↔ parentRaw s i = none := by
  simp [Node.is_root, Option.isNone_iff_eq_none]

/-- `_attach` never changes a strong count. -/
theorem strongOf__attach (s : State) (p : Nat) (prev next : Option Nat)
    (node m : Nat) :
    strongOf (Node._attach s p prev next node) m = strongOf s m := by
  unfold Node._attach
  cases prev <;> cases next <;> simp

/-- `_attach` never changes a unit count. -/
theorem treeUnitsOf__attach (s : State) (p : Nat) (prev next : Option Nat)
    (node m : Nat) :
    treeUnitsOf (Node._attach s p prev next node) m = treeUnitsOf s m := by
  unfold Node._attach
  cases prev <;> cases next <;> simp

/-- Successful `attach(FirstChild)` prepends `node` to the children of
`self` and satisfies the attach postcondition bundle. -/
theorem attach_firstChild_post (s : State) (i node : Nat) (s' : State)
    (hWF : WF s) (hi : i < s.nodes.length) (hipos : 0 < strongOf s i)
    (hnd : node < s.nodes.length) (hndpos : 0 < strongOf s node)
    (hok : Node.attach s i .FirstChild node = .ok s') :
    AttachPost s i node (node :: Node.children s i) s' := by
  rw [Node.attach] at hok
  split at hok
  · rename_i hroot
    have hnroot : parentRaw s node = none := (is_root_eq_true s node).mp hroot
    simp only [Except.ok.injEq] at hok
    obtain ⟨hf, -, hsg, -⟩ := hWF.1 i hi hipos
    cases hc : Node.children s i with
    | nil =>
      have hfr : firstRaw s i = none := by
        rw [hf, hc]
        rfl
      rw [hfr, upgrade_none] at hok
      rw [← hok]
      exact attach_post_nil_nil s i node hWF hi hipos hnd hndpos hnroot hc
    | cons nx m =>
      have hfr : firstRaw s i = some nx := by
        rw [hf, hc]
        rfl
      have hnxpos : 0 < strongOf s nx := by
        rw [hc] at hsg
        exact ((segOk_cons s i nx none none m).mp hsg).2.2.2.1
      rw [hfr, upgrade_some_of_pos s nx hnxpos] at hok
      rw [← hok]
      exact attach_post_nil_cons s i node nx m hWF hi hipos hnd hndpos hnroot hc
  · cases hok

/-- Successful `attach(LastChild)` appends `node` to the children of
`self` and satisfies the attach postcondition bundle. -/
theorem attach_lastChild_post (s : State) (i node : Nat) (s' : State)
    (hWF : WF s) (hi : i < s.nodes.length) (hipos : 0 < strongOf s i)
    (hnd : node < s.nodes.length) (hndpos : 0 < strongOf s node)
    (hok : Node.attach s i .LastChild node = .ok s') :
    AttachPost s i node (Node.children s i ++ [node]) s' := by
  rw [Node.attach] at hok
  split at hok
  · rename_i hroot
    have hnroot : parentRaw s node = none := (is_root_eq_true s node).mp hroot
    simp only [Except.ok.injEq] at hok
    obtain ⟨-, hl, hsg, -⟩ := hWF.1 i hi hipos
    rcases List.eq_nil_or_concat (Node.children s i) with hc | ⟨l₁, pv, hc⟩
    · have hlr : lastRaw s i = none := by
        rw [hl, hc]
        rfl
      rw [hlr, upgrade_none] at hok
      rw [← hok, hc]
      exact attach_post_nil_nil s i node hWF hi hipos hnd hndpos hnroot hc
    · rw [List.concat_eq_append] at hc
      have hlr : lastRaw s i = some pv := by
        rw [hl, hc, List.getLast?_concat]
      have hpvpos : 0 < strongOf s pv := by
        rw [hc] at hsg
        have hm : pv ∈ l₁ ++ [pv] :=
          List.mem_append_right l₁ (List.mem_singleton.mpr rfl)
        exact (segOk_mem s i _ none none pv hsg hm).2.2.1
      rw [hlr, upgrade_some_of_pos s pv hpvpos] at hok
      rw [← hok, hc]
      have h := attach_post_concat_nil s i node pv l₁ hWF hi hipos hnd hndpos hnroot hc
      rw [show l₁ ++ [pv, node] = (l₁ ++ [pv]) ++ [node] by simp] at h
      exact h
  · cases hok

/-- Any member of a valid terminated chain splits it, with its sibling
slots matching the split boundaries. -/
theorem segOk_decompose (s : State) (p : Nat) (L : List Nat)
    (hsg : segOk s p none L none) (i : Nat) (hi : i ∈ L) :
    ∃ l₁ l₂, L = l₁ ++ i :: l₂ ∧ prevRaw s i = prevBound l₁ none ∧
      nextRaw s i = nextBound l₂ none := by
  obtain ⟨l₁, l₂, rfl⟩ := List.append_of_mem hi
  have h := (segOk_append s p l₁ (i :: l₂) none none).mp hsg
  have h2 := (segOk_cons s p i (prevBound l₁ none) none l₂).mp h.2
  exact ⟨l₁, l₂, rfl, h2.2.1, h2.2.2.2.2.2.1⟩

/-- Successful `attach(Before)` inserts `node` directly before `self` in
the children chain of the parent of `self`. -/
theorem attach_before_post (s : State) (i node : Nat) (s' : State)
    (hWF : WF s) (hi : i < s.nodes.length) (hipos : 0 < strongOf s i)
    (hnd : node < s.nodes.length) (hndpos : 0 < strongOf s node)
    (hok : Node.attach s i .Before node = .ok s') :
    ∃ p l₁ l₂, Node.children s p = l₁ ++ i :: l₂ ∧ parentRaw s i = some p ∧
      AttachPost s p node (l₁ ++ node :: i :: l₂) s' := by
  rw [Node.attach] at hok
  split at hok
  · rename_i hroot
    have hnroot : parentRaw s node = none := (is_root_eq_true s node).mp hroot
    split at hok
    · rename_i p hup
      obtain ⟨hpar, hppos⟩ := upgrade_eq_some s (parentRaw s i) p hup
      have hp : p < s.nodes.length := lt_length_of_strong s p hppos
      have himem : i ∈ Node.children s p :=
        ((hWF.2 i hi hipos).2.1 p hpar).2.2
      obtain ⟨-, -, hsg, -⟩ := hWF.1 p hp hppos
      obtain ⟨l₁, l₂, hc, hprev, -⟩ := segOk_decompose s p _ hsg i himem
      simp only [Except.ok.injEq] at hok
      refine ⟨p, l₁, l₂, hc, hpar, ?_⟩
      rcases List.eq_nil_or_concat l₁ with h1 | ⟨l₁', pv, h1⟩
      · subst h1
        have hpr : prevRaw s i = none := by
          rw [hprev]
          rfl
        rw [hpr, upgrade_none] at hok
        rw [← hok]
        exact attach_post_nil_cons s p node i l₂ hWF hp hppos hnd hndpos hnroot hc
      · rw [List.concat_eq_append] at h1
        subst h1
        have hpr : prevRaw s i = some pv := by
          rw [hprev, prevBound_concat]
        have hpvpos : 0 < strongOf s pv := by
          rw [hc] at hsg
          have hm : pv ∈ (l₁' ++ [pv]) ++ i :: l₂ :=
            List.mem_append_left _ (List.mem_append_right l₁' (List.mem_singleton.mpr rfl))
          exact (segOk_mem s p _ none none pv hsg hm).2.2.1
        rw [hpr, upgrade_some_of_pos s pv hpvpos] at hok
        rw [← hok]
        have h := attach_post_concat_cons s p node pv i l₁' l₂ hWF hp hppos hnd hndpos
          hnroot hc
        rw [show (l₁' ++ [pv]) ++ node :: i :: l₂ = l₁' ++ [pv] ++ node :: i :: l₂ by simp] at h
        exact h
    · cases hok
  · cases hok

/-- Successful `attach(After)` inserts `node` directly after `self` in
the children chain of the parent of `self`. -/
theorem attach_after_post (s : State) (i node : Nat) (s' : State)
    (hWF : WF s) (hi : i < s.nodes.length) (hipos : 0 < strongOf s i)
    (hnd : node < s.nodes.length) (hndpos : 0 < strongOf s node)
    (hok : Node.attach s i .After node = .ok s') :
    ∃ p l₁ l₂, Node.children s p = l₁ ++ i :: l₂ ∧ parentRaw s i = some p ∧
      AttachPost s p node (l₁ ++ i :: node :: l₂) s' := by
  rw [Node.attach] at hok
  split at hok
  · rename_i hroot
    have hnroot : parentRaw s node = none := (is_root_eq_true s node).mp hroot
    split at hok
    · rename_i p hup
      obtain ⟨hpar, hppos⟩ := upgrade_eq_some s (parentRaw s i) p hup
      have hp : p < s.nodes.length := lt_length_of_strong s p hppos
      have himem : i ∈ Node.children s p :=
        ((hWF.2 i hi hipos).2.1 p hpar).2.2
      obtain ⟨-, -, hsg, -⟩ := hWF.1 p hp hppos
      obtain ⟨l₁, l₂, hc, -, hnext⟩ := segOk_decompose s p _ hsg i himem
      simp only [Except.ok.injEq] at hok
      refine ⟨p, l₁, l₂, hc, hpar, ?_⟩
      cases l₂ with
      | nil =>
        have hnr : nextRaw s i = none := by
          rw [hnext]
          rfl
        rw [hnr, upgrade_none] at hok
        rw [← hok]
        have hc' : Node.children s p = l₁ ++ [i] := hc
        have h := attach_post_concat_nil s p node i l₁ hWF hp hppos hnd hndpos hnroot hc'
        rw [show l₁ ++ [i, node] = l₁ ++ i :: node :: [] by simp] at h
        exact h
      | cons nx m =>
        have hnr : nextRaw s i = some nx := by
          rw [hnext]
          rfl
        have hnxpos : 0 < strongOf s nx := by
          rw [hc] at hsg
          have hm : nx ∈ l₁ ++ i :: nx :: m := by
            exact List.mem_append_right _ (List.mem_cons_of_mem i (List.mem_cons_self nx m))
          exact (segOk_mem s p _ none none nx hsg hm).2.2.1
        rw [hnr, upgrade_some_of_pos s nx hnxpos] at hok
        rw [← hok]
        have hc' : Node.children s p = (l₁ ++ [i]) ++ nx :: m := by
          rw [hc]
          simp
        have h := attach_post_concat_cons s p node i nx l₁ m hWF hp hppos hnd hndpos
          hnroot hc'
        rw [show (l₁ ++ [i]) ++ node :: nx :: m = l₁ ++ i :: node :: nx :: m by simp] at h
        exact h
    · cases hok
  · cases hok

/-- Detaching the only child `i` of `p`. -/
theorem detach_post_nil_nil (s : State) (p i : Nat)
    (hWF : WF s) (hi : i < s.nodes.length) (hipos : 0 < strongOf s i)
    (hcall : treeUnitsOf s i < strongOf s i)
    (hpar : parentRaw s i = some p)
    (hprev : prevRaw s i = none) (hnext : nextRaw s i = none)
    (hc : Node.children s p = [i]) :
    DetachPost s p i [] (Node.detach s i) := by
  obtain ⟨hW1, hW2⟩ := hWF
  obtain ⟨hp, hppos, -⟩ := (hW2 i hi hipos).2.1 p hpar
  obtain ⟨hf, hl, hsg, hnodup⟩ := hW1 p hp hppos
  rw [hc] at hsg
  have hui : treeUnitsOf s i = 1 :=
    (segOk_mem s p [i] none none i hsg (List.mem_singleton.mpr rfl)).2.2.2
  have hstr2 : 1 < strongOf s i := by
    rw [hui] at hcall
    exact hcall
  have h1 : 0 < strongOf
      (setParent (setPrevSibling (setNextSibling s i none) i none) i none) p := by
    simpa using hppos
  have hdet : Node.detach s i =
      setLastChild (setFirstChild (decTreeUnits (decStrong
        (setParent (setPrevSibling (setNextSibling s i none) i none) i none) i) i)
        p none) p none := by
    simp only [Node.detach, hpar, hprev, hnext]
    rw [upgrade_some_of_pos _ p h1]
    simp only [upgrade_none]
  rw [hdet]
  set s' := setLastChild (setFirstChild (decTreeUnits (decStrong
    (setParent (setPrevSibling (setNextSibling s i none) i none) i none) i) i)
    p none) p none with hs'
  have hlen : s'.nodes.length = s.nodes.length := by
    simp [hs']
  have hrel : s'.released = s.released := by
    simp [hs']
  have hparI : parentRaw s' i = none := by
    simp [hs', parentRaw_setParent_self, hi]
  have hprevI : prevRaw s' i = none := by
    simp [hs', prevRaw_setPrevSibling_self, hi]
  have hnextI : nextRaw s' i = none := by
    simp [hs', nextRaw_setNextSibling_self, hi]
  have hstrI : strongOf s' i = strongOf s i - 1 := by
    simp [hs', strongOf_decStrong_self, hi]
  have huI : treeUnitsOf s' i = treeUnitsOf s i - 1 := by
    simp [hs', treeUnitsOf_decTreeUnits_self, hi]
  have hfirstP : firstRaw s' p = none := by
    simp [hs', firstRaw_setFirstChild_self, hp]
  have hlastP : lastRaw s' p = none := by
    simp [hs', lastRaw_setLastChild_self, hp]
  have hframe : ∀ m, m ≠ i →
      strongOf s' m = strongOf s m ∧ treeUnitsOf s' m = treeUnitsOf s m := by
    intro m hm
    have him : i ≠ m := Ne.symm hm
    constructor
    · simp [hs', strongOf_decStrong_ne, him]
    · simp [hs', treeUnitsOf_decTreeUnits_ne, him]
  have hposlift : ∀ q, q ≠ i → 0 < strongOf s q → 0 < strongOf s' q := by
    intro q hq hv
    rw [(hframe q hq).1]
    exact hv
  have hagree : ∀ c, c ≠ i → agreeSib s s' c := by
    intro c hc2
    have h2 : i ≠ c := Ne.symm hc2
    rw [hs']
    refine agreeSib_trans _ _ _ _ ?_ (agreeSib_setLastChild _ _ _ _)
    refine agreeSib_trans _ _ _ _ ?_ (agreeSib_setFirstChild _ _ _ _)
    refine agreeSib_trans _ _ _ _ ?_ (agreeSib_decTreeUnits _ _ _ h2)
    refine agreeSib_trans _ _ _ _ ?_ (agreeSib_decStrong _ _ _ h2)
    refine agreeSib_trans _ _ _ _ ?_ (agreeSib_setParent _ _ _ _ h2)
    refine agreeSib_trans _ _ _ _ ?_ (agreeSib_setPrevSibling _ _ _ _ h2)
    exact agreeSib_setNextSibling _ _ _ _ h2
  have hchild : Node.children s' p = [] := by
    apply children_eq
    · rw [hfirstP]
      rfl
    · exact segOk_nil s' p none none
    · exact List.nodup_nil
  have hfq : ∀ q, q ≠ p → firstRaw s' q = firstRaw s q := by
    intro q hq
    have hpq : p ≠ q := Ne.symm hq
    simp [hs', firstRaw_setFirstChild_ne, hpq]
  have hlq : ∀ q, q ≠ p → lastRaw s' q = lastRaw s q := by
    intro q hq
    have hpq : p ≠ q := Ne.symm hq
    simp [hs', lastRaw_setLastChild_ne, hpq]
  have hsegq : ∀ q, q ≠ p → q < s.nodes.length → 0 < strongOf s q →
      segOk s' q none (Node.children s q) none := by
    intro q hq hqlen hqpos
    have hqs := (hW1 q hqlen hqpos).2.2.1
    refine segOk_congr s s' q hlen _ none none (fun c hc2 => ?_) hqs
    have hcp := (segOk_mem s q _ none none c hqs hc2).2.1
    refine hagree c (fun hci => ?_)
    rw [hci, hpar] at hcp
    injection hcp with hcp
    exact hq hcp.symm
  have hchildq : ∀ q, q ≠ p → q < s.nodes.length → 0 < strongOf s q →
      Node.children s' q = Node.children s q := by
    intro q hq hqlen hqpos
    obtain ⟨hqf, hql, hqs, hqn⟩ := hW1 q hqlen hqpos
    apply children_eq
    · rw [hfq q hq, hqf]
    · exact hsegq q hq hqlen hqpos
    · exact hqn
  have hstrongq : ∀ q, 0 < strongOf s' q → 0 < strongOf s q := by
    intro q hq
    by_cases hqi : q = i
    · subst hqi
      exact hipos
    · rw [← (hframe q hqi).1]
      exact hq
  have hWF' : WF s' := by
    constructor
    · intro q hqlen' hqpos'
      rw [hlen] at hqlen'
      by_cases hq : q = p
      · rw [hq]
        refine ⟨?_, ?_, ?_, ?_⟩
        · rw [hfirstP, hchild]
          rfl
        · rw [hlastP, hchild]
          rfl
        · rw [hchild]
          exact segOk_nil s' p none none
        · rw [hchild]
          exact List.nodup_nil
      · have hqpos : 0 < strongOf s q := hstrongq q hqpos'
        obtain ⟨hqf, hql, hqs, hqn'⟩ := hW1 q hqlen' hqpos
        have hce := hchildq q hq hqlen' hqpos
        rw [hce]
        exact ⟨(hfq q hq).trans hqf, (hlq q hq).trans hql,
          hsegq q hq hqlen' hqpos, hqn'⟩
    · intro n hnlen' hnpos'
      rw [hlen] at hnlen'
      by_cases hn : n = i
      · rw [hn]
        refine ⟨?_, ?_, ?_⟩
        · intro h0
          exact ⟨hprevI, hnextI, by rw [huI, hui]⟩
        · intro q hq
          rw [hparI] at hq
          cases hq
        · rw [huI, hui, hstrI]
          omega
      · have hnpos : 0 < strongOf s n := hstrongq n hnpos'
        obtain ⟨hr2a, hr2b, hr2c⟩ := hW2 n hnlen' hnpos
        have hag := hagree n hn
        have hparn : parentRaw s' n = parentRaw s n := hag.2.2.1
        refine ⟨?_, ?_, ?_⟩
        · intro h0
          rw [hparn] at h0
          obtain ⟨u, v, w2⟩ := hr2a h0
          exact ⟨hag.1.trans u, hag.2.1.trans v, hag.2.2.2.2.trans w2⟩
        · intro q hq
          rw [hparn] at hq
          obtain ⟨u, v, w2⟩ := hr2b q hq
          by_cases hqp : q = p
          · rw [hqp, hc] at w2
            rw [List.mem_singleton.mp w2] at hn
            exact absurd rfl hn
          · refine ⟨by rw [hlen]; exact u, ?_, ?_⟩
            · by_cases hqi : q = i
              · subst hqi
                rw [hstrI]
                omega
              · rw [(hframe q hqi).1]
                exact v
            · rw [hchildq q hqp u v]
              exact w2
        · rw [hag.2.2.2.1, hag.2.2.2.2]
          exact hr2c
  refine ⟨hWF', hchild, hparI, hprevI, hnextI, by rw [hstrI]; omega,
    by rw [huI, hui], hframe, hlen, hrel, hchildq, ?_, ?_, ?_, ?_⟩
  · intro pv hpv
    rw [hprev] at hpv
    cases hpv
  · intro _
    rw [hfirstP, hnext]
  · intro nx hnx
    rw [hnext] at hnx
    cases hnx
  · intro _
    rw [hlastP, hprev]

/-- Detaching the first child `i` when further siblings `nx :: m` follow. -/
theorem detach_post_nil_cons (s : State) (p i nx : Nat) (m : List Nat)
    (hWF : WF s) (hi : i < s.nodes.length) (hipos : 0 < strongOf s i)
    (hcall : treeUnitsOf s i < strongOf s i)
    (hpar : parentRaw s i = some p)
    (hprev : prevRaw s i = none) (hnext : nextRaw s i = some nx)
    (hc : Node.children s p = i :: nx :: m) :
    DetachPost s p i (nx :: m) (Node.detach s i) := by
  obtain ⟨hW1, hW2⟩ := hWF
  obtain ⟨hp, hppos, -⟩ := (hW2 i hi hipos).2.1 p hpar
  obtain ⟨hf, hl, hsg, hnodup⟩ := hW1 p hp hppos
  rw [hc] at hsg hnodup hl
  have hsgc := (segOk_cons s p i none none (nx :: m)).mp hsg
  obtain ⟨-, -, -, -, hui, -, hrest⟩ := hsgc
  have hsgnx := (segOk_cons s p nx (some i) none m).mp hrest
  obtain ⟨hnxlt, hnxprev, hnxpar, hnxpos, hnxun, hnxnext, hsgm⟩ := hsgnx
  have hinotmem : i ∉ nx :: m := (List.nodup_cons.mp hnodup).1
  have hinx : i ≠ nx := fun h => hinotmem (h ▸ List.mem_cons_self nx m)
  have hnxi : nx ≠ i := Ne.symm hinx
  have hnxnotm : nx ∉ m := (List.nodup_cons.mp (List.nodup_cons.mp hnodup).2).1
  have hstr2 : 1 < strongOf s i := by
    rw [hui] at hcall
    exact hcall
  have h1 : 0 < strongOf
      (setParent (setPrevSibling (setNextSibling s i none) i none) i none) p := by
    simpa using hppos
  have h2 : 0 < strongOf (setFirstChild (decTreeUnits (decStrong
      (setParent (setPrevSibling (setNextSibling s i none) i none) i none) i) i)
      p (some nx)) nx := by
    simp [strongOf_decStrong_ne, hinx]
    exact hnxpos
  have hdet : Node.detach s i =
      setPrevSibling (setFirstChild (decTreeUnits (decStrong
        (setParent (setPrevSibling (setNextSibling s i none) i none) i none) i) i)
        p (some nx)) nx none := by
    simp only [Node.detach, hpar, hprev, hnext]
    rw [upgrade_some_of_pos _ p h1]
    simp only [upgrade_none]
    rw [upgrade_some_of_pos _ nx h2]
  rw [hdet]
  set s' := setPrevSibling (setFirstChild (decTreeUnits (decStrong
    (setParent (setPrevSibling (setNextSibling s i none) i none) i none) i) i)
    p (some nx)) nx none with hs'
  have hlen : s'.nodes.length = s.nodes.length := by
    simp [hs']
  have hrel : s'.released = s.released := by
    simp [hs']
  have hparI : parentRaw s' i = none := by
    simp [hs', parentRaw_setParent_self, hi]
  have hprevI : prevRaw s' i = none := by
    simp [hs', prevRaw_setPrevSibling_self, prevRaw_setPrevSibling_ne, hi, hnxi]
  have hnextI : nextRaw s' i = none := by
    simp [hs', nextRaw_setNextSibling_self, hi]
  have hstrI : strongOf s' i = strongOf s i - 1 := by
    simp [hs', strongOf_decStrong_self, hi]
  have huI : treeUnitsOf s' i = treeUnitsOf s i - 1 := by
    simp [hs', treeUnitsOf_decTreeUnits_self, hi]
  have hfirstP : firstRaw s' p = some nx := by
    simp [hs', firstRaw_setFirstChild_self, hp]
  have hlq : ∀ q, lastRaw s' q = lastRaw s q := by
    intro q
    simp [hs']
  have hprevNX : prevRaw s' nx = none := by
    simp [hs', prevRaw_setPrevSibling_self, hnxlt]
  have hparNX : parentRaw s' nx = some p := by
    simp [hs', parentRaw_setParent_ne, hinx, hnxpar]
  have hnextNX : nextRaw s' nx = nextBound m none := by
    simp [hs', nextRaw_setNextSibling_ne, hinx, hnxnext]
  have hframe : ∀ m2, m2 ≠ i →
      strongOf s' m2 = strongOf s m2 ∧ treeUnitsOf s' m2 = treeUnitsOf s m2 := by
    intro m2 hm
    have him : i ≠ m2 := Ne.symm hm
    constructor
    · simp [hs', strongOf_decStrong_ne, him]
    · simp [hs', treeUnitsOf_decTreeUnits_ne, him]
  have hagree : ∀ c, c ≠ i → c ≠ nx → agreeSib s s' c := by
    intro c hc2 hcnx
    have h3 : i ≠ c := Ne.symm hc2
    have h4 : nx ≠ c := Ne.symm hcnx
    rw [hs']
    refine agreeSib_trans _ _ _ _ ?_ (agreeSib_setPrevSibling _ _ _ _ h4)
    refine agreeSib_trans _ _ _ _ ?_ (agreeSib_setFirstChild _ _ _ _)
    refine agreeSib_trans _ _ _ _ ?_ (agreeSib_decTreeUnits _ _ _ h3)
    refine agreeSib_trans _ _ _ _ ?_ (agreeSib_decStrong _ _ _ h3)
    refine agreeSib_trans _ _ _ _ ?_ (agreeSib_setParent _ _ _ _ h3)
    refine agreeSib_trans _ _ _ _ ?_ (agreeSib_setPrevSibling _ _ _ _ h3)
    exact agreeSib_setNextSibling _ _ _ _ h3
  have hppos' : 0 < strongOf s' p := by
    by_cases hpi : p = i
    · rw [hpi, hstrI]
      omega
    · rw [(hframe p hpi).1]
      exact hppos
  have hsgm' : segOk s' p (some nx) m none := by
    refine segOk_congr s s' p hlen m (some nx) none (fun c hc2 => ?_) hsgm
    refine hagree c (fun hci => ?_) (fun hcnx => ?_)
    · exact hinotmem (List.mem_cons_of_mem nx (hci ▸ hc2))
    · exact hnxnotm (hcnx ▸ hc2)
  have hsegnew : segOk s' p none (nx :: m) none := by
    refine (segOk_cons s' p nx none none m).mpr
      ⟨by rw [hlen]; exact hnxlt, hprevNX, hparNX, ?_, ?_, hnextNX, hsgm'⟩
    · rw [(hframe nx hnxi).1]
      exact hnxpos
    · rw [(hframe nx hnxi).2]
      exact hnxun
  have hchild : Node.children s' p = nx :: m := by
    apply children_eq
    · rw [hfirstP]
      rfl
    · exact hsegnew
    · exact (List.nodup_cons.mp hnodup).2
  have hfq : ∀ q, q ≠ p → firstRaw s' q = firstRaw s q := by
    intro q hq
    have hpq : p ≠ q := Ne.symm hq
    simp [hs', firstRaw_setFirstChild_ne, hpq]
  have hsegq : ∀ q, q ≠ p → q < s.nodes.length → 0 < strongOf s q →
      segOk s' q none (Node.children s q) none := by
    intro q hq hqlen hqpos
    have hqs := (hW1 q hqlen hqpos).2.2.1
    refine segOk_congr s s' q hlen _ none none (fun c hc2 => ?_) hqs
    have hcp := (segOk_mem s q _ none none c hqs hc2).2.1
    refine hagree c (fun hci => ?_) (fun hcnx => ?_)
    · rw [hci, hpar] at hcp
      injection hcp with hcp
      exact hq hcp.symm
    · rw [hcnx, hnxpar] at hcp
      injection hcp with hcp
      exact hq hcp.symm
  have hchildq : ∀ q, q ≠ p → q < s.nodes.length → 0 < strongOf s q →
      Node.children s' q = Node.children s q := by
    intro q hq hqlen hqpos
    obtain ⟨hqf, hql, hqs, hqn⟩ := hW1 q hqlen hqpos
    apply children_eq
    · rw [hfq q hq, hqf]
    · exact hsegq q hq hqlen hqpos
    · exact hqn
  have hstrongq : ∀ q, 0 < strongOf s' q → 0 < strongOf s q := by
    intro q hq
    by_cases hqi : q = i
    · subst hqi
      exact hipos
    · rw [← (hframe q hqi).1]
      exact hq
  have hWF' : WF s' := by
    constructor
    · intro q hqlen' hqpos'
      rw [hlen] at hqlen'
      by_cases hq : q = p
      · rw [hq]
        refine ⟨?_, ?_, ?_, ?_⟩
        · rw [hfirstP, hchild]
          rfl
        · rw [hlq p, hchild, hl]
          rfl
        · rw [hchild]
          exact hsegnew
        · rw [hchild]
          exact (List.nodup_cons.mp hnodup).2
      · have hqpos : 0 < strongOf s q := hstrongq q hqpos'
        obtain ⟨hqf, hql, hqs, hqn'⟩ := hW1 q hqlen' hqpos
        have hce := hchildq q hq hqlen' hqpos
        rw [hce]
        exact ⟨(hfq q hq).trans hqf, (hlq q).trans hql,
          hsegq q hq hqlen' hqpos, hqn'⟩
    · intro n hnlen' hnpos'
      rw [hlen] at hnlen'
      by_cases hn : n = i
      · rw [hn]
        refine ⟨?_, ?_, ?_⟩
        · intro h0
          exact ⟨hprevI, hnextI, by rw [huI, hui]⟩
        · intro q hq
          rw [hparI] at hq
          cases hq
        · rw [huI, hui, hstrI]
          omega
      · have hnpos : 0 < strongOf s n := hstrongq n hnpos'
        obtain ⟨hr2a, hr2b, hr2c⟩ := hW2 n hnlen' hnpos
        by_cases hnnx : n = nx
        · rw [hnnx]
          refine ⟨?_, ?_, ?_⟩
          · intro h0
            rw [hparNX] at h0
            cases h0
          · intro q hq
            rw [hparNX] at hq
            injection hq with hq
            subst hq
            refine ⟨by rw [hlen]; exact hp, hppos', ?_⟩
            rw [hchild]
            exact List.mem_cons_self nx m
          · rw [(hframe nx hnxi).1, (hframe nx hnxi).2]
            rw [hnnx] at hr2c
            exact hr2c
        · have hag := hagree n hn hnnx
          have hparn : parentRaw s' n = parentRaw s n := hag.2.2.1
          refine ⟨?_, ?_, ?_⟩
          · intro h0
            rw [hparn] at h0
            obtain ⟨u, v, w2⟩ := hr2a h0
            exact ⟨hag.1.trans u, hag.2.1.trans v, hag.2.2.2.2.trans w2⟩
          · intro q hq
            rw [hparn] at hq
            obtain ⟨u, v, w2⟩ := hr2b q hq
            by_cases hqp : q = p
            · subst hqp
              refine ⟨by rw [hlen]; exact hp, hppos', ?_⟩
              rw [hchild]
              rw [hc] at w2
              rcases List.mem_cons.mp w2 with h5 | h6
              · exact absurd h5 hn
              · exact h6
            · refine ⟨by rw [hlen]; exact u, ?_, ?_⟩
              · by_cases hqi : q = i
                · rw [hqi, hstrI]
                  omega
                · rw [(hframe q hqi).1]
                  exact v
              · rw [hchildq q hqp u v]
                exact w2
          · rw [hag.2.2.2.1, hag.2.2.2.2]
            exact hr2c
  have hpatch1 : ∀ pv, prevRaw s i = some pv → nextRaw s' pv = nextRaw s i := by
    intro pv hpv
    rw [hprev] at hpv
    cases hpv
  have hpatch2 : prevRaw s i = none → firstRaw s' p = nextRaw s i := by
    intro _
    exact hfirstP.trans hnext.symm
  have hpatch3 : ∀ nx2, nextRaw s i = some nx2 → prevRaw s' nx2 = prevRaw s i := by
    intro nx2 hnx2
    have h5 : nx = nx2 := Option.some.inj (hnext.symm.trans hnx2)
    rw [← h5]
    exact hprevNX.trans hprev.symm
  have hpatch4 : nextRaw s i = none → lastRaw s' p = prevRaw s i := by
    intro h0
    rw [hnext] at h0
    cases h0
  exact ⟨hWF', hchild, hparI, hprevI, hnextI, by rw [hstrI]; omega,
    by rw [huI, hui], hframe, hlen, hrel, hchildq, hpatch1, hpatch2, hpatch3, hpatch4⟩

/-- Detaching the last child `i` when the siblings `l₁ ++ [pv]` precede it. -/
theorem detach_post_concat_nil (s : State) (p i pv : Nat) (l₁ : List Nat)
    (hWF : WF s) (hi : i < s.nodes.length) (hipos : 0 < strongOf s i)
    (hcall : treeUnitsOf s i < strongOf s i)
    (hpar : parentRaw s i = some p)
    (hprev : prevRaw s i = some pv) (hnext : nextRaw s i = none)
    (hc : Node.children s p = (l₁ ++ [pv]) ++ [i]) :
    DetachPost s p i (l₁ ++ [pv]) (Node.detach s i) := by
  obtain ⟨hW1, hW2⟩ := hWF
  obtain ⟨hp, hppos, -⟩ := (hW2 i hi hipos).2.1 p hpar
  obtain ⟨hf, hl, hsg, hnodup⟩ := hW1 p hp hppos
  rw [hc] at hsg hnodup hf
  have hsplit := (segOk_append s p (l₁ ++ [pv]) [i] none none).mp hsg
  have hpart1 := hsplit.1
  rw [nextBound_cons] at hpart1
  have hpart2 := hsplit.2
  rw [prevBound_concat] at hpart2
  have hic := (segOk_cons s p i (some pv) none []).mp hpart2
  obtain ⟨-, -, -, -, hui, -, -⟩ := hic
  have hsplit1 := (segOk_append s p l₁ [pv] none (some i)).mp hpart1
  have hseg₁ : segOk s p none l₁ (some pv) := by
    have h := hsplit1.1
    rwa [nextBound_cons] at h
  have hsegpv := (segOk_cons s p pv (prevBound l₁ none) (some i) []).mp hsplit1.2
  obtain ⟨hpvlt, hpvprev, hpvpar, hpvpos, hpvun, -, -⟩ := hsegpv
  have hpvmemL : pv ∈ l₁ ++ [pv] :=
    List.mem_append_right l₁ (List.mem_singleton.mpr rfl)
  have hinotmem : i ∉ l₁ ++ [pv] := fun hmem =>
    (List.nodup_append.mp hnodup).2.2 hmem (List.mem_singleton.mpr rfl)
  have hpvi : pv ≠ i := fun h => hinotmem (h ▸ hpvmemL)
  have hipv : i ≠ pv := Ne.symm hpvi
  have hpvnotl₁ : pv ∉ l₁ := by
    have := List.nodup_append.mp (List.nodup_append.mp hnodup).1
    intro hmem
    exact this.2.2 hmem (List.mem_singleton.mpr rfl)
  have hstr2 : 1 < strongOf s i := by
    rw [hui] at hcall
    exact hcall
  have h1 : 0 < strongOf
      (setParent (setPrevSibling (setNextSibling s i none) i none) i none) p := by
    simpa using hppos
  have h2 : 0 < strongOf (decTreeUnits (decStrong
      (setParent (setPrevSibling (setNextSibling s i none) i none) i none) i) i) pv := by
    simp [strongOf_decStrong_ne, hipv]
    exact hpvpos
  have hdet : Node.detach s i =
      setLastChild (setNextSibling (decTreeUnits (decStrong
        (setParent (setPrevSibling (setNextSibling s i none) i none) i none) i) i)
        pv none) p (some pv) := by
    simp only [Node.detach, hpar, hprev, hnext]
    rw [upgrade_some_of_pos _ p h1]
    simp only [upgrade_none]
    rw [upgrade_some_of_pos _ pv h2]
  rw [hdet]
  set s' := setLastChild (setNextSibling (decTreeUnits (decStrong
    (setParent (setPrevSibling (setNextSibling s i none) i none) i none) i) i)
    pv none) p (some pv) with hs'
  have hlen : s'.nodes.length = s.nodes.length := by
    simp [hs']
  have hrel : s'.released = s.released := by
    simp [hs']
  have hparI : parentRaw s' i = none := by
    simp [hs', parentRaw_setParent_self, hi]
  have hprevI : prevRaw s' i = none := by
    simp [hs', prevRaw_setPrevSibling_self, hi]
  have hnextI : nextRaw s' i = none := by
    simp [hs', nextRaw_setNextSibling_self, nextRaw_setNextSibling_ne, hi, hpvi]
  have hstrI : strongOf s' i = strongOf s i - 1 := by
    simp [hs', strongOf_decStrong_self, hi]
  have huI : treeUnitsOf s' i = treeUnitsOf s i - 1 := by
    simp [hs', treeUnitsOf_decTreeUnits_self, hi]
  have hfq : ∀ q, firstRaw s' q = firstRaw s q := by
    intro q
    simp [hs']
  have hlastP : lastRaw s' p = some pv := by
    simp [hs', lastRaw_setLastChild_self, hp]
  have hlq : ∀ q, q ≠ p → lastRaw s' q = lastRaw s q := by
    intro q hq
    have hpq : p ≠ q := Ne.symm hq
    simp [hs', lastRaw_setLastChild_ne, hpq]
  have hprevPV : prevRaw s' pv = prevBound l₁ none := by
    simp [hs', prevRaw_setPrevSibling_ne, hipv, hpvprev]
  have hparPV : parentRaw s' pv = some p := by
    simp [hs', parentRaw_setParent_ne, hipv, hpvpar]
  have hnextPV : nextRaw s' pv = none := by
    simp [hs', nextRaw_setNextSibling_self, hpvlt]
  have hframe : ∀ m2, m2 ≠ i →
      strongOf s' m2 = strongOf s m2 ∧ treeUnitsOf s' m2 = treeUnitsOf s m2 := by
    intro m2 hm
    have him : i ≠ m2 := Ne.symm hm
    constructor
    · simp [hs', strongOf_decStrong_ne, him]
    · simp [hs', treeUnitsOf_decTreeUnits_ne, him]
  have hagree : ∀ c, c ≠ i → c ≠ pv → agreeSib s s' c := by
    intro c hc2 hcpv
    have h3 : i ≠ c := Ne.symm hc2
    have h4 : pv ≠ c := Ne.symm hcpv
    rw [hs']
    refine agreeSib_trans _ _ _ _ ?_ (agreeSib_setLastChild _ _ _ _)
    refine agreeSib_trans _ _ _ _ ?_ (agreeSib_setNextSibling _ _ _ _ h4)
    refine agreeSib_trans _ _ _ _ ?_ (agreeSib_decTreeUnits _ _ _ h3)
    refine agreeSib_trans _ _ _ _ ?_ (agreeSib_decStrong _ _ _ h3)
    refine agreeSib_trans _ _ _ _ ?_ (agreeSib_setParent _ _ _ _ h3)
    refine agreeSib_trans _ _ _ _ ?_ (agreeSib_setPrevSibling _ _ _ _ h3)
    exact agreeSib_setNextSibling _ _ _ _ h3
  have hppos' : 0 < strongOf s' p := by
    by_cases hpi : p = i
    · rw [hpi, hstrI]
      omega
    · rw [(hframe p hpi).1]
      exact hppos
  have hseg₁' : segOk s' p none l₁ (some pv) := by
    refine segOk_congr s s' p hlen l₁ none (some pv) (fun c hc2 => ?_) hseg₁
    refine hagree c (fun hci => ?_) (fun hcpv => ?_)
    · exact hinotmem (List.mem_append_left _ (hci ▸ hc2))
    · exact hpvnotl₁ (hcpv ▸ hc2)
  have hsegnew : segOk s' p none (l₁ ++ [pv]) none := by
    refine (segOk_append s' p l₁ [pv] none none).mpr ⟨?_, ?_⟩
    · rw [nextBound_cons]
      exact hseg₁'
    · refine (segOk_cons s' p pv (prevBound l₁ none) none []).mpr
        ⟨by rw [hlen]; exact hpvlt, hprevPV, hparPV, ?_, ?_, hnextPV,
         segOk_nil s' p (some pv) none⟩
      · rw [(hframe pv hpvi).1]
        exact hpvpos
      · rw [(hframe pv hpvi).2]
        exact hpvun
  have hchild : Node.children s' p = l₁ ++ [pv] := by
    apply children_eq
    · rw [hfq p, hf, head?_append_nonempty (l₁ ++ [pv]) [i] (by simp)]
    · exact hsegnew
    · exact (List.nodup_append.mp hnodup).1
  have hsegq : ∀ q, q ≠ p → q < s.nodes.length → 0 < strongOf s q →
      segOk s' q none (Node.children s q) none := by
    intro q hq hqlen hqpos
    have hqs := (hW1 q hqlen hqpos).2.2.1
    refine segOk_congr s s' q hlen _ none none (fun c hc2 => ?_) hqs
    have hcp := (segOk_mem s q _ none none c hqs hc2).2.1
    refine hagree c (fun hci => ?_) (fun hcpv => ?_)
    · rw [hci, hpar] at hcp
      have h5 : p = q := Option.some.inj hcp
      exact hq h5.symm
    · rw [hcpv, hpvpar] at hcp
      have h5 : p = q := Option.some.inj hcp
      exact hq h5.symm
  have hchildq : ∀ q, q ≠ p → q < s.nodes.length → 0 < strongOf s q →
      Node.children s' q = Node.children s q := by
    intro q hq hqlen hqpos
    obtain ⟨hqf, hql, hqs, hqn⟩ := hW1 q hqlen hqpos
    apply children_eq
    · rw [hfq q, hqf]
    · exact hsegq q hq hqlen hqpos
    · exact hqn
  have hstrongq : ∀ q, 0 < strongOf s' q → 0 < strongOf s q := by
    intro q hq
    by_cases hqi : q = i
    · subst hqi
      exact hipos
    · rw [← (hframe q hqi).1]
      exact hq
  have hWF' : WF s' := by
    constructor
    · intro q hqlen' hqpos'
      rw [hlen] at hqlen'
      by_cases hq : q = p
      · rw [hq]
        refine ⟨?_, ?_, ?_, ?_⟩
        · rw [hchild, hfq p, hf, head?_append_nonempty (l₁ ++ [pv]) [i] (by simp)]
        · rw [hchild, hlastP, List.getLast?_concat]
        · rw [hchild]
          exact hsegnew
        · rw [hchild]
          exact (List.nodup_append.mp hnodup).1
      · have hqpos : 0 < strongOf s q := hstrongq q hqpos'
        obtain ⟨hqf, hql, hqs, hqn'⟩ := hW1 q hqlen' hqpos
        have hce := hchildq q hq hqlen' hqpos
        rw [hce]
        exact ⟨(hfq q).trans hqf, (hlq q hq).trans hql,
          hsegq q hq hqlen' hqpos, hqn'⟩
    · intro n hnlen' hnpos'
      rw [hlen] at hnlen'
      by_cases hn : n = i
      · rw [hn]
        refine ⟨?_, ?_, ?_⟩
        · intro h0
          exact ⟨hprevI, hnextI, by rw [huI, hui]⟩
        · intro q hq
          rw [hparI] at hq
          cases hq
        · rw [huI, hui, hstrI]
          omega
      · have hnpos : 0 < strongOf s n := hstrongq n hnpos'
        obtain ⟨hr2a, hr2b, hr2c⟩ := hW2 n hnlen' hnpos
        by_cases hnpv : n = pv
        · rw [hnpv]
          refine ⟨?_, ?_, ?_⟩
          · intro h0
            rw [hparPV] at h0
            cases h0
          · intro q hq
            rw [hparPV] at hq
            have h5 : p = q := Option.some.inj hq
            rw [← h5]
            refine ⟨by rw [hlen]; exact hp, hppos', ?_⟩
            rw [hchild]
            exact hpvmemL
          · rw [(hframe pv hpvi).1, (hframe pv hpvi).2]
            rw [hnpv] at hr2c
            exact hr2c
        · have hag := hagree n hn hnpv
          have hparn : parentRaw s' n = parentRaw s n := hag.2.2.1
          refine ⟨?_, ?_, ?_⟩
          · intro h0
            rw [hparn] at h0
            obtain ⟨u, v, w2⟩ := hr2a h0
            exact ⟨hag.1.trans u, hag.2.1.trans v, hag.2.2.2.2.trans w2⟩
          · intro q hq
            rw [hparn] at hq
            obtain ⟨u, v, w2⟩ := hr2b q hq
            by_cases hqp : q = p
            · subst hqp
              refine ⟨by rw [hlen]; exact hp, hppos', ?_⟩
              rw [hchild]
              rw [hc] at w2
              rcases List.mem_append.mp w2 with h5 | h6
              · exact h5
              · rw [List.mem_singleton.mp h6] at hn
                exact absurd rfl hn
            · refine ⟨by rw [hlen]; exact u, ?_, ?_⟩
              · by_cases hqi : q = i
                · rw [hqi, hstrI]
                  omega
                · rw [(hframe q hqi).1]
                  exact v
              · rw [hchildq q hqp u v]
                exact w2
          · rw [hag.2.2.2.1, hag.2.2.2.2]
            exact hr2c
  have hpatch1 : ∀ pv2, prevRaw s i = some pv2 → nextRaw s' pv2 = nextRaw s i := by
    intro pv2 hpv2
    have h5 : pv = pv2 := Option.some.inj (hprev.symm.trans hpv2)
    rw [← h5]
    exact hnextPV.trans hnext.symm
  have hpatch2 : prevRaw s i = none → firstRaw s' p = nextRaw s i := by
    intro h0
    rw [hprev] at h0
    cases h0
  have hpatch3 : ∀ nx2, nextRaw s i = some nx2 → prevRaw s' nx2 = prevRaw s i := by
    intro nx2 hnx2
    rw [hnext] at hnx2
    cases hnx2
  have hpatch4 : nextRaw s i = none → lastRaw s' p = prevRaw s i := by
    intro _
    exact hlastP.trans hprev.symm
  exact ⟨hWF', hchild, hparI, hprevI, hnextI, by rw [hstrI]; omega,
    by rw [huI, hui], hframe, hlen, hrel, hchildq, hpatch1, hpatch2, hpatch3, hpatch4⟩

/-- Detaching a middle child `i` with predecessors `l₁ ++ [pv]` and
successors `nx :: m`. -/
theorem detach_post_concat_cons (s : State) (p i pv nx : Nat) (l₁ m : List Nat)
    (hWF : WF s) (hi : i < s.nodes.length) (hipos : 0 < strongOf s i)
    (hcall : treeUnitsOf s i < strongOf s i)
    (hpar : parentRaw s i = some p)
    (hprev : prevRaw s i = some pv) (hnext : nextRaw s i = some nx)
    (hc : Node.children s p = (l₁ ++ [pv]) ++ i :: nx :: m) :
    DetachPost s p i ((l₁ ++ [pv]) ++ nx :: m) (Node.detach s i) := by
  obtain ⟨hW1, hW2⟩ := hWF
  obtain ⟨hp, hppos, -⟩ := (hW2 i hi hipos).2.1 p hpar
  obtain ⟨hf, hl, hsg, hnodup⟩ := hW1 p hp hppos
  rw [hc] at hsg hnodup hf hl
  have hsplit := (segOk_append s p (l₁ ++ [pv]) (i :: nx :: m) none none).mp hsg
  have hpart1 := hsplit.1
  rw [nextBound_cons] at hpart1
  have hpart2 := hsplit.2
  rw [prevBound_concat] at hpart2
  have hic := (segOk_cons s p i (some pv) none (nx :: m)).mp hpart2
  obtain ⟨-, -, -, -, hui, -, hrest⟩ := hic
  have hnxc := (segOk_cons s p nx (some i) none m).mp hrest
  obtain ⟨hnxlt, -, hnxpar, hnxpos, hnxun, hnxnext, hsgm⟩ := hnxc
  have hsplit1 := (segOk_append s p l₁ [pv] none (some i)).mp hpart1
  have hseg₁ : segOk s p none l₁ (some pv) := by
    have h := hsplit1.1
    rwa [nextBound_cons] at h
  have hsegpv := (segOk_cons s p pv (prevBound l₁ none) (some i) []).mp hsplit1.2
  obtain ⟨hpvlt, hpvprev, hpvpar, hpvpos, hpvun, -, -⟩ := hsegpv
  have hdisj := (List.nodup_append.mp hnodup).2.2
  have hrightnd := (List.nodup_append.mp hnodup).2.1
  have hpvmemL : pv ∈ l₁ ++ [pv] :=
    List.mem_append_right l₁ (List.mem_singleton.mpr rfl)
  have hinotmem : i ∉ l₁ ++ [pv] := fun hmem =>
    hdisj hmem (List.mem_cons_self i (nx :: m))
  have hpvi : pv ≠ i := fun h => hinotmem (h ▸ hpvmemL)
  have hipv : i ≠ pv := Ne.symm hpvi
  have hpvnx : pv ≠ nx := by
    intro h
    refine hdisj hpvmemL ?_
    rw [h]
    exact List.mem_cons_of_mem i (List.mem_cons_self nx m)
  have hnxpv : nx ≠ pv := Ne.symm hpvnx
  have hinotR : i ∉ nx :: m := (List.nodup_cons.mp hrightnd).1
  have hinx : i ≠ nx := fun h => hinotR (h ▸ List.mem_cons_self nx m)
  have hnxi : nx ≠ i := Ne.symm hinx
  have hpvnotl₁ : pv ∉ l₁ := by
    have := List.nodup_append.mp (List.nodup_append.mp hnodup).1
    intro hmem
    exact this.2.2 hmem (List.mem_singleton.mpr rfl)
  have hnxnotm : nx ∉ m := (List.nodup_cons.mp (List.nodup_cons.mp hrightnd).2).1
  have hnxnotmemL : nx ∉ l₁ ++ [pv] := fun hmem =>
    hdisj hmem (List.mem_cons_of_mem i (List.mem_cons_self nx m))
  have hpvnotR : pv ∉ nx :: m := fun h =>
    hdisj hpvmemL (List.mem_cons_of_mem i h)
  have hstr2 : 1 < strongOf s i := by
    rw [hui] at hcall
    exact hcall
  have h1 : 0 < strongOf
      (setParent (setPrevSibling (setNextSibling s i none) i none) i none) p := by
    simpa using hppos
  have h2 : 0 < strongOf (decTreeUnits (decStrong
      (setParent (setPrevSibling (setNextSibling s i none) i none) i none) i) i) pv := by
    simp [strongOf_decStrong_ne, hipv]
    exact hpvpos
  have h3 : 0 < strongOf (setNextSibling (decTreeUnits (decStrong
      (setParent (setPrevSibling (setNextSibling s i none) i none) i none) i) i)
      pv (some nx)) nx := by
    simp [strongOf_decStrong_ne, hinx]
    exact hnxpos
  have hdet : Node.detach s i =
      setPrevSibling (setNextSibling (decTreeUnits (decStrong
        (setParent (setPrevSibling (setNextSibling s i none) i none) i none) i) i)
        pv (some nx)) nx (some pv) := by
    simp only [Node.detach, hpar, hprev, hnext]
    rw [upgrade_some_of_pos _ p h1]
    rw [upgrade_some_of_pos _ pv h2]
    simp only [upgrade, if_pos h3]
  rw [hdet]
  set s' := setPrevSibling (setNextSibling (decTreeUnits (decStrong
    (setParent (setPrevSibling (setNextSibling s i none) i none) i none) i) i)
    pv (some nx)) nx (some pv) with hs'
  have hlen : s'.nodes.length = s.nodes.length := by
    simp [hs']
  have hrel : s'.released = s.released := by
    simp [hs']
  have hparI : parentRaw s' i = none := by
    simp [hs', parentRaw_setParent_self, hi]
  have hprevI : prevRaw s' i = none := by
    simp [hs', prevRaw_setPrevSibling_self, prevRaw_setPrevSibling_ne, hi, hnxi]
  have hnextI : nextRaw s' i = none := by
    simp [hs', nextRaw_setNextSibling_self, nextRaw_setNextSibling_ne, hi, hpvi]
  have hstrI : strongOf s' i = strongOf s i - 1 := by
    simp [hs', strongOf_decStrong_self, hi]
  have huI : treeUnitsOf s' i = treeUnitsOf s i - 1 := by
    simp [hs', treeUnitsOf_decTreeUnits_self, hi]
  have hfq : ∀ q, firstRaw s' q = firstRaw s q := by
    intro q
    simp [hs']
  have hlq : ∀ q, lastRaw s' q = lastRaw s q := by
    intro q
    simp [hs']
  have hprevPV : prevRaw s' pv = prevBound l₁ none := by
    simp [hs', prevRaw_setPrevSibling_ne, hipv, hnxpv, hpvprev]
  have hparPV : parentRaw s' pv = some p := by
    simp [hs', parentRaw_setParent_ne, hipv, hpvpar]
  have hnextPV : nextRaw s' pv = some nx := by
    simp [hs', nextRaw_setNextSibling_self, nextRaw_setNextSibling_ne, hpvlt, hipv]
  have hprevNX : prevRaw s' nx = some pv := by
    simp [hs', prevRaw_setPrevSibling_self, hnxlt]
  have hparNX : parentRaw s' nx = some p := by
    simp [hs', parentRaw_setParent_ne, hinx, hnxpar]
  have hnextNX : nextRaw s' nx = nextBound m none := by
    simp [hs', nextRaw_setNextSibling_ne, hinx, hpvnx, hnxnext]
  have hframe : ∀ m2, m2 ≠ i →
      strongOf s' m2 = strongOf s m2 ∧ treeUnitsOf s' m2 = treeUnitsOf s m2 := by
    intro m2 hm
    have him : i ≠ m2 := Ne.symm hm
    constructor
    · simp [hs', strongOf_decStrong_ne, him]
    · simp [hs', treeUnitsOf_decTreeUnits_ne, him]
  have hagree : ∀ c, c ≠ i → c ≠ pv → c ≠ nx → agreeSib s s' c := by
    intro c hc2 hcpv hcnx
    have h4 : i ≠ c := Ne.symm hc2
    have h5 : pv ≠ c := Ne.symm hcpv
    have h6 : nx ≠ c := Ne.symm hcnx
    rw [hs']
    refine agreeSib_trans _ _ _ _ ?_ (agreeSib_setPrevSibling _ _ _ _ h6)
    refine agreeSib_trans _ _ _ _ ?_ (agreeSib_setNextSibling _ _ _ _ h5)
    refine agreeSib_trans _ _ _ _ ?_ (agreeSib_decTreeUnits _ _ _ h4)
    refine agreeSib_trans _ _ _ _ ?_ (agreeSib_decStrong _ _ _ h4)
    refine agreeSib_trans _ _ _ _ ?_ (agreeSib_setParent _ _ _ _ h4)
    refine agreeSib_trans _ _ _ _ ?_ (agreeSib_setPrevSibling _ _ _ _ h4)
    exact agreeSib_setNextSibling _ _ _ _ h4
  have hppos' : 0 < strongOf s' p := by
    by_cases hpi : p = i
    · rw [hpi, hstrI]
      omega
    · rw [(hframe p hpi).1]
      exact hppos
  have hseg₁' : segOk s' p none l₁ (some pv) := by
    refine segOk_congr s s' p hlen l₁ none (some pv) (fun c hc2 => ?_) hseg₁
    refine hagree c (fun hci => ?_) (fun hcpv => ?_) (fun hcnx => ?_)
    · exact hinotmem (List.mem_append_left _ (hci ▸ hc2))
    · exact hpvnotl₁ (hcpv ▸ hc2)
    · exact hnxnotmemL (List.mem_append_left _ (hcnx ▸ hc2))
  have hsgm' : segOk s' p (some nx) m none := by
    refine segOk_congr s s' p hlen m (some nx) none (fun c hc2 => ?_) hsgm
    refine hagree c (fun hci => ?_) (fun hcpv => ?_) (fun hcnx => ?_)
    · exact hinotR (List.mem_cons_of_mem nx (hci ▸ hc2))
    · exact hpvnotR (List.mem_cons_of_mem nx (hcpv ▸ hc2))
    · exact hnxnotm (hcnx ▸ hc2)
  have hsegnew : segOk s' p none ((l₁ ++ [pv]) ++ nx :: m) none := by
    refine (segOk_append s' p (l₁ ++ [pv]) (nx :: m) none none).mpr ⟨?_, ?_⟩
    · rw [nextBound_cons]
      refine (segOk_append s' p l₁ [pv] none (some nx)).mpr ⟨?_, ?_⟩
      · rw [nextBound_cons]
        exact hseg₁'
      · refine (segOk_cons s' p pv (prevBound l₁ none) (some nx) []).mpr
          ⟨by rw [hlen]; exact hpvlt, hprevPV, hparPV, ?_, ?_, hnextPV,
           segOk_nil s' p (some pv) (some nx)⟩
        · rw [(hframe pv hpvi).1]
          exact hpvpos
        · rw [(hframe pv hpvi).2]
          exact hpvun
    · rw [prevBound_concat]
      refine (segOk_cons s' p nx (some pv) none m).mpr
        ⟨by rw [hlen]; exact hnxlt, hprevNX, hparNX, ?_, ?_, hnextNX, hsgm'⟩
      · rw [(hframe nx hnxi).1]
        exact hnxpos
      · rw [(hframe nx hnxi).2]
        exact hnxun
  have hnodup' : ((l₁ ++ [pv]) ++ nx :: m).Nodup :=
    (List.nodup_cons.mp (List.nodup_middle.mp hnodup)).2
  have hchild : Node.children s' p = (l₁ ++ [pv]) ++ nx :: m := by
    apply children_eq
    · rw [hfq p, hf, head?_append_nonempty (l₁ ++ [pv]) (i :: nx :: m) (by simp),
        head?_append_nonempty (l₁ ++ [pv]) (nx :: m) (by simp)]
    · exact hsegnew
    · exact hnodup'
  have hsegq : ∀ q, q ≠ p → q < s.nodes.length → 0 < strongOf s q →
      segOk s' q none (Node.children s q) none := by
    intro q hq hqlen hqpos
    have hqs := (hW1 q hqlen hqpos).2.2.1
    refine segOk_congr s s' q hlen _ none none (fun c hc2 => ?_) hqs
    have hcp := (segOk_mem s q _ none none c hqs hc2).2.1
    refine hagree c (fun hci => ?_) (fun hcpv => ?_) (fun hcnx => ?_)
    · rw [hci, hpar] at hcp
      exact hq (Option.some.inj hcp).symm
    · rw [hcpv, hpvpar] at hcp
      exact hq (Option.some.inj hcp).symm
    · rw [hcnx, hnxpar] at hcp
      exact hq (Option.some.inj hcp).symm
  have hchildq : ∀ q, q ≠ p → q < s.nodes.length → 0 < strongOf s q →
      Node.children s' q = Node.children s q := by
    intro q hq hqlen hqpos
    obtain ⟨hqf, hql, hqs, hqn⟩ := hW1 q hqlen hqpos
    apply children_eq
    · rw [hfq q, hqf]
    · exact hsegq q hq hqlen hqpos
    · exact hqn
  have hstrongq : ∀ q, 0 < strongOf s' q → 0 < strongOf s q := by
    intro q hq
    by_cases hqi : q = i
    · subst hqi
      exact hipos
    · rw [← (hframe q hqi).1]
      exact hq
  have hWF' : WF s' := by
    constructor
    · intro q hqlen' hqpos'
      rw [hlen] at hqlen'
      by_cases hq : q = p
      · rw [hq]
        refine ⟨?_, ?_, ?_, ?_⟩
        · rw [hchild, hfq p, hf, head?_append_nonempty (l₁ ++ [pv]) (i :: nx :: m) (by simp),
            head?_append_nonempty (l₁ ++ [pv]) (nx :: m) (by simp)]
        · rw [hchild, hlq p, hl,
            getLast?_append_nonempty (l₁ ++ [pv]) (i :: nx :: m) (by simp),
            getLast?_append_nonempty (l₁ ++ [pv]) (nx :: m) (by simp),
            List.getLast?_cons_cons]
        · rw [hchild]
          exact hsegnew
        · rw [hchild]
          exact hnodup'
      · have hqpos : 0 < strongOf s q := hstrongq q hqpos'
        obtain ⟨hqf, hql, hqs, hqn'⟩ := hW1 q hqlen' hqpos
        have hce := hchildq q hq hqlen' hqpos
        rw [hce]
        exact ⟨(hfq q).trans hqf, (hlq q).trans hql,
          hsegq q hq hqlen' hqpos, hqn'⟩
    · intro n hnlen' hnpos'
      rw [hlen] at hnlen'
      by_cases hn : n = i
      · rw [hn]
        refine ⟨?_, ?_, ?_⟩
        · intro h0
          exact ⟨hprevI, hnextI, by rw [huI, hui]⟩
        · intro q hq
          rw [hparI] at hq
          cases hq
        · rw [huI, hui, hstrI]
          omega
      · have hnpos : 0 < strongOf s n := hstrongq n hnpos'
        obtain ⟨hr2a, hr2b, hr2c⟩ := hW2 n hnlen' hnpos
        by_cases hnpv : n = pv
        · rw [hnpv]
          refine ⟨?_, ?_, ?_⟩
          · intro h0
            rw [hparPV] at h0
            cases h0
          · intro q hq
            rw [hparPV] at hq
            rw [← Option.some.inj hq]
            refine ⟨by rw [hlen]; exact hp, hppos', ?_⟩
            rw [hchild]
            exact List.mem_append_left _ hpvmemL
          · rw [(hframe pv hpvi).1, (hframe pv hpvi).2]
            rw [hnpv] at hr2c
            exact hr2c
        · by_cases hnnx : n = nx
          · rw [hnnx]
            refine ⟨?_, ?_, ?_⟩
            · intro h0
              rw [hparNX] at h0
              cases h0
            · intro q hq
              rw [hparNX] at hq
              rw [← Option.some.inj hq]
              refine ⟨by rw [hlen]; exact hp, hppos', ?_⟩
              rw [hchild]
              exact List.mem_append_right _ (List.mem_cons_self nx m)
            · rw [(hframe nx hnxi).1, (hframe nx hnxi).2]
              rw [hnnx] at hr2c
              exact hr2c
          · have hag := hagree n hn hnpv hnnx
            have hparn : parentRaw s' n = parentRaw s n := hag.2.2.1
            refine ⟨?_, ?_, ?_⟩
            · intro h0
              rw [hparn] at h0
              obtain ⟨u, v, w2⟩ := hr2a h0
              exact ⟨hag.1.trans u, hag.2.1.trans v, hag.2.2.2.2.trans w2⟩
            · intro q hq
              rw [hparn] at hq
              obtain ⟨u, v, w2⟩ := hr2b q hq
              by_cases hqp : q = p
              · subst hqp
                refine ⟨by rw [hlen]; exact hp, hppos', ?_⟩
                rw [hchild]
                rw [hc] at w2
                rcases List.mem_append.mp w2 with h5 | h6
                · exact List.mem_append_left _ h5
                · rcases List.mem_cons.mp h6 with h7 | h8
                  · exact absurd h7 hn
                  · exact List.mem_append_right _ h8
              · refine ⟨by rw [hlen]; exact u, ?_, ?_⟩
                · by_cases hqi : q = i
                  · rw [hqi, hstrI]
                    omega
                  · rw [(hframe q hqi).1]
                    exact v
                · rw [hchildq q hqp u v]
                  exact w2
            · rw [hag.2.2.2.1, hag.2.2.2.2]
              exact hr2c
  have hpatch1 : ∀ pv2, prevRaw s i = some pv2 → nextRaw s' pv2 = nextRaw s i := by
    intro pv2 hpv2
    have h5 : pv = pv2 := Option.some.inj (hprev.symm.trans hpv2)
    rw [← h5]
    exact hnextPV.trans hnext.symm
  have hpatch2 : prevRaw s i = none → firstRaw s' p = nextRaw s i := by
    intro h0
    rw [hprev] at h0
    cases h0
  have hpatch3 : ∀ nx2, nextRaw s i = some nx2 → prevRaw s' nx2 = prevRaw s i := by
    intro nx2 hnx2
    have h5 : nx = nx2 := Option.some.inj (hnext.symm.trans hnx2)
    rw [← h5]
    exact hprevNX.trans hprev.symm
  have hpatch4 : nextRaw s i = none → lastRaw s' p = prevRaw s i := by
    intro h0
    rw [hnext] at h0
    cases h0
  exact ⟨hWF', hchild, hparI, hprevI, hnextI, by rw [hstrI]; omega,
    by rw [huI, hui], hframe, hlen, hrel, hchildq, hpatch1, hpatch2, hpatch3, hpatch4⟩

/-- Detaching an attached node removes exactly its occurrence from its
parent's children chain and satisfies the detach postcondition bundle. -/
theorem detach_attached (s : State) (i p : Nat)
    (hWF : WF s) (hi : i < s.nodes.length) (hipos : 0 < strongOf s i)
    (hcall : treeUnitsOf s i < strongOf s i)
    (hpar : parentRaw s i = some p) :
    ∃ l₁ l₂, Node.children s p = l₁ ++ i :: l₂ ∧
      DetachPost s p i (l₁ ++ l₂) (Node.detach s i) := by
  obtain ⟨hp, hppos, himem⟩ := (hWF.2 i hi hipos).2.1 p hpar
  obtain ⟨-, -, hsg, -⟩ := hWF.1 p hp hppos
  obtain ⟨l₁, l₂, hc, hprev, hnext⟩ := segOk_decompose s p _ hsg i himem
  refine ⟨l₁, l₂, hc, ?_⟩
  rcases List.eq_nil_or_concat l₁ with h1 | ⟨l₁', pv, h1⟩
  · subst h1
    rw [prevBound_nil] at hprev
    cases l₂ with
    | nil =>
      rw [nextBound_nil] at hnext
      exact detach_post_nil_nil s p i hWF hi hipos hcall hpar hprev hnext
        (by simpa using hc)
    | cons nx m =>
      rw [nextBound_cons] at hnext
      exact detach_post_nil_cons s p i nx m hWF hi hipos hcall hpar hprev hnext
        (by simpa using hc)
  · rw [List.concat_eq_append] at h1
    subst h1
    rw [prevBound_concat] at hprev
    cases l₂ with
    | nil =>
      rw [nextBound_nil] at hnext
      have h := detach_post_concat_nil s p i pv l₁' hWF hi hipos hcall hpar hprev hnext hc
      rw [show (l₁' ++ [pv]) ++ ([] : List Nat) = l₁' ++ [pv] by simp]
      exact h
    | cons nx m =>
      rw [nextBound_cons] at hnext
      exact detach_post_concat_cons s p i pv nx l₁' m hWF hi hipos hcall hpar hprev
        hnext hc

/-- A targeted modification that rewrites the record to itself is the
identity. -/
theorem modifyNode_id (s : State) (i : Nat) (f : NodeData → NodeData)
    (h : ∀ d, s.node? i = some d → f d = d) : modifyNode s i f = s := by
  unfold modifyNode
  cases hd : s.nodes[i]? with
  | none => rfl
  | some d =>
    have hfd : f d = d := h d hd
    have hset : s.nodes.set i (f d) = s.nodes := by
      apply List.ext_getElem?
      intro n
      rw [List.getElem?_set]
      split
      · rename_i hin
        subst hin
        have hlt : i < s.nodes.length := (List.getElem?_eq_some.mp hd).1
        rw [if_pos hlt, hfd, hd]
      · rfl
    simp only [hset]

/-- Detaching a node whose three back-reference slots are already empty is
the identity on the heap. -/
theorem detach_of_cleared (s : State) (i : Nat)
    (hroot : parentRaw s i = none) (hprev : prevRaw s i = none)
    (hnext : nextRaw s i = none) : Node.detach s i = s := by
  have e1 : setNextSibling s i none = s := by
    apply modifyNode_id
    intro d hd
    have hx : d.next_sibling = none := by
      rw [nextRaw, hd] at hnext
      exact hnext
    cases d
    simp only at hx
    simp [hx]
  have e2 : setPrevSibling s i none = s := by
    apply modifyNode_id
    intro d hd
    have hx : d.prev_sibling = none := by
      rw [prevRaw, hd] at hprev
      exact hprev
    cases d
    simp only at hx
    simp [hx]
  have e3 : setParent s i none = s := by
    apply modifyNode_id
    intro d hd
    have hx : d.parent = none := by
      rw [parentRaw, hd] at hroot
      exact hroot
    cases d
    simp only at hx
    simp [hx]
  simp only [Node.detach, hroot, hprev, hnext, e1, e2, e3, upgrade_none]

/-- Detaching a live root under the invariant is the identity (the fields
it clears are already empty). -/
theorem detach_root_id (s : State) (i : Nat) (hWF : WF s)
    (hi : i < s.nodes.length) (hipos : 0 < strongOf s i)
    (hroot : parentRaw s i = none) : Node.detach s i = s := by
  obtain ⟨hprev, hnext, -⟩ := (hWF.2 i hi hipos).1 hroot
  exact detach_of_cleared s i hroot hprev hnext

/-- Under the invariant, a second `detach` of the same node is a no-op. -/
theorem detach_idem (s : State) (i : Nat) (hWF : WF s)
    (hi : i < s.nodes.length) (hipos : 0 < strongOf s i)
    (hcall : treeUnitsOf s i < strongOf s i) :
    Node.detach (Node.detach s i) i = Node.detach s i := by
  cases hpar : parentRaw s i with
  | none =>
    simp only [detach_root_id s i hWF hi hipos hpar]
  | some p =>
    obtain ⟨l₁, l₂, -, hpost⟩ := detach_attached s i p hWF hi hipos hcall hpar
    exact detach_of_cleared _ i hpost.2.2.1 hpost.2.2.2.1 hpost.2.2.2.2.1

/-- Upgrades agree between heaps with the same liveness pattern. -/
theorem upgrade_congr_pos (s s' : State)
    (h : ∀ k, 0 < strongOf s' k ↔ 0 < strongOf s k) :
    ∀ w, upgrade s' w = upgrade s w := by
  intro w
  cases w with
  | none => rfl
  | some c =>
    by_cases hc : 0 < strongOf s c
    · simp [upgrade, hc, (h c).mpr hc]
    · have hc' : ¬ 0 < strongOf s' c := fun hx => hc ((h c).mp hx)
      simp [upgrade, hc, hc']

/-- The children walk agrees between heaps with equal `next_sibling` slots
and equal upgrade behaviour. -/
theorem sibWalk_congr (s s' : State)
    (hnext : ∀ c, nextRaw s' c = nextRaw s c)
    (hupg : ∀ w, upgrade s' w = upgrade s w) :
    ∀ (fuel : Nat) (w : Option Nat),
      Node.sibWalk s' fuel w = Node.sibWalk s fuel w := by
  intro fuel
  induction fuel with
  | zero =>
    intro w
    cases w <;> rfl
  | succ f ih =>
    intro w
    cases w with
    | none => rfl
    | some n =>
      show n :: Node.sibWalk s' f (upgrade s' (nextRaw s' n)) =
        n :: Node.sibWalk s f (upgrade s (nextRaw s n))
      rw [hnext, hupg, ih]

/-- Segment checks transfer between heaps agreeing on members up to
liveness. -/
theorem segOk_congr_pos (s s' : State) (p : Nat)
    (hlen : s.nodes.length ≤ s'.nodes.length) :
    ∀ (l : List Nat) (pr nx : Option Nat),
      (∀ c ∈ l, prevRaw s' c = prevRaw s c ∧ nextRaw s' c = nextRaw s c ∧
        parentRaw s' c = parentRaw s c ∧
        (0 < strongOf s' c ↔ 0 < strongOf s c) ∧
        treeUnitsOf s' c = treeUnitsOf s c) →
      segOk s p pr l nx → segOk s' p pr l nx := by
  intro l
  induction l with
  | nil =>
    intro pr nx _ _
    exact segOk_nil s' p pr nx
  | cons c rest ih =>
    intro pr nx hag h
    rw [segOk_cons] at h ⊢
    obtain ⟨h1, h2, h3, h4, h5, h6, h7⟩ := h
    obtain ⟨a1, a2, a3, a4, a5⟩ := hag c (List.mem_cons_self c rest)
    refine ⟨Nat.lt_of_lt_of_le h1 hlen, a1.trans h2, a3.trans h3, a4.mpr h4, a5 ▸ h5,
      a2.trans h6, ih (some c) nx (fun d hd => hag d (List.mem_cons_of_mem c hd)) h7⟩

/-- Bumping the strong count of a live node preserves the invariant (this
is what the `Rc` materialized by a successful `upgrade` does). -/
theorem WF_incStrong (s : State) (x : Nat) (hWF : WF s)
    (hx : 0 < strongOf s x) : WF (incStrong s x) := by
  have hxlen : x < s.nodes.length := lt_length_of_strong s x hx
  set s' := incStrong s x with hs'
  have hlen : s'.nodes.length = s.nodes.length := by
    simp [hs']
  have hposiff : ∀ k, 0 < strongOf s' k ↔ 0 < strongOf s k := by
    intro k
    by_cases hk : k = x
    · subst hk
      rw [hs', strongOf_incStrong_self s k hxlen]
      constructor
      · intro _
        exact hx
      · intro _
        omega
    · rw [hs', strongOf_incStrong_ne s x k (Ne.symm hk)]
  have hupg := upgrade_congr_pos s s' hposiff
  have hch : ∀ q, Node.children s' q = Node.children s q := by
    intro q
    unfold Node.children
    rw [hlen, show firstRaw s' q = firstRaw s q by simp [hs'], hupg,
      sibWalk_congr s s' (fun c => by simp [hs']) hupg]
  constructor
  · intro q hq hqpos
    rw [hlen] at hq
    obtain ⟨u1, u2, u3, u4⟩ := hWF.1 q hq ((hposiff q).mp hqpos)
    rw [hch]
    refine ⟨(show firstRaw s' q = firstRaw s q by simp [hs']).trans u1,
      (show lastRaw s' q = lastRaw s q by simp [hs']).trans u2, ?_, u4⟩
    refine segOk_congr_pos s s' q hlen.ge _ none none (fun c hc => ?_) u3
    exact ⟨by simp [hs'], by simp [hs'], by simp [hs'], hposiff c, by simp [hs']⟩
  · intro n hn hnpos
    rw [hlen] at hn
    obtain ⟨v1, v2, v3⟩ := hWF.2 n hn ((hposiff n).mp hnpos)
    have hpn : parentRaw s' n = parentRaw s n := by simp [hs']
    refine ⟨?_, ?_, ?_⟩
    · intro h0
      rw [hpn] at h0
      obtain ⟨w1, w2, w3⟩ := v1 h0
      exact ⟨(show prevRaw s' n = prevRaw s n by simp [hs']).trans w1,
        (show nextRaw s' n = nextRaw s n by simp [hs']).trans w2,
        (show treeUnitsOf s' n = treeUnitsOf s n by simp [hs']).trans w3⟩
    · intro q hq
      rw [hpn] at hq
      obtain ⟨w1, w2, w3⟩ := v2 q hq
      refine ⟨by rw [hlen]; exact w1, (hposiff q).mpr w2, ?_⟩
      rw [hch q]
      exact w3
    · by_cases hnx : n = x
      · subst hnx
        rw [show treeUnitsOf s' n = treeUnitsOf s n by simp [hs'],
          hs', strongOf_incStrong_self s n hxlen]
        omega
      · rw [show treeUnitsOf s' n = treeUnitsOf s n by simp [hs'],
          hs', strongOf_incStrong_ne s x n (Ne.symm hnx)]
        exact v3


/-- Allocating a fresh root preserves the invariant. -/
theorem WF_new (s : State) (hWF : WF s) : WF (Node.new s).2 := by
  set s' := (Node.new s).2 with hs'
  have hlen : s'.nodes.length = s.nodes.length + 1 := by
    simp [hs', Node.new]
  have hnone : s.node? s.nodes.length = none :=
    List.getElem?_eq_none (Nat.le_refl _)
  have hnode? : ∀ i, s'.node? i =
      if i = s.nodes.length then some ⟨none, none, none, none, none, 1, 0⟩
      else s.node? i := by
    intro i
    by_cases hi : i = s.nodes.length
    · subst hi
      simp [hs', Node.new, State.node?, List.getElem?_concat_length]
    · rw [if_neg hi]
      rcases Nat.lt_or_ge i s.nodes.length with h1 | h2
      · simp [hs', Node.new, State.node?, List.getElem?_append_left h1]
      · have h4 : s.nodes[i]? = none := List.getElem?_eq_none h2
        have h5 : (s.nodes ++
            [(⟨none, none, none, none, none, 1, 0⟩ : NodeData)])[i]? = none := by
          apply List.getElem?_eq_none
          simp
          omega
        simp [hs', Node.new, State.node?, h4, h5]
  have hpar : ∀ i, parentRaw s' i = parentRaw s i := by
    intro i
    rw [parentRaw, parentRaw, hnode? i]
    split
    · rename_i hi
      rw [hi, hnone]
      rfl
    · rfl
  have hprev : ∀ i, prevRaw s' i = prevRaw s i := by
    intro i
    rw [prevRaw, prevRaw, hnode? i]
    split
    · rename_i hi
      rw [hi, hnone]
      rfl
    · rfl
  have hnext : ∀ i, nextRaw s' i = nextRaw s i := by
    intro i
    rw [nextRaw, nextRaw, hnode? i]
    split
    · rename_i hi
      rw [hi, hnone]
      rfl
    · rfl
  have hfirst : ∀ i, firstRaw s' i = firstRaw s i := by
    intro i
    rw [firstRaw, firstRaw, hnode? i]
    split
    · rename_i hi
      rw [hi, hnone]
      rfl
    · rfl
  have hlast : ∀ i, lastRaw s' i = lastRaw s i := by
    intro i
    rw [lastRaw, lastRaw, hnode? i]
    split
    · rename_i hi
      rw [hi, hnone]
      rfl
    · rfl
  have hunits : ∀ i, treeUnitsOf s' i = treeUnitsOf s i := by
    intro i
    rw [treeUnitsOf, treeUnitsOf, hnode? i]
    split
    · rename_i hi
      rw [hi, hnone]
      rfl
    · rfl
  have hstr : ∀ i, i ≠ s.nodes.length → strongOf s' i = strongOf s i := by
    intro i hi
    rw [strongOf, strongOf, hnode? i, if_neg hi]
  have hchq : ∀ q, q < s.nodes.length → 0 < strongOf s q →
      Node.children s' q = Node.children s q := by
    intro q hq hqpos
    obtain ⟨u1, -, u3, u4⟩ := hWF.1 q hq hqpos
    apply children_eq
    · rw [hfirst q, u1]
    · refine segOk_congr_pos s s' q (by omega) _ none none (fun c hc => ?_) u3
      refine ⟨hprev c, hnext c, hpar c, ?_, hunits c⟩
      have hclen : c < s.nodes.length := (segOk_mem s q _ none none c u3 hc).1
      rw [hstr c (by omega)]
    · exact u4
  have hfnew : firstRaw s s.nodes.length = none := by
    rw [firstRaw, hnone]
    rfl
  have hlnew : lastRaw s s.nodes.length = none := by
    rw [lastRaw, hnone]
    rfl
  have hpnew : parentRaw s s.nodes.length = none := by
    rw [parentRaw, hnone]
    rfl
  have hprevnew : prevRaw s s.nodes.length = none := by
    rw [prevRaw, hnone]
    rfl
  have hnextnew : nextRaw s s.nodes.length = none := by
    rw [nextRaw, hnone]
    rfl
  have hunew : treeUnitsOf s s.nodes.length = 0 := by
    rw [treeUnitsOf, hnone]
    rfl
  constructor
  · intro q hq hqpos
    by_cases hql : q = s.nodes.length
    · have hfq : firstRaw s' q = none := by
        rw [hfirst q, hql]
        exact hfnew
      have hlq2 : lastRaw s' q = none := by
        rw [hlast q, hql]
        exact hlnew
      have hcq : Node.children s' q = [] := by
        unfold Node.children
        rw [hfq, upgrade_none]
        cases s'.nodes.length <;> rfl
      rw [hcq, hfq, hlq2]
      exact ⟨rfl, rfl, segOk_nil s' q none none, List.nodup_nil⟩
    · have hq2 : q < s.nodes.length := by
        rw [hlen] at hq
        omega
      have hqpos2 : 0 < strongOf s q := by
        rw [← hstr q hql]
        exact hqpos
      obtain ⟨u1, u2, u3, u4⟩ := hWF.1 q hq2 hqpos2
      rw [hchq q hq2 hqpos2, hfirst q, hlast q]
      refine ⟨u1, u2, ?_, u4⟩
      refine segOk_congr_pos s s' q (by omega) _ none none (fun c hc => ?_) u3
      refine ⟨hprev c, hnext c, hpar c, ?_, hunits c⟩
      have hclen : c < s.nodes.length := (segOk_mem s q _ none none c u3 hc).1
      rw [hstr c (by omega)]
  · intro n hn hnpos
    by_cases hnl : n = s.nodes.length
    · refine ⟨?_, ?_, ?_⟩
      · intro _
        refine ⟨?_, ?_, ?_⟩
        · rw [hprev n, hnl]
          exact hprevnew
        · rw [hnext n, hnl]
          exact hnextnew
        · rw [hunits n, hnl]
          exact hunew
      · intro q hq
        rw [hpar n, hnl, hpnew] at hq
        cases hq
      · rw [hunits n, hnl, hunew]
        simp
    · have hn2 : n < s.nodes.length := by
        rw [hlen] at hn
        omega
      have hnpos2 : 0 < strongOf s n := by
        rw [← hstr n hnl]
        exact hnpos
      obtain ⟨v1, v2, v3⟩ := hWF.2 n hn2 hnpos2
      refine ⟨?_, ?_, ?_⟩
      · intro h0
        rw [hpar] at h0
        obtain ⟨w1, w2, w3⟩ := v1 h0
        exact ⟨(hprev n).trans w1, (hnext n).trans w2, (hunits n).trans w3⟩
      · intro q hq
        rw [hpar] at hq
        obtain ⟨w1, w2, w3⟩ := v2 q hq
        refine ⟨by rw [hlen]; omega, ?_, ?_⟩
        · rw [hstr q (by omega)]
          exact w2
        · rw [hchq q w1 w2]
          exact w3
      · rw [hunits n, hstr n hnl]
        exact v3

/-- `_attach` does not change the heap size. -/
theorem length__attach (s : State) (p : Nat) (prev next : Option Nat)
    (node : Nat) :
    (Node._attach s p prev next node).nodes.length = s.nodes.length := by
  unfold Node._attach
  cases prev <;> cases next <;> simp

/-- `_attach` does not touch the release log. -/
theorem released__attach (s : State) (p : Nat) (prev next : Option Nat)
    (node : Nat) :
    (Node._attach s p prev next node).released = s.released := by
  unfold Node._attach
  cases prev <;> cases next <;> simp

/-- Whatever form a successful `attach` takes, the resulting heap is the
linking step followed by the single strong-count and unit bump of `node`. -/
theorem attach_ok_shape (s : State) (i : Nat) (t : AttachTarget) (node : Nat)
    (s' : State) (hok : Node.attach s i t node = .ok s') :
    ∃ p prev next,
      s' = incTreeUnits (incStrong (Node._attach s p prev next node) node) node := by
  cases t <;> rw [Node.attach] at hok <;> split at hok
  case FirstChild.isTrue =>
    simp only [Except.ok.injEq] at hok
    exact ⟨i, none, upgrade s (firstRaw s i), hok.symm⟩
  case FirstChild.isFalse => cases hok
  case LastChild.isTrue =>
    simp only [Except.ok.injEq] at hok
    exact ⟨i, upgrade s (lastRaw s i), none, hok.symm⟩
  case LastChild.isFalse => cases hok
  case After.isTrue =>
    split at hok
    · rename_i p hup
      simp only [Except.ok.injEq] at hok
      exact ⟨p, some i, upgrade s (nextRaw s i), hok.symm⟩
    · cases hok
  case After.isFalse => cases hok
  case Before.isTrue =>
    split at hok
    · rename_i p hup
      simp only [Except.ok.injEq] at hok
      exact ⟨p, upgrade s (prevRaw s i), some i, hok.symm⟩
    · cases hok
  case Before.isFalse => cases hok

/-- A successful `attach` bumps the strong count and the tree-held unit
count of the attached node by exactly one and changes no other node's
counts. -/
theorem attach_ok_delta (s : State) (i : Nat) (t : AttachTarget) (node : Nat)
    (s' : State) (hnd : node < s.nodes.length)
    (hok : Node.attach s i t node = .ok s') :
    strongOf s' node = strongOf s node + 1 ∧
    treeUnitsOf s' node = treeUnitsOf s node + 1 ∧
    ∀ m, m ≠ node →
      strongOf s' m = strongOf s m ∧ treeUnitsOf s' m = treeUnitsOf s m := by
  obtain ⟨p, prev, next, rfl⟩ := attach_ok_shape s i t node s' hok
  refine ⟨?_, ?_, ?_⟩
  · simp [strongOf_incStrong_self, length__attach, hnd, strongOf__attach]
  · simp [treeUnitsOf_incTreeUnits_self, length__attach, hnd, treeUnitsOf__attach]
  · intro m hm
    have hnm : node ≠ m := Ne.symm hm
    constructor
    · simp [strongOf_incStrong_ne, hnm, strongOf__attach]
    · simp [treeUnitsOf_incTreeUnits_ne, hnm, treeUnitsOf__attach]

/-- Characterization of `attach` failure: under the invariant and with a
live `self`, the call fails exactly when the node being attached is not a
root, or the target is relative (`Before`/`After`) and `self` is a root. -/
theorem attach_isOk_iff (s : State) (i : Nat) (t : AttachTarget) (node : Nat)
    (hWF : WF s) (hi : i < s.nodes.length) (hipos : 0 < strongOf s i) :
    (Node.attach s i t node).isOk = true ↔
      (Node.is_root s node = true ∧
        ((t = .Before ∨ t = .After) → Node.is_root s i = false)) := by
  by_cases hroot : Node.is_root s node = true
  · cases t
    · simp [Node.attach, hroot, Except.isOk, Except.toBool]
    · simp [Node.attach, hroot, Except.isOk, Except.toBool]
    · cases hpar : parentRaw s i with
      | none =>
        have hri : Node.is_root s i = true := (is_root_eq_true s i).mpr hpar
        simp [Node.attach, hroot, hpar, upgrade_none, Except.isOk, Except.toBool, hri]
      | some p =>
        have hppos : 0 < strongOf s p := ((hWF.2 i hi hipos).2.1 p hpar).2.1
        have hri : Node.is_root s i = false := by
          simp [Node.is_root, hpar]
        simp [Node.attach, hroot, hpar, upgrade_some_of_pos s p hppos,
          Except.isOk, Except.toBool, hri]
    · cases hpar : parentRaw s i with
      | none =>
        have hri : Node.is_root s i = true := (is_root_eq_true s i).mpr hpar
        simp [Node.attach, hroot, hpar, upgrade_none, Except.isOk, Except.toBool, hri]
      | some p =>
        have hppos : 0 < strongOf s p := ((hWF.2 i hi hipos).2.1 p hpar).2.1
        have hri : Node.is_root s i = false := by
          simp [Node.is_root, hpar]
        simp [Node.attach, hroot, hpar, upgrade_some_of_pos s p hppos,
          Except.isOk, Except.toBool, hri]
  · have hroot' : Node.is_root s node = false := by
      cases h : Node.is_root s node
      · rfl
      · exact absurd h hroot
    cases t <;> simp [Node.attach, hroot', Except.isOk, Except.toBool]

/-- Strong counts agree where records agree. -/
theorem strongOf_congr (s s' : State) (n : Nat)
    (h : s'.node? n = s.node? n) : strongOf s' n = strongOf s n := by
  rw [strongOf, strongOf, h]

/-- First-child slots agree where records agree. -/
theorem firstRaw_congr (s s' : State) (n : Nat)
    (h : s'.node? n = s.node? n) : firstRaw s' n = firstRaw s n := by
  rw [firstRaw, firstRaw, h]

/-- Next-sibling slots agree where records agree. -/
theorem nextRaw_congr (s s' : State) (n : Nat)
    (h : s'.node? n = s.node? n) : nextRaw s' n = nextRaw s n := by
  rw [nextRaw, nextRaw, h]

/-- Unfolding of the tree realization check. -/
theorem repT_node (s : State) (i : Nat) (cs : List RTree) :
    repT s (.node i cs) ↔
      strongOf s i = 1 ∧ firstRaw s i = headIds cs ∧ repC s cs := by
  simp [repT, repTb, repC, Bool.and_eq_true, beq_iff_eq, and_assoc]

/-- The empty chain realization check holds. -/
theorem repC_nil (s : State) : repC s [] := rfl

/-- Unfolding of the chain realization check. -/
theorem repC_cons (s : State) (t : RTree) (ts : List RTree) :
    repC s (t :: ts) ↔
      repT s t ∧ nextRaw s t.rootId = headIds ts ∧ repC s ts := by
  simp [repT, repC, repCb, Bool.and_eq_true, beq_iff_eq, and_assoc]

mutual

/-- Tree realization transfers between heaps agreeing on the tree's ids. -/
theorem repT_frame (s s' : State) (t : RTree)
    (hag : ∀ n, n ∈ RTree.idsT t → s'.node? n = s.node? n)
    (h : repT s t) : repT s' t := by
  cases t with
  | node i cs =>
    rw [repT_node] at h ⊢
    have hi : s'.node? i = s.node? i :=
      hag i (by rw [RTree.idsT]; exact List.mem_cons_self i _)
    refine ⟨(strongOf_congr s s' i hi).trans h.1,
      (firstRaw_congr s s' i hi).trans h.2.1, ?_⟩
    refine repC_frame s s' cs (fun n hn => hag n ?_) h.2.2
    rw [RTree.idsT]
    exact List.mem_cons_of_mem i hn

/-- Chain realization transfers between heaps agreeing on the chain ids. -/
theorem repC_frame (s s' : State) (ts : List RTree)
    (hag : ∀ n, n ∈ RTree.idsC ts → s'.node? n = s.node? n)
    (h : repC s ts) : repC s' ts := by
  cases ts with
  | nil => exact repC_nil s'
  | cons t rest =>
    rw [repC_cons] at h ⊢
    have hroot : t.rootId ∈ RTree.idsC (t :: rest) := by
      rw [RTree.idsC]
      refine List.mem_append_left _ ?_
      cases t with
      | node i cs =>
        rw [RTree.idsT]
        exact List.mem_cons_self i _
    refine ⟨repT_frame s s' t (fun n hn => hag n ?_) h.1,
      (nextRaw_congr s s' t.rootId (hag _ hroot)).trans h.2.1,
      repC_frame s s' rest (fun n hn => hag n ?_) h.2.2⟩
    · rw [RTree.idsC]
      exact List.mem_append_left _ hn
    · rw [RTree.idsC]
      exact List.mem_append_right _ hn

end

/-- Every tree has at least one node. -/
theorem sizeT_pos (t : RTree) : 1 ≤ RTree.sizeT t := by
  cases t with
  | node i cs =>
    rw [RTree.sizeT]
    omega

mutual

/-- The postorder id list is a permutation of the preorder id list. -/
theorem postT_perm (t : RTree) : (RTree.postT t).Perm (RTree.idsT t) := by
  cases t with
  | node i cs =>
    rw [RTree.postT, RTree.idsT]
    exact (List.perm_append_singleton i (RTree.postC cs)).trans
      ((postC_perm cs).cons i)

/-- Chain version of the postorder permutation. -/
theorem postC_perm (ts : List RTree) : (RTree.postC ts).Perm (RTree.idsC ts) := by
  cases ts with
  | nil => exact List.Perm.refl []
  | cons t rest =>
    rw [RTree.postC, RTree.idsC]
    exact (postT_perm t).append (postC_perm rest)

end

/-- The root id of a tree is among its ids. -/
theorem rootId_mem_idsT (t : RTree) : t.rootId ∈ RTree.idsT t := by
  cases t with
  | node i cs =>
    rw [RTree.idsT]
    exact List.mem_cons_self i _

/-- Clearing a `parent` slot leaves every other node's record. -/
theorem node?_setParent_ne (s : State) (j i : Nat) (w : Option Nat)
    (h : j ≠ i) : (setParent s j w).node? i = s.node? i := by
  unfold setParent
  rw [node?_modifyNode, if_neg h]

/-- Clearing a `prev_sibling` slot leaves every other node's record. -/
theorem node?_setPrevSibling_ne (s : State) (j i : Nat) (w : Option Nat)
    (h : j ≠ i) : (setPrevSibling s j w).node? i = s.node? i := by
  unfold setPrevSibling
  rw [node?_modifyNode, if_neg h]

/-- Clearing a `next_sibling` slot leaves every other node's record. -/
theorem node?_setNextSibling_ne (s : State) (j i : Nat) (w : Option Nat)
    (h : j ≠ i) : (setNextSibling s j w).node? i = s.node? i := by
  unfold setNextSibling
  rw [node?_modifyNode, if_neg h]

/-- Decrementing a strong count leaves every other node's record. -/
theorem node?_decStrong_ne (s : State) (j i : Nat)
    (h : j ≠ i) : (decStrong s j).node? i = s.node? i := by
  unfold decStrong
  rw [node?_modifyNode, if_neg h]

/-- Releasing a ghost unit leaves every other node's record. -/
theorem node?_decTreeUnits_ne (s : State) (j i : Nat)
    (h : j ≠ i) : (decTreeUnits s j).node? i = s.node? i := by
  unfold decTreeUnits
  rw [node?_modifyNode, if_neg h]

/-- Projection of a release-log update. -/
theorem released_mkUpd (s : State) (r : List Nat) :
    (State.mk s.nodes r).released = r := rfl

/-- Record lookup ignores the release log. -/
theorem node?_mkUpd (s : State) (r : List Nat) (i : Nat) :
    (State.mk s.nodes r).node? i = s.node? i := rfl

/-- Strong counts ignore the release log. -/
theorem strongOf_mkUpd (s : State) (r : List Nat) (i : Nat) :
    strongOf (State.mk s.nodes r) i = strongOf s i := rfl

mutual

/-- Dropping the sole remaining strong handle on the root of a realized
subtree releases every node of the subtree exactly once, in postorder,
drives every strong count of the subtree to zero, and leaves every record
outside the subtree untouched. -/
theorem dropRc_spec (t : RTree) (s : State) (fuel : Nat)
    (hrep : repT s t) (hnd : (RTree.idsT t).Nodup)
    (hfuel : 4 * RTree.sizeT t ≤ fuel) :
    (dropGo fuel s (.rc t.rootId)).released = s.released ++ RTree.postT t ∧
    (∀ n, n ∉ RTree.idsT t →
      (dropGo fuel s (.rc t.rootId)).node? n = s.node? n) ∧
    (∀ n, n ∈ RTree.idsT t → strongOf (dropGo fuel s (.rc t.rootId)) n = 0) := by
  cases t with
  | node r cs =>
    rw [repT_node] at hrep
    obtain ⟨hstr, hfir, hrepc⟩ := hrep
    simp only [RTree.sizeT] at hfuel
    simp only [RTree.idsT] at hnd
    rw [List.nodup_cons] at hnd
    obtain ⟨hrnot, hndc⟩ := hnd
    obtain ⟨f, rfl⟩ : ∃ f, fuel = f + 2 := ⟨fuel - 2, by omega⟩
    have hrlt : r < s.nodes.length :=
      lt_length_of_strong s r (by rw [hstr]; exact Nat.one_pos)
    have h0 : strongOf (decStrong s r) r = 0 := by
      rw [strongOf_decStrong_self s r hrlt, hstr]
    have hfir1 : firstRaw (decStrong s r) r = headIds cs := by
      rw [firstRaw_decStrong]
      exact hfir
    have key : dropGo (f + 2) s (.rc (RTree.rootId (RTree.node r cs))) =
        { dropGo f (decStrong s r) (.childLoop (headIds cs)) with
          released :=
            (dropGo f (decStrong s r) (.childLoop (headIds cs))).released
              ++ [r] } := by
      simp only [RTree.rootId, dropGo]
      rw [if_pos h0, hfir1]
    have hframe1 : ∀ n, n ∈ RTree.idsC cs →
        (decStrong s r).node? n = s.node? n := by
      intro n hn
      exact node?_decStrong_ne s r n (fun h => hrnot (h ▸ hn))
    have hrepc1 : repC (decStrong s r) cs :=
      repC_frame s (decStrong s r) cs hframe1 hrepc
    obtain ⟨IHrel, IHfr, IHz⟩ :=
      dropChildren_spec cs (decStrong s r) f hrepc1 hndc (by omega)
    refine ⟨?_, ?_, ?_⟩
    · rw [key, released_mkUpd, IHrel, released_decStrong]
      simp [RTree.postT, List.append_assoc]
    · intro n hn
      simp only [RTree.idsT] at hn
      rw [List.mem_cons] at hn
      push_neg at hn
      obtain ⟨hnr, hnc⟩ := hn
      rw [key, node?_mkUpd, IHfr n hnc,
        node?_decStrong_ne s r n (Ne.symm hnr)]
    · intro n hn
      simp only [RTree.idsT] at hn
      rw [List.mem_cons] at hn
      rw [key, strongOf_mkUpd]
      rcases hn with hn | hn
      · subst hn
        rw [strongOf_congr (decStrong s n) _ n (IHfr n hrnot)]
        exact h0
      · exact IHz n hn

/-- Running the `Drop for Node` child loop over a realized sibling chain
releases every node of the chain's trees exactly once, in postorder, drives
their strong counts to zero, and leaves records outside the chain
untouched. -/
theorem dropChildren_spec (ts : List RTree) (s : State) (fuel : Nat)
    (hrep : repC s ts) (hnd : (RTree.idsC ts).Nodup)
    (hfuel : 4 * RTree.sizeC ts + 1 ≤ fuel) :
    (dropGo fuel s (.childLoop (headIds ts))).released =
      s.released ++ RTree.postC ts ∧
    (∀ n, n ∉ RTree.idsC ts →
      (dropGo fuel s (.childLoop (headIds ts))).node? n = s.node? n) ∧
    (∀ n, n ∈ RTree.idsC ts →
      strongOf (dropGo fuel s (.childLoop (headIds ts))) n = 0) := by
  cases ts with
  | nil =>
    obtain ⟨f, rfl⟩ : ∃ f, fuel = f + 1 := ⟨fuel - 1, by omega⟩
    refine ⟨?_, ?_, ?_⟩
    · simp [headIds, dropGo, RTree.postC]
    · intro n _
      simp [headIds, dropGo]
    · intro n hn
      simp [RTree.idsC] at hn
  | cons t rest =>
    cases t with
    | node r cs =>
      rw [repC_cons] at hrep
      obtain ⟨hrepT, hnext, hrepR⟩ := hrep
      simp only [RTree.rootId] at hnext
      have hstr : strongOf s r = 1 := by
        rw [repT_node] at hrepT
        exact hrepT.1
      simp only [RTree.sizeC, RTree.sizeT] at hfuel
      simp only [RTree.idsC] at hnd
      rw [List.nodup_append] at hnd
      obtain ⟨hndT, hndR, hdisj⟩ := hnd
      obtain ⟨f, rfl⟩ : ∃ f, fuel = f + 1 := ⟨fuel - 1, by omega⟩
      have hrmem : r ∈ RTree.idsT (RTree.node r cs) :=
        rootId_mem_idsT (RTree.node r cs)
      have hw : nextRaw
          (setPrevSibling (setParent (decTreeUnits s r) r none) r none) r =
          headIds rest := by
        simp [hnext]
      have key : dropGo (f + 1) s
            (.childLoop (headIds (RTree.node r cs :: rest))) =
          dropGo f
            (dropGo f
              (setNextSibling
                (setPrevSibling (setParent (decTreeUnits s r) r none) r none)
                r none)
              (.rc r))
            (.childLoop (headIds rest)) := by
        have hh : headIds (RTree.node r cs :: rest) = some r := rfl
        rw [hh]
        simp only [dropGo]
        rw [if_pos (by rw [hstr]; exact Nat.one_pos), hw]
      have hS2ne : ∀ n, n ≠ r →
          (setNextSibling
            (setPrevSibling (setParent (decTreeUnits s r) r none) r none)
            r none).node? n = s.node? n := by
        intro n h
        rw [node?_setNextSibling_ne _ _ _ _ (Ne.symm h),
          node?_setPrevSibling_ne _ _ _ _ (Ne.symm h),
          node?_setParent_ne _ _ _ _ (Ne.symm h),
          node?_decTreeUnits_ne _ _ _ (Ne.symm h)]
      have hrepT2 : repT
          (setNextSibling
            (setPrevSibling (setParent (decTreeUnits s r) r none) r none)
            r none)
          (RTree.node r cs) := by
        rw [repT_node] at hrepT ⊢
        refine ⟨?_, ?_, ?_⟩
        · simp [hrepT.1]
        · simp [hrepT.2.1]
        · refine repC_frame s _ cs (fun n hn => hS2ne n ?_) hrepT.2.2
          intro h
          have hr : (RTree.idsT (RTree.node r cs)).Nodup := hndT
          simp only [RTree.idsT] at hr
          rw [List.nodup_cons] at hr
          exact hr.1 (h ▸ hn)
      obtain ⟨IH1rel, IH1fr, IH1z⟩ :=
        dropRc_spec (RTree.node r cs)
          (setNextSibling
            (setPrevSibling (setParent (decTreeUnits s r) r none) r none)
            r none)
          f hrepT2 hndT (by simp only [RTree.sizeT]; omega)
      simp only [RTree.rootId] at IH1rel IH1fr IH1z
      have hS2rel :
          (setNextSibling
            (setPrevSibling (setParent (decTreeUnits s r) r none) r none)
            r none).released = s.released := by
        simp
      have hrepR3 : repC
          (dropGo f
            (setNextSibling
              (setPrevSibling (setParent (decTreeUnits s r) r none) r none)
              r none)
            (.rc r)) rest := by
        refine repC_frame s _ rest (fun n hn => ?_) hrepR
        have hnT : n ∉ RTree.idsT (RTree.node r cs) :=
          fun hin => hdisj hin hn
        rw [IH1fr n hnT, hS2ne n (fun h => hnT (h ▸ hrmem))]
      obtain ⟨IH2rel, IH2fr, IH2z⟩ :=
        dropChildren_spec rest
          (dropGo f
            (setNextSibling
              (setPrevSibling (setParent (decTreeUnits s r) r none) r none)
              r none)
            (.rc r))
          f hrepR3 hndR (by omega)
      refine ⟨?_, ?_, ?_⟩
      · rw [key, IH2rel, IH1rel, hS2rel]
        simp [RTree.postC, List.append_assoc]
      · intro n hn
        simp only [RTree.idsC] at hn
        rw [List.mem_append] at hn
        push_neg at hn
        obtain ⟨hnT, hnR⟩ := hn
        rw [key, IH2fr n hnR, IH1fr n hnT, hS2ne n (fun h => hnT (h ▸ hrmem))]
      · intro n hn
        simp only [RTree.idsC] at hn
        rw [List.mem_append] at hn
        rw [key]
        rcases hn with hn | hn
        · have hnR : n ∉ RTree.idsC rest := fun hin => hdisj hn hin
          rw [strongOf_congr _ _ n (IH2fr n hnR)]
          exact IH1z n hn
        · exact IH2z n hn

end

/-- Under the invariant an attached live node carries exactly one tree-held
ownership unit. -/
theorem units_of_attached (s : State) (hWF : WF s) (n p : Nat)
    (hn : n < s.nodes.length) (hpos : 0 < strongOf s n)
    (hpar : parentRaw s n = some p) : treeUnitsOf s n = 1 := by
  obtain ⟨hp, hppos, hmem⟩ := (hWF.2 n hn hpos).2.1 p hpar
  obtain ⟨-, -, hsg, -⟩ := hWF.1 p hp hppos
  exact (segOk_mem s p _ none none n hsg hmem).2.2.2

/-- C1: the ownership-unit bump and release are always paired.  Under the
invariant a live node holds 0 tree units while a root and exactly 1 while
attached; a successful `attach` bumps the attached node's strong count and
tree-held unit count by one and no other; `detach` of an attached node
releases exactly that one unit and one strong count and no other; `detach`
of a root changes nothing; `new` grants no unit to any node. -/
theorem c1_ownership_units_paired (s : State) (hWF : WF s) :
    (∀ n, n < s.nodes.length → 0 < strongOf s n →
      (Node.is_root s n = true → treeUnitsOf s n = 0) ∧
      (Node.is_root s n = false → treeUnitsOf s n = 1)) ∧
    (∀ i t node s', node < s.nodes.length →
      Node.attach s i t node = .ok s' →
      strongOf s' node = strongOf s node + 1 ∧
      treeUnitsOf s' node = treeUnitsOf s node + 1 ∧
      ∀ m, m ≠ node →
        strongOf s' m = strongOf s m ∧ treeUnitsOf s' m = treeUnitsOf s m) ∧
    (∀ i p, i < s.nodes.length → 0 < strongOf s i →
      treeUnitsOf s i < strongOf s i → parentRaw s i = some p →
      treeUnitsOf s i = 1 ∧
      strongOf (Node.detach s i) i + 1 = strongOf s i ∧
      treeUnitsOf (Node.detach s i) i = 0 ∧
      ∀ m, m ≠ i →
        strongOf (Node.detach s i) m = strongOf s m ∧
        treeUnitsOf (Node.detach s i) m = treeUnitsOf s m) ∧
    (∀ i, i < s.nodes.length → 0 < strongOf s i →
      Node.is_root s i = true → Node.detach s i = s) ∧
    (treeUnitsOf (Node.new s).2 (Node.new s).1 = 0 ∧
      ∀ m, m < s.nodes.length →
        treeUnitsOf (Node.new s).2 m = treeUnitsOf s m) := by
  refine ⟨?_, ?_, ?_, ?_, ?_, ?_⟩
  · intro n hn hpos
    constructor
    · intro h
      exact ((hWF.2 n hn hpos).1 ((is_root_eq_true s n).mp h)).2.2
    · intro h
      cases hpar : parentRaw s n with
      | none =>
        have hr := (is_root_eq_true s n).mpr hpar
        rw [h] at hr
        cases hr
      | some p => exact units_of_attached s hWF n p hn hpos hpar
  · intro i t node s' hnd hok
    exact attach_ok_delta s i t node s' hnd hok
  · intro i p hi hpos hcall hpar
    have h1 := units_of_attached s hWF i p hi hpos hpar
    obtain ⟨l₁, l₂, -, hpost⟩ := detach_attached s i p hWF hi hpos hcall hpar
    exact ⟨h1, hpost.2.2.2.2.2.1, hpost.2.2.2.2.2.2.1,
      fun m hm => hpost.2.2.2.2.2.2.2.1 m hm⟩
  · intro i hi hpos hroot
    exact detach_root_id s i hWF hi hpos ((is_root_eq_true s i).mp hroot)
  · unfold Node.new treeUnitsOf State.node?
    simp only
    rw [List.getElem?_concat_length]
    rfl
  · intro m hm
    unfold Node.new treeUnitsOf State.node?
    simp only
    rw [List.getElem?_append, if_pos hm]

/-- Concrete instance of C1: in the one-child scenario heap the attached
node carries exactly one tree-held unit and a root would carry none. -/
theorem c1_witness :
    WF stAdd1 ∧ 1 < stAdd1.nodes.length ∧ 0 < strongOf stAdd1 1 ∧
    ((Node.is_root stAdd1 1 = true → treeUnitsOf stAdd1 1 = 0) ∧
     (Node.is_root stAdd1 1 = false → treeUnitsOf stAdd1 1 = 1)) :=
  ⟨(WF_iff_WFb stAdd1).mpr (by decide), by decide, by decide,
    (c1_ownership_units_paired stAdd1
      ((WF_iff_WFb stAdd1).mpr (by decide))).1 1 (by decide) (by decide)⟩

/-- C2: no leak on subtree drop.  If a subtree is realized in the heap with
no external handles left except the one on its root, then dropping that
last handle releases every node of the subtree exactly once (in postorder),
drives every strong count of the subtree to zero, and leaves every record
outside the subtree untouched. -/
theorem c2_no_leak_on_drop (t : RTree) (s : State) (fuel : Nat)
    (hrep : repT s t) (hnd : (RTree.idsT t).Nodup)
    (hfuel : 4 * RTree.sizeT t ≤ fuel) :
    (dropRc fuel s t.rootId).released = s.released ++ RTree.postT t ∧
    (∀ n, n ∈ RTree.idsT t → (RTree.postT t).count n = 1) ∧
    (∀ n, n ∉ RTree.idsT t → n ∉ RTree.postT t) ∧
    (∀ n, n ∉ RTree.idsT t →
      (dropRc fuel s t.rootId).node? n = s.node? n) ∧
    (∀ n, n ∈ RTree.idsT t → strongOf (dropRc fuel s t.rootId) n = 0) := by
  obtain ⟨hrel, hfr, hz⟩ := dropRc_spec t s fuel hrep hnd hfuel
  refine ⟨hrel, ?_, ?_, hfr, hz⟩
  · intro n hnmem
    rw [(postT_perm t).count_eq n]
    exact List.count_eq_one_of_mem hnd hnmem
  · intro n hnmem hpost
    exact hnmem ((postT_perm t).mem_iff.mp hpost)

/-- Concrete instance of C2: tearing down the four-node scenario tree
releases exactly its four nodes, children before parents. -/
theorem c2_witness :
    repT stRel dropTree ∧ (RTree.idsT dropTree).Nodup ∧
    4 * RTree.sizeT dropTree ≤ 30 ∧
    (dropRc 30 stRel dropTree.rootId).released =
      stRel.released ++ RTree.postT dropTree :=
  ⟨by decide, by decide, by decide,
    (c2_no_leak_on_drop dropTree stRel 30 (by decide) (by decide)
      (by decide)).1⟩

/-- C3: the round-trip linkage claim fails on the code as written.  In the
scenario heap where root R = 0 received child A = 1 via `add_child_last`,
A occurs exactly once in R's children sequence and `A.parent()` upgrades to
R, but `R.last_child()` upgrades to `none` rather than A: the accessor
reads R's `prev_sibling` slot, even though the `last_child` slot itself
correctly holds A. -/
theorem c3_last_child_roundtrip_fails :
    (Node.add_child_last stC 0 1).toOption = some stAdd1 ∧
    (Node.children stAdd1 0).count 1 = 1 ∧
    upgrade stAdd1 (Node.parent stAdd1 1) = some 0 ∧
    upgrade stAdd1 (Node.last_child stAdd1 0) = none ∧
    upgrade stAdd1 (Node.last_child stAdd1 0) ≠ some 1 ∧
    lastRaw stAdd1 0 = some 1 := by decide

/-- C4: the public accessors `last_child` and `prev_sibling` are the same
function on every heap and node: both read the `prev_sibling` slot. -/
theorem c4_last_child_eq_prev_sibling :
    ∀ (s : State) (i : Nat), Node.last_child s i = Node.prev_sibling s i :=
  fun _ _ => rfl

/-- C5: `remove_last_child` does not return the last child when one exists.
In the scenario heap where root R = 0 has exactly the child A = 1 (and the
`last_child` slot of R holds A), `remove_last_child` returns `none` and
leaves the heap unchanged, because it upgrades `last_child()`, which reads
R's empty `prev_sibling` slot. -/
theorem c5_remove_last_child_misses_child :
    Node.children stAdd1 0 = [1] ∧
    lastRaw stAdd1 0 = some 1 ∧
    Node.remove_last_child stAdd1 0 = (none, stAdd1) := by decide

/-- C6: `attach` fails exactly when its preconditions are violated: under
the invariant, with a live `self`, the call succeeds if and only if the
node being attached is a root and, for the relative targets `Before` and
`After`, `self` itself is not a root. -/
theorem c6_attach_error_iff (s : State) (i : Nat) (t : AttachTarget)
    (node : Nat) (hWF : WF s) (hi : i < s.nodes.length)
    (hipos : 0 < strongOf s i) :
    (Node.attach s i t node).isOk = true ↔
      (Node.is_root s node = true ∧
        ((t = .Before ∨ t = .After) → Node.is_root s i = false)) :=
  attach_isOk_iff s i t node hWF hi hipos

/-- Concrete instance of C6: attaching the fresh root B as last child of
the already-populated root R succeeds exactly as characterized. -/
theorem c6_witness :
    WF stAdd1 ∧ 0 < stAdd1.nodes.length ∧ 0 < strongOf stAdd1 0 ∧
    ((Node.attach stAdd1 0 .LastChild 2).isOk = true ↔
      (Node.is_root stAdd1 2 = true ∧
        ((AttachTarget.LastChild = .Before ∨ AttachTarget.LastChild = .After) →
          Node.is_root stAdd1 0 = false))) :=
  ⟨(WF_iff_WFb stAdd1).mpr (by decide), by decide, by decide,
    c6_attach_error_iff stAdd1 0 .LastChild 2
      ((WF_iff_WFb stAdd1).mpr (by decide)) (by decide) (by decide)⟩

/-- C7: effect of `detach` on an attached node: afterwards the node is a
root, it no longer occurs in its former parent's children sequence, and
the neighbours are patched exactly as specified — the previous sibling's
`next_sibling` (or the parent's `first_child`) becomes the old
`next_sibling`, and the next sibling's `prev_sibling` (or the parent's
`last_child`) becomes the old `prev_sibling`. -/
theorem c7_detach_effect (s : State) (i p : Nat)
    (hWF : WF s) (hi : i < s.nodes.length) (hipos : 0 < strongOf s i)
    (hcall : treeUnitsOf s i < strongOf s i)
    (hpar : parentRaw s i = some p) :
    Node.is_root (Node.detach s i) i = true ∧
    i ∉ Node.children (Node.detach s i) p ∧
    (∀ pv, prevRaw s i = some pv →
      nextRaw (Node.detach s i) pv = nextRaw s i) ∧
    (prevRaw s i = none → firstRaw (Node.detach s i) p = nextRaw s i) ∧
    (∀ nx, nextRaw s i = some nx →
      prevRaw (Node.detach s i) nx = prevRaw s i) ∧
    (nextRaw s i = none → lastRaw (Node.detach s i) p = prevRaw s i) := by
  obtain ⟨hplt, hppos, hmem⟩ := (hWF.2 i hi hipos).2.1 p hpar
  have hnodup := (hWF.1 p hplt hppos).2.2.2
  obtain ⟨l₁, l₂, hc, hpost⟩ := detach_attached s i p hWF hi hipos hcall hpar
  refine ⟨(is_root_eq_true _ i).mpr hpost.2.2.1, ?_,
    hpost.2.2.2.2.2.2.2.2.2.2.2.1,
    hpost.2.2.2.2.2.2.2.2.2.2.2.2.1,
    hpost.2.2.2.2.2.2.2.2.2.2.2.2.2.1,
    hpost.2.2.2.2.2.2.2.2.2.2.2.2.2.2⟩
  rw [hpost.2.1]
  rw [hc] at hnodup
  rw [List.nodup_append] at hnodup
  obtain ⟨-, h2, hdisj⟩ := hnodup
  rw [List.nodup_cons] at h2
  intro hmem'
  rw [List.mem_append] at hmem'
  rcases hmem' with h | h
  · exact hdisj h (List.mem_cons_self i l₂)
  · exact h2.1 h

/-- Concrete instance of C7: detaching the middle child B = 2 of the
three-child scenario heap. -/
theorem c7_witness :
    WF stAdd3 ∧ 2 < stAdd3.nodes.length ∧ 0 < strongOf stAdd3 2 ∧
    treeUnitsOf stAdd3 2 < strongOf stAdd3 2 ∧ parentRaw stAdd3 2 = some 0 ∧
    (Node.is_root (Node.detach stAdd3 2) 2 = true ∧
     2 ∉ Node.children (Node.detach stAdd3 2) 0 ∧
     (∀ pv, prevRaw stAdd3 2 = some pv →
       nextRaw (Node.detach stAdd3 2) pv = nextRaw stAdd3 2) ∧
     (prevRaw stAdd3 2 = none →
       firstRaw (Node.detach stAdd3 2) 0 = nextRaw stAdd3 2) ∧
     (∀ nx, nextRaw stAdd3 2 = some nx →
       prevRaw (Node.detach stAdd3 2) nx = prevRaw stAdd3 2) ∧
     (nextRaw stAdd3 2 = none →
       lastRaw (Node.detach stAdd3 2) 0 = prevRaw stAdd3 2)) :=
  ⟨(WF_iff_WFb stAdd3).mpr (by decide), by decide, by decide, by decide,
    by decide,
    c7_detach_effect stAdd3 2 0 ((WF_iff_WFb stAdd3).mpr (by decide))
      (by decide) (by decide) (by decide) (by decide)⟩

/-- C8: `detach` has no precondition and is idempotent: under the
invariant, detaching a live root leaves the heap unchanged, and a second
`detach` of the same node right after a first one is a no-op. -/
theorem c8_detach_idempotent (s : State) (i : Nat)
    (hWF : WF s) (hi : i < s.nodes.length) (hipos : 0 < strongOf s i) :
    (Node.is_root s i = true → Node.detach s i = s) ∧
    (treeUnitsOf s i < strongOf s i →
      Node.detach (Node.detach s i) i = Node.detach s i) := by
  constructor
  · intro h
    exact detach_root_id s i hWF hi hipos ((is_root_eq_true s i).mp h)
  · intro hcall
    exact detach_idem s i hWF hi hipos hcall

/-- Concrete instance of C8: B = 2 is a root of the post-detach scenario
heap, and detaching it (again) is a no-op. -/
theorem c8_witness :
    WF stDet ∧ 2 < stDet.nodes.length ∧ 0 < strongOf stDet 2 ∧
    ((Node.is_root stDet 2 = true → Node.detach stDet 2 = stDet) ∧
     (treeUnitsOf stDet 2 < strongOf stDet 2 →
       Node.detach (Node.detach stDet 2) 2 = Node.detach stDet 2)) :=
  ⟨(WF_iff_WFb stDet).mpr (by decide), by decide, by decide,
    c8_detach_idempotent stDet 2 ((WF_iff_WFb stDet).mpr (by decide))
      (by decide) (by decide)⟩

/-- C9: sibling-chain consistency is an invariant of every public
operation.  Under the invariant, every attached live node with empty
`prev_sibling` is its parent's `first_child`, with empty `next_sibling` is
its parent's `last_child`, adjacency is symmetric (`P.next_sibling = N`
implies `N.prev_sibling = P`), and a node occurs in the children sequence
of at most one live parent and exactly once there; and the invariant is
preserved by `new`, `attach`, `detach` and `remove_last_child`. -/
theorem c9_sibling_chain_invariant (s : State) (hWF : WF s) :
    (∀ n p, n < s.nodes.length → 0 < strongOf s n → parentRaw s n = some p →
      (prevRaw s n = none → firstRaw s p = some n) ∧
      (nextRaw s n = none → lastRaw s p = some n) ∧
      (∀ m, nextRaw s n = some m → prevRaw s m = some n) ∧
      (Node.children s p).count n = 1 ∧
      (∀ q, q < s.nodes.length → 0 < strongOf s q →
        n ∈ Node.children s q → q = p)) ∧
    WF (Node.new s).2 ∧
    (∀ i t node s', i < s.nodes.length → 0 < strongOf s i →
      node < s.nodes.length → 0 < strongOf s node →
      Node.attach s i t node = .ok s' → WF s') ∧
    (∀ i, i < s.nodes.length → 0 < strongOf s i →
      treeUnitsOf s i < strongOf s i → WF (Node.detach s i)) ∧
    (∀ i x s'', i < s.nodes.length → 0 < strongOf s i →
      Node.remove_last_child s i = (x, s'') → WF s'') := by
  refine ⟨?_, WF_new s hWF, ?_, ?_, ?_⟩
  · intro n p hn hpos hpar
    obtain ⟨hp, hppos, hmem⟩ := (hWF.2 n hn hpos).2.1 p hpar
    obtain ⟨hf, hl, hsg, hnodup⟩ := hWF.1 p hp hppos
    obtain ⟨l₁, l₂, hL, hprev, hnext⟩ := segOk_decompose s p _ hsg n hmem
    refine ⟨?_, ?_, ?_, List.count_eq_one_of_mem hnodup hmem, ?_⟩
    · intro h0
      have hg : l₁.getLast? = none := by
        rw [← prevBound_none, ← hprev, h0]
      have h1 : l₁ = [] := List.getLast?_eq_none_iff.mp hg
      rw [hf, hL, h1]
      simp
    · intro h0
      cases l₂ with
      | nil =>
        rw [hl, hL]
        simp
      | cons m l₂' =>
        rw [nextBound_cons] at hnext
        rw [h0] at hnext
        cases hnext
    · intro m hm
      cases l₂ with
      | nil =>
        rw [nextBound_nil] at hnext
        rw [hm] at hnext
        cases hnext
      | cons m' l₂' =>
        rw [nextBound_cons] at hnext
        rw [hm] at hnext
        have hmm : m' = m := (Option.some.inj hnext).symm
        rw [hmm] at hL
        have h := hsg
        rw [hL] at h
        rw [segOk_append] at h
        have h2 := (segOk_cons s p n _ none (m :: l₂')).mp h.2
        have h3 := (segOk_cons s p m (some n) none l₂').mp h2.2.2.2.2.2.2
        exact h3.2.1
    · intro q hq hqpos hqmem
      obtain ⟨-, -, hsgq, -⟩ := hWF.1 q hq hqpos
      have hpq := (segOk_mem s q _ none none n hsgq hqmem).2.1
      rw [hpar] at hpq
      exact (Option.some.inj hpq).symm
  · intro i t node s' hi hipos hnd hndpos hok
    cases t with
    | FirstChild =>
      exact (attach_firstChild_post s i node s' hWF hi hipos hnd hndpos hok).1
    | LastChild =>
      exact (attach_lastChild_post s i node s' hWF hi hipos hnd hndpos hok).1
    | After =>
      obtain ⟨p, l₁, l₂, -, -, hpost⟩ :=
        attach_after_post s i node s' hWF hi hipos hnd hndpos hok
      exact hpost.1
    | Before =>
      obtain ⟨p, l₁, l₂, -, -, hpost⟩ :=
        attach_before_post s i node s' hWF hi hipos hnd hndpos hok
      exact hpost.1
  · intro i hi hipos hcall
    cases hpar : parentRaw s i with
    | none =>
      rw [detach_root_id s i hWF hi hipos hpar]
      exact hWF
    | some p =>
      obtain ⟨l₁, l₂, -, hpost⟩ := detach_attached s i p hWF hi hipos hcall hpar
      exact hpost.1
  · intro i x s'' hi hipos hrm
    unfold Node.remove_last_child at hrm
    cases hup : upgrade s (Node.last_child s i) with
    | none =>
      simp only [hup] at hrm
      rw [Prod.mk.injEq] at hrm
      rw [← hrm.2]
      exact hWF
    | some y =>
      simp only [hup] at hrm
      rw [Prod.mk.injEq] at hrm
      rw [← hrm.2]
      obtain ⟨-, hypos⟩ := upgrade_eq_some s (Node.last_child s i) y hup
      have hylt : y < s.nodes.length := lt_length_of_strong s y hypos
      have hWF1 : WF (incStrong s y) := WF_incStrong s y hWF hypos
      have hylt1 : y < (incStrong s y).nodes.length := by
        rw [length_incStrong]
        exact hylt
      have hypos1 : 0 < strongOf (incStrong s y) y := by
        rw [strongOf_incStrong_self s y hylt]
        omega
      have hcall1 :
          treeUnitsOf (incStrong s y) y < strongOf (incStrong s y) y := by
        rw [strongOf_incStrong_self s y hylt, treeUnitsOf_incStrong]
        have := (hWF.2 y hylt hypos).2.2
        omega
      cases hpar : parentRaw (incStrong s y) y with
      | none =>
        rw [detach_root_id _ y hWF1 hylt1 hypos1 hpar]
        exact hWF1
      | some q =>
        obtain ⟨l₁, l₂, -, hpost⟩ :=
          detach_attached _ y q hWF1 hylt1 hypos1 hcall1 hpar
        exact hpost.1

/-- Concrete instance of C9: the middle child B = 2 of the three-child
scenario heap satisfies every sibling-chain consistency clause. -/
theorem c9_witness :
    WF stAdd3 ∧ 2 < stAdd3.nodes.length ∧ 0 < strongOf stAdd3 2 ∧
    parentRaw stAdd3 2 = some 0 ∧
    ((prevRaw stAdd3 2 = none → firstRaw stAdd3 0 = some 2) ∧
     (nextRaw stAdd3 2 = none → lastRaw stAdd3 0 = some 2) ∧
     (∀ m, nextRaw stAdd3 2 = some m → prevRaw stAdd3 m = some 2) ∧
     (Node.children stAdd3 0).count 2 = 1 ∧
     (∀ q, q < stAdd3.nodes.length → 0 < strongOf stAdd3 q →
       2 ∈ Node.children stAdd3 q → q = 0)) :=
  ⟨(WF_iff_WFb stAdd3).mpr (by decide), by decide, by decide, by decide,
    (c9_sibling_chain_invariant stAdd3
      ((WF_iff_WFb stAdd3).mpr (by decide))).1 2 0 (by decide) (by decide)
      (by decide)⟩

/-- C10: the concrete scenario of the specification.  Starting from four
fresh roots R = 0, A = 1, B = 2, C = 3, the three `add_child_last` calls
succeed and give R the children sequence [A, B, C]; after `B.detach()` the
sequence is [A, C], A's `next_sibling` upgrades to C, C's `prev_sibling`
upgrades to A, and B is a root again. -/
theorem c10_scenario :
    (Node.add_child_last stC 0 1).toOption = some stAdd1 ∧
    (Node.add_child_last stAdd1 0 2).toOption = some stAdd2 ∧
    (Node.add_child_last stAdd2 0 3).toOption = some stAdd3 ∧
    Node.children stAdd3 0 = [1, 2, 3] ∧
    stDet = Node.detach stAdd3 2 ∧
    Node.children stDet 0 = [1, 3] ∧
    upgrade stDet (Node.next_sibling stDet 1) = some 3 ∧
    upgrade stDet (Node.prev_sibling stDet 3) = some 1 ∧
    Node.is_root stDet 2 = true := by decide
